import Mathlib

/-!
# ecfformat: a shallow embedding of the ECF decoder (decoder.go)

Go strings are modelled by their rune sequences (`Str := List Char`, valid UTF-8
text), slices by their element sequences (a nil slice and an empty slice are the
same list), maps by association lists in insertion order together with a nil flag.
The target of a decode is a flat struct value: its fields in declaration order.
Lines are the tokens delivered by `bufio.Scanner` with `bufio.ScanLines`.
What `fmt.Println` writes to standard output is not part of the model.
-/

namespace Ecf

/-- Text: the runes of a Go string. -/
abbrev Str := List Char

/-- Tables and routines of the Go runtime library that `decoder.go` reaches through
`strings`, `unicode`, `reflect` and `strconv` and that are not part of the
repository. The Unicode tables are consulted for runes above U+007F only; ASCII
is handled by the embedding itself. Floats are carried as their IEEE-754 bits. -/
structure Env where
  /-- Table `unicode.ToLower` for runes above U+007F. -/
  toLower : Char → Char
  /-- Table `unicode.ToTitle` for runes above U+007F. -/
  toTitle : Char → Char
  /-- Table `unicode.IsLetter` for runes above U+007F. -/
  isLetter : Char → Bool
  /-- Table `unicode.IsDigit` for runes above U+007F. -/
  isDigit : Char → Bool
  /-- Table `unicode.IsUpper` for runes above U+007F. -/
  isUpper : Char → Bool
  /-- Routine `strconv.ParseFloat(s, 64)`: the bits of the float64, `none` on any error. -/
  parseFloat : Str → Option Nat
  /-- Whether a float64 does not fit a float32 (`reflect.Value.OverflowFloat`). -/
  overflowFloat32 : Nat → Bool
  /-- Conversion float64 to float32 done by `reflect.Value.SetFloat` on a float32. -/
  toFloat32 : Nat → Nat

/-- An instance of the library tables that leaves every rune above U+007F alone
and parses no float; used to evaluate the decoder on ASCII documents. -/
def Env.ascii : Env where
  toLower := fun c => c
  toTitle := fun c => c
  isLetter := fun _ => false
  isDigit := fun _ => false
  isUpper := fun _ => false
  parseFloat := fun _ => none
  overflowFloat32 := fun _ => false
  toFloat32 := fun x => x

/-! ## Library functions used by the decoder -/

/-- Predicate `unicode.IsSpace`: the Latin-1 spaces and the White_Space table. -/
def isSpace (c : Char) : Bool :=
  let n := c.toNat
  n = 0x09 || n = 0x0A || n = 0x0B || n = 0x0C || n = 0x0D || n = 0x20 ||
  n = 0x85 || n = 0xA0 || n = 0x1680 || (0x2000 ≤ n && n ≤ 0x200A) ||
  n = 0x2028 || n = 0x2029 || n = 0x202F || n = 0x205F || n = 0x3000

/-- Function `strings.TrimSpace`: drop the leading and trailing white space. -/
def trimSpace (s : Str) : Str :=
  ((s.dropWhile isSpace).reverse.dropWhile isSpace).reverse

/-- The class `\s` of Go regular expressions: tab, newline, form feed, carriage
return and space. -/
def isReSpace (c : Char) : Bool :=
  let n := c.toNat
  n = 0x09 || n = 0x0A || n = 0x0C || n = 0x0D || n = 0x20

/-- Call `wsRegex.FindStringSubmatch(line)` for `wsRegex = ^(\s+)`: `none` when the
line does not start with white space, else the whole leading run (`matches[0]`). -/
def wsRegexFind (line : Str) : Option Str :=
  match line.takeWhile isReSpace with
  | [] => none
  | w => some w

/-- Function `unicode.ToLower` on one rune. -/
def toLowerRune (E : Env) (c : Char) : Char :=
  if c.toNat ≤ 0x7F then
    if 65 ≤ c.toNat ∧ c.toNat ≤ 90 then Char.ofNat (c.toNat + 32) else c
  else E.toLower c

/-- Function `unicode.ToTitle` on one rune. -/
def toTitleRune (E : Env) (c : Char) : Char :=
  if c.toNat ≤ 0x7F then
    if 97 ≤ c.toNat ∧ c.toNat ≤ 122 then Char.ofNat (c.toNat - 32) else c
  else E.toTitle c

/-- Function `strings.ToLower`. -/
def toLower (E : Env) (s : Str) : Str := s.map (toLowerRune E)

/-- Function `isSeparator` of package `strings`: ASCII alphanumerics and underscore
are not separators, nor are letters and digits; otherwise spaces are. -/
def isSeparator (E : Env) (c : Char) : Bool :=
  let n := c.toNat
  if n ≤ 0x7F then
    !((48 ≤ n && n ≤ 57) || (97 ≤ n && n ≤ 122) || (65 ≤ n && n ≤ 90) || n = 95)
  else if E.isLetter c || E.isDigit c then false
  else isSpace c

/-- The loop of `strings.Title`: `prev` is the rune seen before. -/
def titleFrom (E : Env) : Char → Str → Str
  | _, [] => []
  | prev, r :: rest =>
    (if isSeparator E prev then toTitleRune E r else r) :: titleFrom E r rest

/-- Function `strings.Title`: upper-case the first rune of every word. -/
def title (E : Env) (s : Str) : Str := titleFrom E ' ' s

/-- Call `strings.SplitN(line, sep, 2)` for a one-rune separator: `none` when the
result has one part (no separator), else the text before and after the first one. -/
def splitN2 (sep : Char) : Str → Option (Str × Str)
  | [] => none
  | c :: rest =>
    if c = sep then some ([], rest)
    else match splitN2 sep rest with
      | none => none
      | some (a, b) => some (c :: a, b)

/-- The loop of `strings.Split` for a one-rune separator; `cur` is the piece being
read, reversed. -/
def splitFrom (sep : Char) : Str → Str → List Str
  | cur, [] => [cur.reverse]
  | cur, c :: rest =>
    if c = sep then cur.reverse :: splitFrom sep [] rest
    else splitFrom sep (c :: cur) rest

/-- Function `strings.Split(s, sep)` for a one-rune separator. -/
def split (sep : Char) (s : Str) : List Str := splitFrom sep [] s

/-- The loop of `strconv.ParseUint(s, 10, 64)` over the remaining runes, `n` being
the value read so far; `none` stands for any error (syntax or range). -/
def parseUintFrom : Nat → Str → Option Nat
  | n, [] => some n
  | n, c :: rest =>
    if 48 ≤ c.toNat ∧ c.toNat ≤ 57 then
      let d := c.toNat - 48
      -- cutoff = maxUint64/10 + 1: n*10 would overflow
      if n ≥ (2 ^ 64 - 1) / 10 + 1 then none
      else
        let n10 := (n * 10) % 2 ^ 64
        let n1 := (n10 + d) % 2 ^ 64
        if n1 < n10 ∨ n1 > 2 ^ 64 - 1 then none
        else parseUintFrom n1 rest
    else none

/-- Function `strconv.ParseUint(s, 10, 64)`; `none` stands for `err != nil`. -/
def parseUint (s : Str) : Option Nat :=
  match s with
  | [] => none
  | _ => parseUintFrom 0 s

/-- Function `strconv.ParseInt(s, 10, 64)`; `none` stands for `err != nil`. -/
def parseInt (s : Str) : Option Int :=
  match s with
  | [] => none
  | c :: rest =>
    let neg := decide (c = '-')
    let digits := if c = '+' ∨ c = '-' then rest else s
    match parseUint digits with
    | none => none
    | some un =>
      if ¬ neg ∧ un ≥ 2 ^ 63 then none
      else if neg ∧ un > 2 ^ 63 then none
      else some (if neg then - (un : Int) else (un : Int))

/-! ## Data model: the target record seen through `reflect` -/

/-- A field of a named block (the element struct of a `map[string]T` field). -/
inductive BVal where
  /-- A field of type `string`. -/
  | str (s : Str)
  /-- A field of type `[]string`. -/
  | strSlice (xs : List Str)
  /-- A field of any other type. -/
  | other
  deriving DecidableEq, Repr

/-- A struct value used as map element: its fields in declaration order. -/
abbrev Block := List (Str × BVal)

/-- The value of one field of the target record, by the shape the decoder
distinguishes (`reflect.Kind`, element and key kinds). -/
inductive Value where
  /-- Kind `String`. -/
  | str (s : Str)
  /-- Kinds `Int`, `Int8`, `Int16`, `Int32`, `Int64` with the width in bits. -/
  | int (bits : Nat) (v : Int)
  /-- Kinds `Uint`, `Uint8`, ..., `Uintptr` with the width in bits. -/
  | uint (bits : Nat) (v : Nat)
  /-- Kinds `Float32` and `Float64` with the width in bits; the value as IEEE bits. -/
  | float (bits : Nat) (v : Nat)
  /-- Kind `Bool`. -/
  | bool (b : Bool)
  /-- Type `[]string`: a simple list. -/
  | strSlice (xs : List Str)
  /-- A slice whose element kind is not `String`. -/
  | otherSlice
  /-- Type `map[string][]string`: named simple lists. -/
  | namedList (isNil : Bool) (m : List (Str × List Str))
  /-- Type `map[string]T` for a struct type `T`, given by its zero value `zero`. -/
  | blocks (zero : Block) (isNil : Bool) (m : List (Str × Block))
  /-- Type `map[string]*T`. -/
  | ptrMap (isNil : Bool)
  /-- Any other map; `keyIsString` tells whether the key kind is `String`. -/
  | otherMap (keyIsString : Bool) (isNil : Bool)
  /-- Kind `Struct`. -/
  | struct
  /-- Any other kind, with the name `reflect.Kind.String` gives it. -/
  | other (kind : Str)
  deriving DecidableEq, Repr

/-- One field of the target struct. -/
structure Field where
  name : Str
  val : Value
  deriving DecidableEq, Repr

/-- The target record `p.rv`: the fields of the struct in declaration order. -/
abbrev Target := List Field

/-- Whether a field name is exported (`unicode.IsUpper` of its first rune); a field
reached from an addressable struct satisfies `CanSet` exactly when it is exported. -/
def canSet (E : Env) (name : Str) : Bool :=
  match name with
  | [] => false
  | c :: _ => if c.toNat ≤ 0x7F then decide (65 ≤ c.toNat ∧ c.toNat ≤ 90) else E.isUpper c

/-- Method `reflect.Value.FieldByName` on the target: the first field with that
name; the empty name finds nothing. -/
def fieldByName (t : Target) (name : Str) : Option Value :=
  if name = [] then none
  else match t with
    | [] => none
    | f :: rest => if f.name = name then some f.val else fieldByName rest name

/-- Store `v` in the field `FieldByName(name)` designates. -/
def setField (t : Target) (name : Str) (v : Value) : Target :=
  match t with
  | [] => []
  | f :: rest =>
    if f.name = name then { f with val := v } :: rest else f :: setField rest name v

/-- Method `FieldByName` on a block. -/
def blockField (b : Block) (name : Str) : Option BVal :=
  if name = [] then none
  else match b with
    | [] => none
    | (n, v) :: rest => if n = name then some v else blockField rest name

/-- Store `v` in the field of the block that `FieldByName(name)` designates. -/
def setBlockField (b : Block) (name : Str) (v : BVal) : Block :=
  match b with
  | [] => []
  | (n, w) :: rest =>
    if n = name then (n, v) :: rest else (n, w) :: setBlockField rest name v

/-- Method `reflect.Value.MapIndex`: the entry for a key, if any. -/
def mapIndex {α : Type} (m : List (Str × α)) (k : Str) : Option α :=
  match m with
  | [] => none
  | (k1, v) :: rest => if k1 = k then some v else mapIndex rest k

/-- Method `reflect.Value.SetMapIndex`: replace the entry for the key, or add one. -/
def setMapIndex {α : Type} (m : List (Str × α)) (k : Str) (v : α) : List (Str × α) :=
  match m with
  | [] => [(k, v)]
  | (k1, v1) :: rest =>
    if k1 = k then (k, v) :: rest else (k1, v1) :: setMapIndex rest k v

/-- Sign extension of the low `bits` bits: the conversion `intN(x)`. -/
def wrapInt (bits : Nat) (x : Int) : Int :=
  (x + 2 ^ (bits - 1)) % 2 ^ bits - 2 ^ (bits - 1)

/-- Method `reflect.Value.OverflowInt` for a field of `bits` bits. -/
def overflowInt (bits : Nat) (x : Int) : Bool := decide (x ≠ wrapInt bits x)

/-- Method `reflect.Value.OverflowUint` for a field of `bits` bits. -/
def overflowUint (bits : Nat) (x : Nat) : Bool := decide (x ≠ x % 2 ^ bits)

/-! ## Parser state, errors -/

/-- The mode constants `modeRoot`, `modeList`, `modeNamedList`, `modeExtendList`. -/
inductive Mode where
  | modeRoot | modeList | modeNamedList | modeExtendList
  deriving DecidableEq, Repr

/-- The errors `decoder.go` builds with `fmt.Errorf`, one constructor per message;
the arguments are the values formatted into the message. -/
inductive Err where
  /-- "Error on line %d of file": a root line without a colon (SyntaxError). -/
  | noColon (line : Nat)
  /-- "Cannot redeclare setting '%s'. Line %d" (RedeclaredField). -/
  | redeclared (setting : Str) (line : Nat)
  /-- "Expected integer on line %d" (ExpectedInteger). -/
  | expectedInteger (line : Nat)
  /-- "Integer is too big on line %d" (IntegerOverflow). -/
  | integerTooBig (line : Nat)
  /-- "Expected unsigned integer on line %d" (ExpectedUnsigned). -/
  | expectedUnsigned (line : Nat)
  /-- "Unsigned integer is too big on line %d" (UnsignedOverflow). -/
  | unsignedTooBig (line : Nat)
  /-- "Expected float on line %d" (ExpectedFloat). -/
  | expectedFloat (line : Nat)
  /-- "Float is too big on line %d" (FloatOverflow). -/
  | floatTooBig (line : Nat)
  /-- "Expected boolean on line %d" (ExpectedBoolean). -/
  | expectedBoolean (line : Nat)
  /-- "Invalid slice type \"%s\"" (InvalidContainerShape). -/
  | invalidSliceType (setting : Str)
  /-- "Maps must have a key type of string \"%s\"" (InvalidContainerShape). -/
  | mapKeyType (setting : Str)
  /-- "Invalid map type \"%s\"" (InvalidContainerShape). -/
  | invalidMapType (setting : Str)
  /-- "Invalid type %s:%s" (UnsupportedFieldType). -/
  | invalidType (setting : Str) (kind : Str)
  /-- "Cannot set field \"%s\". Line %d" (UnsettableField). -/
  | cannotSet (setting : Str) (line : Nat)
  /-- "Invalid field \"%s\". Line %d" (UnknownField). -/
  | invalidField (setting : Str) (line : Nat)
  /-- "Line not in block, check indention. Line %d" (IndentationMismatch). -/
  | notInBlock (line : Nat)
  /-- "Lists and named lists must be slices of strings". -/
  | listsMustBeSlices
  /-- "Name field must be a string" (MissingBlockBinding). -/
  | nameFieldMustBeString
  /-- "Invalid list setting type" (MissingBlockBinding). -/
  | invalidListSettingType
  /-- "Invalid block setting \"%s\". Line %d" (MissingBlockBinding). -/
  | invalidBlockSetting (name : Str) (line : Nat)
  deriving DecidableEq, Repr

/-- What a method of the parser returns: `nil`, an error, or a run-time panic
raised by `reflect` (which nothing recovers). -/
inductive Res where
  | ok
  | fail (e : Err)
  | panic
  deriving DecidableEq, Repr

/-- The struct `Parser`; `rv` holds the target record itself. -/
structure Parser where
  mode : Mode
  currentSigWs : Str
  rv : Target
  currentLine : Nat
  listField : Str
  listName : Str
  deriving DecidableEq, Repr

/-- Method `Parser.clear`. -/
def Parser.clear (p : Parser) : Parser :=
  { p with mode := Mode.modeRoot, currentSigWs := [], currentLine := 0 }

/-- Function `NewParser`: the zero parser, cleared. -/
def NewParser : Parser :=
  Parser.clear
    { mode := Mode.modeRoot, currentSigWs := [], rv := [], currentLine := 0,
      listField := [], listName := [] }

/-! ## The decoder -/

/-- The four statements of `parseLine` that turn the text before the colon into a
field name: `ToLower`, `Title`, `Replace(setting, " ", "", -1)`, `TrimSpace`. -/
def normalize (E : Env) (key : Str) : Str :=
  trimSpace ((title E (toLower E key)).filter (fun c => c ≠ ' '))

/-- The `switch strings.ToLower(settingVal)` of the `reflect.Bool` case: the
boolean, or `none` for the default branch. -/
def boolLiteral (E : Env) (settingVal : Str) : Option Bool :=
  let v := toLower E settingVal
  if v = "true".toList ∨ v = "yes".toList ∨ v = "t".toList ∨ v = "1".toList then some true
  else if v = "false".toList ∨ v = "no".toList ∨ v = "f".toList ∨ v = "0".toList then
    some false
  else none

/-- The loop of `parseExtendListDeclaration` over `pieces[1:]`: every piece with an
`=` sets the string field of the block named by its normalized left side. -/
def applySettings (E : Env) (line : Nat) : List Str → Block → Except Err Block
  | [], mapElem => Except.ok mapElem
  | piece :: rest, mapElem =>
    match split '=' piece with
    | parts0 :: parts1 :: _ =>
      let setting := trimSpace (title E (toLower E parts0))
      match blockField mapElem setting with
      | some f =>
        if canSet E setting then
          match f with
          | BVal.str _ => applySettings E line rest (setBlockField mapElem setting (BVal.str parts1))
          | _ => Except.error Err.invalidListSettingType
        else Except.error (Err.cannotSet setting line)
      | none => Except.error (Err.invalidBlockSetting parts0 line)
    | _ => applySettings E line rest mapElem

/-- Method `Parser.parseExtendListDeclaration`. A block type without an `Items`
field of type `[]string`, and a pointer element type, make `reflect` panic; the
field kinds other than a map of structs or pointers cannot be current here, as
`parseLine` calls this method for those two only. -/
def parseExtendListDeclaration (E : Env) (p : Parser) (line : Str) : Parser × Res :=
  let pieces := split ' ' line
  let p := { p with listName := pieces.headD [] }
  match fieldByName p.rv p.listField with
  | some (Value.blocks zero isNil m) =>
    -- mapElem := reflect.New(elemType).Elem()
    match blockField zero "Items".toList with
    | some (BVal.strSlice _) =>
      let mapElem := setBlockField zero "Items".toList (BVal.strSlice [])
      let named : Except Err Block :=
        match blockField mapElem "Name".toList with
        | some (BVal.str _) =>
          Except.ok (setBlockField mapElem "Name".toList (BVal.str p.listName))
        | some _ => Except.error Err.nameFieldMustBeString
        | none => Except.ok mapElem
      match named with
      | Except.error e => (p, Res.fail e)
      | Except.ok mapElem =>
        match applySettings E p.currentLine pieces.tail mapElem with
        | Except.error e => (p, Res.fail e)
        | Except.ok mapElem =>
          if isNil then (p, Res.panic)
          else
            ({ p with rv := (setField p.rv p.listField
                  (Value.blocks zero false (setMapIndex m p.listName mapElem))) }, Res.ok)
    | _ => (p, Res.panic)
  | _ => (p, Res.panic)

/-- Method `Parser.parseLine`: a root `key: value` line. -/
def parseLine (E : Env) (p : Parser) (line : Str) : Parser × Res :=
  let p := { p with mode := Mode.modeRoot }
  match splitN2 ':' line with
  | none => (p, Res.fail (Err.noColon p.currentLine))
  | some (part0, part1) =>
    let setting := normalize E part0
    let settingVal := trimSpace part1
    match fieldByName p.rv setting with
    | none => (p, Res.fail (Err.invalidField setting p.currentLine))
    | some f =>
      if canSet E setting then
        match f with
        | Value.str s =>
          if s ≠ [] then (p, Res.fail (Err.redeclared setting p.currentLine))
          else ({ p with rv := setField p.rv setting (Value.str settingVal) }, Res.ok)
        | Value.int bits _ =>
          match parseInt settingVal with
          | none => (p, Res.fail (Err.expectedInteger p.currentLine))
          | some i =>
            if overflowInt bits i then (p, Res.fail (Err.integerTooBig p.currentLine))
            else ({ p with rv := setField p.rv setting (Value.int bits (wrapInt bits i)) }, Res.ok)
        | Value.uint bits _ =>
          match parseUint settingVal with
          | none => (p, Res.fail (Err.expectedUnsigned p.currentLine))
          | some i =>
            if overflowUint bits i then (p, Res.fail (Err.unsignedTooBig p.currentLine))
            else ({ p with rv := setField p.rv setting (Value.uint bits (i % 2 ^ bits)) }, Res.ok)
        | Value.float bits _ =>
          match E.parseFloat settingVal with
          | none => (p, Res.fail (Err.expectedFloat p.currentLine))
          | some i =>
            if bits = 32 ∧ E.overflowFloat32 i then
              (p, Res.fail (Err.floatTooBig p.currentLine))
            else
              ({ p with rv := (setField p.rv setting
                    (Value.float bits (if bits = 32 then E.toFloat32 i else i))) }, Res.ok)
        | Value.bool _ =>
          match boolLiteral E settingVal with
          | none => (p, Res.fail (Err.expectedBoolean p.currentLine))
          | some b => ({ p with rv := setField p.rv setting (Value.bool b) }, Res.ok)
        | Value.strSlice _ =>
          ({ p with mode := Mode.modeList, listField := setting }, Res.ok)
        | Value.otherSlice => (p, Res.fail (Err.invalidSliceType setting))
        | Value.namedList _ m =>
          -- the map is created if it is nil
          ({ p with rv := setField p.rv setting (Value.namedList false m),
                    mode := Mode.modeList, listField := setting, listName := settingVal },
            Res.ok)
        | Value.blocks zero _ m =>
          parseExtendListDeclaration E
            { p with rv := setField p.rv setting (Value.blocks zero false m),
                     mode := Mode.modeExtendList, listField := setting } settingVal
        | Value.ptrMap _ =>
          parseExtendListDeclaration E
            { p with rv := setField p.rv setting (Value.ptrMap false),
                     mode := Mode.modeExtendList, listField := setting } settingVal
        | Value.otherMap keyIsString _ =>
          if ¬ keyIsString then (p, Res.fail (Err.mapKeyType setting))
          else
            ({ p with rv := setField p.rv setting (Value.otherMap keyIsString false) },
              Res.fail (Err.invalidMapType setting))
        | Value.struct => (p, Res.ok) -- fmt.Println("Extended list")
        | Value.other kind => (p, Res.fail (Err.invalidType setting kind))
      else (p, Res.fail (Err.cannotSet setting p.currentLine))

/-- Method `Parser.parseListLine`: a line read in `modeList`. `f.Len()` is the
length of the field `p.listField` itself: of the slice, or of the map. The mode
is `modeList` only while `p.listField` names a `[]string` or a
`map[string][]string` field. Of the other fields, which cannot be current here, a
string has a length and no case in the `switch`, a map of structs makes
`elemType.Elem()` panic, and the rest (no length in `reflect`, or none kept in
this model) is given as a panic. -/
def parseListLine (E : Env) (p : Parser) (line : Str) : Parser × Res :=
  match wsRegexFind line with
  | none => parseLine E p line
  | some sigWs =>
    match fieldByName p.rv p.listField with
    | some (Value.strSlice xs) =>
      if xs.length = 0 then
        ({ p with currentSigWs := sigWs,
                  rv := setField p.rv p.listField (Value.strSlice (xs ++ [trimSpace line])) },
          Res.ok)
      else if sigWs ≠ p.currentSigWs then (p, Res.fail (Err.notInBlock p.currentLine))
      else
        ({ p with rv := setField p.rv p.listField (Value.strSlice (xs ++ [trimSpace line])) },
          Res.ok)
    | some (Value.namedList isNil m) =>
      let p1 := if m.length = 0 then { p with currentSigWs := sigWs } else p
      if m.length ≠ 0 ∧ sigWs ≠ p.currentSigWs then
        (p, Res.fail (Err.notInBlock p.currentLine))
      else
        let mapElem := (mapIndex m p.listName).getD []
        let mapElem := mapElem ++ [trimSpace line]
        if isNil then (p1, Res.panic)
        else
          ({ p1 with rv := (setField p1.rv p1.listField
                (Value.namedList false (setMapIndex m p1.listName mapElem))) }, Res.ok)
    | some (Value.str s) =>
      if s.length = 0 then ({ p with currentSigWs := sigWs }, Res.ok)
      else if sigWs ≠ p.currentSigWs then (p, Res.fail (Err.notInBlock p.currentLine))
      else (p, Res.ok)
    | some (Value.blocks _ _ m) =>
      -- elemType.Elem() panics on a struct type
      if m.length = 0 then ({ p with currentSigWs := sigWs }, Res.panic)
      else if sigWs ≠ p.currentSigWs then (p, Res.fail (Err.notInBlock p.currentLine))
      else (p, Res.panic)
    | _ => (p, Res.panic)

/-- Method `Parser.parseExtendedListLine`: a line read in `modeExtendList`. The
block comes from `MapIndex`, so it is a copy that is not addressable, and the
final `itemsField.Set` panics ("reflect.Value.Set using unaddressable value"). -/
def parseExtendedListLine (E : Env) (p : Parser) (line : Str) : Parser × Res :=
  match wsRegexFind line with
  | none => parseLine E p line
  | some sigWs =>
    match fieldByName p.rv p.listField with
    | some (Value.blocks _ _ m) =>
      match mapIndex m p.listName with
      | some mapElem =>
        match blockField mapElem "Items".toList with
        | some (BVal.strSlice items) =>
          if items.length = 0 then ({ p with currentSigWs := sigWs }, Res.panic)
          else if sigWs ≠ p.currentSigWs then (p, Res.fail (Err.notInBlock p.currentLine))
          else (p, Res.panic)
        | _ => (p, Res.panic)
      | none => (p, Res.panic)
    | _ => (p, Res.panic)

/-- The test `len(lineTrimmed) >= 3 && lineTrimmed[:3] == "###"` of `parse` on the
raw line: the line stops the parsing. -/
def stopLine (lineRaw : Str) : Prop :=
  (trimSpace lineRaw).length ≥ 3 ∧ (trimSpace lineRaw).take 3 = "###".toList

instance (lineRaw : Str) : Decidable (stopLine lineRaw) := by
  unfold stopLine; infer_instance

/-- The test `len(lineTrimmed) < 1 || lineTrimmed[0] == '#'` of `parse` on the raw
line: a blank line or a comment. -/
def skipLine (lineRaw : Str) : Prop :=
  (trimSpace lineRaw).length < 1 ∨ (trimSpace lineRaw).head? = some '#'

instance (lineRaw : Str) : Decidable (skipLine lineRaw) := by
  unfold skipLine; infer_instance

/-- The `if p.mode == modeList ... else if p.mode == modeExtendList ... else` of
`parse`: the method that reads the line in the current mode. -/
def dispatch (E : Env) (p : Parser) (lineRaw : Str) : Parser × Res :=
  if p.mode = Mode.modeList then parseListLine E p lineRaw
  else if p.mode = Mode.modeExtendList then parseExtendedListLine E p lineRaw
  else parseLine E p lineRaw

/-- The `for scanner.Scan()` loop of `Parser.parse` over the lines still to read. -/
def parseLoop (E : Env) (p : Parser) : List Str → Parser × Res
  | [] => (p, Res.ok)
  | lineRaw :: rest =>
    let p := { p with currentLine := p.currentLine + 1 }
    if stopLine lineRaw then (p, Res.ok)
    else if skipLine lineRaw then parseLoop E p rest
    else
      let r := dispatch E p lineRaw
      match r.2 with
      | Res.ok => parseLoop E r.1 rest
      | _ => r

/-- Method `Parser.parse` on a pointer to the struct `v`, the reader delivering
`lines`. -/
def Parser.parse (E : Env) (p : Parser) (v : Target) (lines : List Str) : Parser × Res :=
  parseLoop E { p.clear with currentLine := 0, rv := v } lines

/-- Decode the lines of a document into `v` with a new parser: the error result
and the target as the call leaves it. -/
def decode (E : Env) (v : Target) (lines : List Str) : Res × Target :=
  let r := Parser.parse E NewParser v lines
  (r.2, r.1.rv)

/-- The base-10 rendering of an integer, as `strconv.FormatInt(n, 10)` writes it: a
minus sign for a negative number, then the decimal digits without leading zeros. -/
def renderInt (n : Int) : Str :=
  if n < 0 then '-' :: Nat.toDigits 10 n.natAbs else Nat.toDigits 10 n.natAbs

/-- Whether a line read in the state `p` is handed to `parseLine`: the mode is
neither `modeList` nor `modeExtendList`, or the line does not start with white
space (the fallback of `parseListLine` and `parseExtendedListLine`). -/
def rootDispatch (p : Parser) (line : Str) : Prop :=
  (p.mode ≠ Mode.modeList ∧ p.mode ≠ Mode.modeExtendList) ∨ wsRegexFind line = none

instance (p : Parser) (line : Str) : Decidable (rootDispatch p line) := by
  unfold rootDispatch; infer_instance

/-- The zero value of the struct `language` of `parser_test.go`. -/
def language : Block :=
  [("Name".toList, BVal.str []), ("Items".toList, BVal.strSlice []),
    ("Native".toList, BVal.str [])]

/-- The zero value of the struct `confFile` of `parser_test.go`. -/
def confFile : Target :=
  [ { name := "Name".toList, val := Value.str [] },
    { name := "Birthdate".toList, val := Value.str [] },
    { name := "IdNumber".toList, val := Value.int 64 0 },
    { name := "Employed".toList, val := Value.bool false },
    { name := "HourlyRate".toList, val := Value.float 32 0 },
    { name := "Hobbies".toList, val := Value.strSlice [] },
    { name := "WorkPlaces".toList, val := Value.namedList true [] },
    { name := "Languages".toList, val := Value.blocks language true [] } ]

/-- The number that a text of decimal digits denotes when read after the digits of
`n`: the reading of a base-10 literal, digit by digit. -/
def digitsValueFrom (n : Nat) (ds : Str) : Nat :=
  ds.foldl (fun a c => a * 10 + (c.toNat - 48)) n

/-- The number that a text of decimal digits denotes. -/
def digitsValue (ds : Str) : Nat := digitsValueFrom 0 ds

/-- A non-empty text of decimal digits. -/
def isDigits (ds : Str) : Prop := ds ≠ [] ∧ ∀ c ∈ ds, 48 ≤ c.toNat ∧ c.toNat ≤ 57

instance (ds : Str) : Decidable (isDigits ds) := by
  unfold isDigits; infer_instance

/-- The integer that a base-10 literal denotes: an optional sign `sign` (empty, `+`
or `-`) followed by the decimal digits `ds`. -/
def literalValue (sign ds : Str) : Int :=
  if sign = ['-'] then - (digitsValue ds : Int) else (digitsValue ds : Int)

/-- The line number that the message of an error carries, if it carries one. -/
def Err.lineOf : Err → Option Nat
  | Err.noColon line => some line
  | Err.redeclared _ line => some line
  | Err.expectedInteger line => some line
  | Err.integerTooBig line => some line
  | Err.expectedUnsigned line => some line
  | Err.unsignedTooBig line => some line
  | Err.expectedFloat line => some line
  | Err.floatTooBig line => some line
  | Err.expectedBoolean line => some line
  | Err.invalidSliceType _ => none
  | Err.mapKeyType _ => none
  | Err.invalidMapType _ => none
  | Err.invalidType _ _ => none
  | Err.cannotSet _ line => some line
  | Err.invalidField _ line => some line
  | Err.notInBlock line => some line
  | Err.listsMustBeSlices => none
  | Err.nameFieldMustBeString => none
  | Err.invalidListSettingType => none
  | Err.invalidBlockSetting _ line => some line

/-- The error with the line number of its message, if any, replaced by 0: the kind of
the error and the names it quotes. -/
def Err.eraseLine : Err → Err
  | Err.noColon _ => Err.noColon 0
  | Err.redeclared s _ => Err.redeclared s 0
  | Err.expectedInteger _ => Err.expectedInteger 0
  | Err.integerTooBig _ => Err.integerTooBig 0
  | Err.expectedUnsigned _ => Err.expectedUnsigned 0
  | Err.unsignedTooBig _ => Err.unsignedTooBig 0
  | Err.expectedFloat _ => Err.expectedFloat 0
  | Err.floatTooBig _ => Err.floatTooBig 0
  | Err.expectedBoolean _ => Err.expectedBoolean 0
  | Err.cannotSet s _ => Err.cannotSet s 0
  | Err.invalidField s _ => Err.invalidField s 0
  | Err.notInBlock _ => Err.notInBlock 0
  | Err.invalidBlockSetting s _ => Err.invalidBlockSetting s 0
  | e => e

/-- The result of a decode up to the line numbers of the messages. -/
def Res.eraseLine : Res → Res
  | Res.ok => Res.ok
  | Res.fail e => Res.fail e.eraseLine
  | Res.panic => Res.panic

/-- The statement `if f.IsNil() { f.Set(reflect.MakeMap(t)) }` of `parseLine` on the
value of a map field: the map is allocated, its entries are kept. -/
def makeMap : Value → Value
  | Value.namedList _ m => Value.namedList false m
  | Value.blocks zero _ m => Value.blocks zero false m
  | Value.ptrMap _ => Value.ptrMap false
  | Value.otherMap keyIsString _ => Value.otherMap keyIsString false
  | v => v

/-- The strings held in the `Items` of a block. -/
def blockItems (b : Block) : List Str :=
  match blockField b "Items".toList with
  | some (BVal.strSlice xs) => xs
  | _ => []

/-- The strings that a field holds as items: the elements of a list of strings, of
the entries of a map of named lists, of the `Items` of the blocks of a map. -/
def itemStrings : Value → List Str
  | Value.strSlice xs => xs
  | Value.namedList _ m => (m.map (fun kv => kv.2)).flatten
  | Value.blocks _ _ m => (m.map (fun kb => blockItems kb.2)).flatten
  | _ => []

/-- A well-formed item: not empty, no white space at either end, not a comment. -/
def goodItem (s : Str) : Prop :=
  s ≠ [] ∧ (∀ c, s.head? = some c → isSpace c = false) ∧
  (∀ c, s.getLast? = some c → isSpace c = false) ∧ s.head? ≠ some '#'

/-- The value that one `attribute=value` token of a block declaration assigns to the
field `Name`, if its attribute, normalized as `parseExtendListDeclaration` does,
is `Name`. -/
def nameOfPiece (E : Env) (piece : Str) : Option Str :=
  match split '=' piece with
  | parts0 :: parts1 :: _ =>
    if trimSpace (title E (toLower E parts0)) = "Name".toList then some parts1 else none
  | _ => none

/-- The value that the `attribute=value` tokens `pieces` of a block declaration leave
in the field `Name`, if one of them names it: the loop assigns them in order, so
the last one stays. -/
def nameSetting (E : Env) : List Str → Option Str
  | [] => none
  | piece :: rest =>
    match nameSetting E rest with
    | some x => some x
    | none => nameOfPiece E piece

/-- The entries of a map of named blocks. -/
def blockEntries : Value → List (Str × Block)
  | Value.blocks _ _ m => m
  | _ => []

/-- The line reads `key: ...` and its key normalizes to the field name `n`. -/
def namesField (E : Env) (l n : Str) : Prop :=
  ∃ a b, splitN2 ':' l = some (a, b) ∧ n = normalize E a

/-- The line `l` is a declaration `key: name attribute=value ...` for the field `n`
that gives the entry `kb`: the key normalizes to `n`, the key of the entry is the
first token after the colon, and the field `Name` of the block, if it is a string,
holds the value of the last token that names `Name`, or else the key. -/
def declares (E : Env) (l n : Str) (kb : Str × Block) : Prop :=
  ∃ a b, splitN2 ':' l = some (a, b) ∧ n = normalize E a ∧
    kb.1 = (split ' ' (trimSpace b)).headD [] ∧
    ∀ s, blockField kb.2 "Name".toList = some (BVal.str s) →
      s = (nameSetting E (split ' ' (trimSpace b)).tail).getD kb.1

/-- One write of the decoder into the field `n`, for the line `l` and the result `r`
of the method: the old and the new value of the field. -/
inductive Step (E : Env) (l n : Str) : Res → Value → Value → Prop where
  /-- The map of the field that the line names is allocated. -/
  | alloc (r : Res) (val : Value) : namesField E l n → Step E l n r val (makeMap val)
  /-- A string is assigned. -/
  | str (s s2 : Str) : Step E l n Res.ok (Value.str s) (Value.str s2)
  /-- A signed integer is assigned. -/
  | int (w : Nat) (a b : Int) : Step E l n Res.ok (Value.int w a) (Value.int w b)
  /-- An unsigned integer is assigned. -/
  | uint (w : Nat) (a b : Nat) : Step E l n Res.ok (Value.uint w a) (Value.uint w b)
  /-- A float is assigned. -/
  | float (w : Nat) (a b : Nat) : Step E l n Res.ok (Value.float w a) (Value.float w b)
  /-- A boolean is assigned. -/
  | bool (a b : Bool) : Step E l n Res.ok (Value.bool a) (Value.bool b)
  /-- The trimmed line is appended to a simple list. -/
  | item (xs : List Str) :
    Step E l n Res.ok (Value.strSlice xs) (Value.strSlice (xs ++ [trimSpace l]))
  /-- The trimmed line is appended to the entry `k` of a map of named lists. -/
  | namedItem (isNil : Bool) (m : List (Str × List Str)) (k : Str) :
    Step E l n Res.ok (Value.namedList isNil m)
      (Value.namedList false (setMapIndex m k ((mapIndex m k).getD [] ++ [trimSpace l])))
  /-- A block without items is stored under its name by a declaration line. -/
  | declare (zero : Block) (isNil : Bool) (m : List (Str × Block)) (name : Str)
      (mapElem : Block) :
    blockItems mapElem = [] → declares E l n (name, mapElem) →
    Step E l n Res.ok (Value.blocks zero isNil m)
      (Value.blocks zero false (setMapIndex m name mapElem))

/-- What a method of the parser does to the target `t` for the line `l`, with result
`r`: nothing, or one write into one field. -/
def effect (E : Env) (l : Str) (t : Target) (r : Res) (t2 : Target) : Prop :=
  t2 = t ∨
  ∃ n old new, fieldByName t n = some old ∧ t2 = setField t n new ∧ Step E l n r old new

/-- Whether removing the spaces of a key joins a letter to the word before it: a rune
that `Title` changes once it is lower-cased stands, after one or more spaces, behind
a rune whose lower case is not a separator (a letter, a digit, an underscore).
`last` is the last rune read that is not a space, `gap` tells whether a space was
read since. -/
def joinsFrom (E : Env) : Char → Bool → Str → Bool
  | _, _, [] => false
  | last, gap, c :: rest =>
    if c = ' ' then joinsFrom E last true rest
    else
      (gap && !isSeparator E (toLowerRune E last) &&
        decide (toTitleRune E (toLowerRune E c) ≠ toLowerRune E c)) ||
      joinsFrom E c false rest

/-- Whether removing the spaces of the key joins a letter to the word before it, as
in `a b`. -/
def joinsWords (E : Env) (k : Str) : Bool := joinsFrom E ' ' false k

/-- The case tables are coherent at the rune `c`: with `x` the lower case of `c` and
`y` the title case of `x`, lower-casing `x` again gives `x`; lower-casing then
title-casing `y` gives `y`; the lower case of `y` is a separator exactly when `x`
is; `y` is its own lower case only if it is `x`; neither is U+0020 unless `c` is;
and a white space has no other case and is a separator. Every ASCII rune satisfies
this; for the other runes it is a property of the Unicode tables. -/
def stableRune (E : Env) (c : Char) : Prop :=
  toLowerRune E (toLowerRune E c) = toLowerRune E c ∧
  toTitleRune E (toLowerRune E (toTitleRune E (toLowerRune E c))) =
    toTitleRune E (toLowerRune E c) ∧
  isSeparator E (toLowerRune E (toTitleRune E (toLowerRune E c))) =
    isSeparator E (toLowerRune E c) ∧
  (toLowerRune E (toTitleRune E (toLowerRune E c)) = toTitleRune E (toLowerRune E c) →
    toTitleRune E (toLowerRune E c) = toLowerRune E c) ∧
  (c ≠ ' ' → toLowerRune E c ≠ ' ' ∧ toTitleRune E (toLowerRune E c) ≠ ' ') ∧
  (isSpace (toLowerRune E c) = true →
    toTitleRune E (toLowerRune E c) = toLowerRune E c ∧
    isSeparator E (toLowerRune E c) = true) ∧
  (isSpace (toTitleRune E (toLowerRune E c)) = true →
    toTitleRune E (toLowerRune E c) = toLowerRune E c)

instance (E : Env) (c : Char) : Decidable (stableRune E c) := by
  unfold stableRune; infer_instance

/-! ## Lemmas: text -/

theorem splitN2_first (sep : Char) (key rest : Str) (h : sep ∉ key) :
    splitN2 sep (key ++ sep :: rest) = some (key, rest) := by
  induction key with
  | nil => simp [splitN2]
  | cons c key ih =>
    have hc : c ≠ sep := fun e => h (by simp [e])
    have hk : sep ∉ key := fun m => h (List.mem_cons_of_mem _ m)
    simp [splitN2, hc, ih hk]

theorem dropWhile_all {p : Char → Bool} (l x : Str) (hl : ∀ c ∈ l, p c = true) :
    (l ++ x).dropWhile p = x.dropWhile p := by
  induction l with
  | nil => rfl
  | cons c l ih =>
    have hc : p c = true := hl c (by simp)
    simp only [List.cons_append, List.dropWhile_cons, hc, if_true]
    exact ih (fun d hd => hl d (List.mem_cons_of_mem _ hd))

theorem dropWhile_none {p : Char → Bool} (s : Str) (hs : ∀ c ∈ s, p c = false) :
    s.dropWhile p = s := by
  cases s with
  | nil => rfl
  | cons c s => simp [List.dropWhile_cons, hs c (by simp)]

theorem dropWhile_append_of_ne {p : Char → Bool} (s r : Str) (h : s.dropWhile p ≠ []) :
    (s ++ r).dropWhile p = s.dropWhile p ++ r := by
  induction s with
  | nil => simp at h
  | cons c s ih =>
    by_cases hc : p c = true
    · simp only [List.cons_append, List.dropWhile_cons, hc, if_true] at h ⊢
      exact ih h
    · simp [List.dropWhile_cons, hc]

theorem dropWhile_eq_nil_all {p : Char → Bool} (s : Str) (h : s.dropWhile p = []) :
    ∀ c ∈ s, p c = true := by
  induction s with
  | nil => simp
  | cons c s ih =>
    by_cases hc : p c = true
    · simp only [List.dropWhile_cons, hc, if_true] at h
      intro d hd
      rcases List.mem_cons.1 hd with rfl | hd
      · exact hc
      · exact ih h d hd
    · simp [List.dropWhile_cons, hc] at h

/-- White space around a text does not change what `TrimSpace` returns. -/
theorem trimSpace_pad (l s r : Str) (hl : ∀ c ∈ l, isSpace c = true)
    (hr : ∀ c ∈ r, isSpace c = true) : trimSpace (l ++ s ++ r) = trimSpace s := by
  unfold trimSpace
  rw [List.append_assoc, dropWhile_all l _ hl]
  by_cases h : s.dropWhile isSpace = []
  · have hall := dropWhile_eq_nil_all s h
    have : (s ++ r).dropWhile isSpace = [] := by
      have h2 := dropWhile_all (s ++ r) [] (p := isSpace) (by
        intro c hc
        rcases List.mem_append.1 hc with hc | hc
        · exact hall c hc
        · exact hr c hc)
      simpa using h2
    rw [this, h]
  · rw [dropWhile_append_of_ne s r h, List.reverse_append,
      dropWhile_all r.reverse _ (by intro c hc; exact hr c (List.mem_reverse.1 hc))]

/-- A text without white space is left alone by `TrimSpace`. -/
theorem trimSpace_of_no_space (s : Str) (hs : ∀ c ∈ s, isSpace c = false) :
    trimSpace s = s := by
  unfold trimSpace
  rw [dropWhile_none s hs, dropWhile_none s.reverse
    (by intro c hc; exact hs c (List.mem_reverse.1 hc)), List.reverse_reverse]

/-! ## Lemmas: decimal numbers -/

theorem digitChar_toNat (d : Nat) (h : d < 10) : (Nat.digitChar d).toNat = 48 + d := by
  interval_cases d <;> rfl

theorem parseUintFrom_digit (n d : Nat) (ds : Str) (hd : d < 10) (hn : n * 10 + d < 2 ^ 64) :
    parseUintFrom n (Nat.digitChar d :: ds) = parseUintFrom (n * 10 + d) ds := by
  have h48 := digitChar_toNat d hd
  have e1 : (n * 10) % 2 ^ 64 = n * 10 := Nat.mod_eq_of_lt (by omega)
  have e2 : (n * 10 + d) % 2 ^ 64 = n * 10 + d := Nat.mod_eq_of_lt hn
  have hc : ¬ (n ≥ (2 ^ 64 - 1) / 10 + 1) := by norm_num at hn ⊢; omega
  have h3 : ¬ (n * 10 + d < n * 10 ∨ n * 10 + d > 2 ^ 64 - 1) := by norm_num at hn ⊢; omega
  have hr : 48 ≤ (Nat.digitChar d).toNat ∧ (Nat.digitChar d).toNat ≤ 57 := by omega
  have hsub : (Nat.digitChar d).toNat - 48 = d := by omega
  simp only [parseUintFrom, hr, and_self, if_true, hsub, e1, e2, if_neg hc, if_neg h3]

theorem parseUintFrom_toDigitsCore (fuel : Nat) : ∀ (n : Nat) (ds : Str), n < fuel →
    n < 2 ^ 64 → parseUintFrom 0 (Nat.toDigitsCore 10 fuel n ds) = parseUintFrom n ds := by
  induction fuel with
  | zero => intro n ds h; omega
  | succ fuel ih =>
    intro n ds hf hn
    unfold Nat.toDigitsCore
    by_cases h0 : n / 10 = 0
    · have hlt : n < 10 := by omega
      simp only [h0, if_true]
      rw [Nat.mod_eq_of_lt hlt, parseUintFrom_digit 0 n ds hlt (by omega)]
      simp
    · simp only [h0, if_false]
      rw [ih (n / 10) _ (by omega) (by omega),
        parseUintFrom_digit (n / 10) (n % 10) ds (Nat.mod_lt _ (by norm_num)) (by omega)]
      congr 1
      omega

theorem toDigitsCore_digits (fuel : Nat) : ∀ (n : Nat) (ds : Str) (c : Char),
    c ∈ Nat.toDigitsCore 10 fuel n ds → (48 ≤ c.toNat ∧ c.toNat ≤ 57) ∨ c ∈ ds := by
  induction fuel with
  | zero => intro n ds c h; right; simpa [Nat.toDigitsCore] using h
  | succ fuel ih =>
    intro n ds c h
    have hd : (Nat.digitChar (n % 10)).toNat = 48 + n % 10 :=
      digitChar_toNat _ (Nat.mod_lt _ (by norm_num))
    have hm : n % 10 < 10 := Nat.mod_lt _ (by norm_num)
    unfold Nat.toDigitsCore at h
    by_cases h0 : n / 10 = 0
    · simp only [h0, if_true] at h
      rcases List.mem_cons.1 h with rfl | h
      · left; omega
      · right; exact h
    · simp only [h0, if_false] at h
      rcases ih _ _ _ h with h | h
      · left; exact h
      · rcases List.mem_cons.1 h with rfl | h
        · left; omega
        · right; exact h

theorem toDigitsCore_ne_nil (fuel : Nat) : ∀ (n : Nat) (ds : Str),
    (0 < fuel ∨ ds ≠ []) → Nat.toDigitsCore 10 fuel n ds ≠ [] := by
  induction fuel with
  | zero => intro n ds h; rcases h with h | h; · omega
            · simpa [Nat.toDigitsCore] using h
  | succ fuel ih =>
    intro n ds _
    unfold Nat.toDigitsCore
    by_cases h0 : n / 10 = 0
    · simp [h0]
    · simp only [h0, if_false]
      exact ih _ _ (Or.inr (by simp))

theorem toDigits_digits (n : Nat) (c : Char) (h : c ∈ Nat.toDigits 10 n) :
    48 ≤ c.toNat ∧ c.toNat ≤ 57 := by
  rcases toDigitsCore_digits _ _ _ _ h with h | h
  · exact h
  · simp at h

theorem parseUint_toDigits (n : Nat) (hn : n < 2 ^ 64) :
    parseUint (Nat.toDigits 10 n) = some n := by
  have hne : Nat.toDigits 10 n ≠ [] := toDigitsCore_ne_nil _ _ _ (Or.inl (by omega))
  have h := parseUintFrom_toDigitsCore (n + 1) n [] (by omega) hn
  unfold parseUint
  cases hd : Nat.toDigits 10 n with
  | nil => exact absurd hd hne
  | cons c cs =>
    simp only
    rw [← hd]
    simpa [parseUintFrom, Nat.toDigits] using h

/-- Round trip: `ParseInt` reads back the rendering of every int64. -/
theorem parseInt_renderInt (n : Int) (h1 : -2 ^ 63 ≤ n) (h2 : n < 2 ^ 63) :
    parseInt (renderInt n) = some n := by
  unfold renderInt
  by_cases hneg : n < 0
  · have hu := parseUint_toDigits n.natAbs (by omega)
    simp only [hneg, if_true, parseInt]
    have hle : ¬ (2 ^ 63 < n.natAbs) := by omega
    simp only [decide_True, not_true_eq_false, false_and, if_false, true_and, if_true,
      gt_iff_lt, or_true, hu, hle]
    congr 1
    omega
  · have hu := parseUint_toDigits n.natAbs (by omega)
    have hne : Nat.toDigits 10 n.natAbs ≠ [] := toDigitsCore_ne_nil _ _ _ (Or.inl (by omega))
    simp only [hneg, if_false]
    cases hd : Nat.toDigits 10 n.natAbs with
    | nil => exact absurd hd hne
    | cons c cs =>
      have hc := toDigits_digits n.natAbs c (by rw [hd]; simp)
      have hp : c ≠ '+' := by rintro rfl; revert hc; decide
      have hm : c ≠ '-' := by rintro rfl; revert hc; decide
      rw [hd] at hu
      simp only [parseInt, hp, hm, or_self, if_false, hu, decide_False]
      simp
      omega

theorem renderInt_no_space (n : Int) : ∀ c ∈ renderInt n, isSpace c = false := by
  have key : ∀ c : Char, (48 ≤ c.toNat ∧ c.toNat ≤ 57) → isSpace c = false := by
    intro c hc
    simp only [isSpace]
    simp
    omega
  intro c hc
  unfold renderInt at hc
  split at hc
  · rcases List.mem_cons.1 hc with rfl | hc
    · decide
    · exact key c (toDigits_digits _ _ hc)
  · exact key c (toDigits_digits _ _ hc)

theorem wrapInt_of_range (bits : Nat) (n : Int) (hb : 1 ≤ bits)
    (h1 : -2 ^ (bits - 1) ≤ n) (h2 : n < 2 ^ (bits - 1)) : wrapInt bits n = n := by
  unfold wrapInt
  have hp : (2 : Int) ^ bits = 2 * 2 ^ (bits - 1) := by
    obtain ⟨k, rfl⟩ : ∃ k, bits = k + 1 := ⟨bits - 1, by omega⟩
    simp [pow_succ, mul_comm]
  rw [Int.emod_eq_of_lt (by omega) (by omega)]
  omega

/-! ## Lemmas: the loop of `parse` -/

theorem parseLoop_stop (E : Env) (p : Parser) (l : Str) (rest : List Str) (h : stopLine l) :
    parseLoop E p (l :: rest) = ({ p with currentLine := p.currentLine + 1 }, Res.ok) := by
  simp [parseLoop, h]

theorem parseLoop_skip (E : Env) (p : Parser) (l : Str) (rest : List Str) (h1 : ¬ stopLine l)
    (h2 : skipLine l) :
    parseLoop E p (l :: rest) = parseLoop E { p with currentLine := p.currentLine + 1 } rest := by
  simp [parseLoop, h1, h2]

theorem parseLoop_content_ok (E : Env) (p : Parser) (l : Str) (rest : List Str)
    (h1 : ¬ stopLine l) (h2 : ¬ skipLine l)
    (h3 : (dispatch E { p with currentLine := p.currentLine + 1 } l).2 = Res.ok) :
    parseLoop E p (l :: rest) =
      parseLoop E (dispatch E { p with currentLine := p.currentLine + 1 } l).1 rest := by
  simp [parseLoop, h1, h2, h3]

theorem parseLoop_content_stop (E : Env) (p : Parser) (l : Str) (rest : List Str)
    (h1 : ¬ stopLine l) (h2 : ¬ skipLine l)
    (h3 : (dispatch E { p with currentLine := p.currentLine + 1 } l).2 ≠ Res.ok) :
    parseLoop E p (l :: rest) = dispatch E { p with currentLine := p.currentLine + 1 } l := by
  cases hd : (dispatch E { p with currentLine := p.currentLine + 1 } l).2 with
  | ok => exact absurd hd h3
  | fail e => simp [parseLoop, h1, h2, hd]
  | panic => simp [parseLoop, h1, h2, hd]

theorem parseExtendListDeclaration_currentLine (E : Env) (p : Parser) (l : Str) :
    (parseExtendListDeclaration E p l).1.currentLine = p.currentLine := by
  unfold parseExtendListDeclaration
  try simp only []
  repeat' split
  all_goals rfl

theorem parseLine_currentLine (E : Env) (p : Parser) (l : Str) :
    (parseLine E p l).1.currentLine = p.currentLine := by
  unfold parseLine
  try simp only []
  repeat' split
  all_goals first
    | rfl
    | simp only [parseExtendListDeclaration_currentLine]

theorem parseListLine_currentLine (E : Env) (p : Parser) (l : Str) :
    (parseListLine E p l).1.currentLine = p.currentLine := by
  unfold parseListLine
  try simp only []
  repeat' split
  all_goals first
    | rfl
    | exact parseLine_currentLine E p l

theorem parseExtendedListLine_currentLine (E : Env) (p : Parser) (l : Str) :
    (parseExtendedListLine E p l).1.currentLine = p.currentLine := by
  unfold parseExtendedListLine
  try simp only []
  repeat' split
  all_goals first
    | rfl
    | exact parseLine_currentLine E p l

theorem dispatch_currentLine (E : Env) (p : Parser) (l : Str) :
    (dispatch E p l).1.currentLine = p.currentLine := by
  unfold dispatch
  split
  · exact parseListLine_currentLine E p l
  · split
    · exact parseExtendedListLine_currentLine E p l
    · exact parseLine_currentLine E p l

/-- Reading `pre ++ rest` is reading `pre`, then `rest`, when no line of `pre`
stops the parsing and `pre` is read without error. -/
theorem parseLoop_append (E : Env) (pre rest : List Str) : ∀ (p : Parser),
    (∀ l ∈ pre, ¬ stopLine l) → (parseLoop E p pre).2 = Res.ok →
    parseLoop E p (pre ++ rest) = parseLoop E (parseLoop E p pre).1 rest := by
  induction pre with
  | nil => intro p _ _; rfl
  | cons l pre ih =>
    intro p hs hok
    have h1 : ¬ stopLine l := hs l (by simp)
    have hs2 : ∀ x ∈ pre, ¬ stopLine x := fun x hx => hs x (List.mem_cons_of_mem _ hx)
    by_cases h2 : skipLine l
    · rw [List.cons_append, parseLoop_skip E p l _ h1 h2, parseLoop_skip E p l _ h1 h2]
      rw [parseLoop_skip E p l _ h1 h2] at hok
      exact ih _ hs2 hok
    · by_cases h3 : (dispatch E { p with currentLine := p.currentLine + 1 } l).2 = Res.ok
      · rw [List.cons_append, parseLoop_content_ok E p l _ h1 h2 h3,
          parseLoop_content_ok E p l _ h1 h2 h3]
        rw [parseLoop_content_ok E p l _ h1 h2 h3] at hok
        exact ih _ hs2 hok
      · rw [parseLoop_content_stop E p l _ h1 h2 h3] at hok
        exact absurd hok h3

/-- The line counter after reading `pre` entirely. -/
theorem parseLoop_currentLine (E : Env) (pre : List Str) : ∀ (p : Parser),
    (∀ l ∈ pre, ¬ stopLine l) → (parseLoop E p pre).2 = Res.ok →
    (parseLoop E p pre).1.currentLine = p.currentLine + pre.length := by
  induction pre with
  | nil => intro p _ _; rfl
  | cons l pre ih =>
    intro p hs hok
    have h1 : ¬ stopLine l := hs l (by simp)
    have hs2 : ∀ x ∈ pre, ¬ stopLine x := fun x hx => hs x (List.mem_cons_of_mem _ hx)
    by_cases h2 : skipLine l
    · rw [parseLoop_skip E p l _ h1 h2] at hok ⊢
      rw [ih _ hs2 hok]
      simp only [List.length_cons]
      omega
    · by_cases h3 : (dispatch E { p with currentLine := p.currentLine + 1 } l).2 = Res.ok
      · rw [parseLoop_content_ok E p l _ h1 h2 h3] at hok ⊢
        rw [ih _ hs2 hok, dispatch_currentLine]
        simp only [List.length_cons]
        omega
      · rw [parseLoop_content_stop E p l _ h1 h2 h3] at hok
        exact absurd hok h3

/-- A line that stops the parsing hides everything after it: result and target. -/
theorem parseLoop_terminator (E : Env) (pre : List Str) (t : Str) (post : List Str)
    (ht : stopLine t) : ∀ (p : Parser),
    (parseLoop E p (pre ++ t :: post)).2 = (parseLoop E p pre).2 ∧
    (parseLoop E p (pre ++ t :: post)).1.rv = (parseLoop E p pre).1.rv := by
  induction pre with
  | nil => intro p; rw [List.nil_append, parseLoop_stop E p t post ht]; exact ⟨rfl, rfl⟩
  | cons l pre ih =>
    intro p
    by_cases h1 : stopLine l
    · rw [List.cons_append, parseLoop_stop E p l _ h1, parseLoop_stop E p l _ h1]
      exact ⟨rfl, rfl⟩
    · by_cases h2 : skipLine l
      · rw [List.cons_append, parseLoop_skip E p l _ h1 h2, parseLoop_skip E p l _ h1 h2]
        exact ih _
      · by_cases h3 : (dispatch E { p with currentLine := p.currentLine + 1 } l).2 = Res.ok
        · rw [List.cons_append, parseLoop_content_ok E p l _ h1 h2 h3,
            parseLoop_content_ok E p l _ h1 h2 h3]
          exact ih _
        · rw [List.cons_append, parseLoop_content_stop E p l _ h1 h2 h3,
            parseLoop_content_stop E p l _ h1 h2 h3]
          exact ⟨rfl, rfl⟩

/-! ## Lemmas: fields of the target -/

theorem fieldByName_setField_same (t : Target) (n : Str) (x v : Value)
    (h : fieldByName t n = some x) : fieldByName (setField t n v) n = some v := by
  induction t with
  | nil => unfold fieldByName at h; split at h <;> simp at h
  | cons f t ih =>
    unfold fieldByName at h
    by_cases hn : n = []
    · simp [hn] at h
    · simp only [hn, if_false] at h
      by_cases hf : f.name = n
      · simp only [setField, hf, if_true]
        unfold fieldByName
        simp [hn]
      · simp only [hf, if_false] at h
        simp only [setField, hf, if_false]
        unfold fieldByName
        simp only [hn, if_false, hf]
        exact ih h

theorem fieldByName_setField_other (t : Target) (n g : Str) (v : Value) (h : g ≠ n) :
    fieldByName (setField t n v) g = fieldByName t g := by
  induction t with
  | nil => rfl
  | cons f t ih =>
    by_cases hg : g = []
    · unfold fieldByName; simp [hg]
    · by_cases hf : f.name = n
      · have hfg : ¬ f.name = g := fun e => h (e ▸ hf)
        simp only [setField, hf, if_true]
        unfold fieldByName
        simp only [hg, if_false]
        rw [hf] at hfg
        simp [hfg, hf]
      · simp only [setField, hf, if_false]
        unfold fieldByName
        simp only [hg, if_false]
        by_cases hfg : f.name = g
        · simp [hfg]
        · simp only [hfg, if_false]
          exact ih

theorem setField_names (t : Target) (n : Str) (v : Value) :
    (setField t n v).map Field.name = t.map Field.name := by
  induction t with
  | nil => rfl
  | cons f t ih =>
    by_cases hf : f.name = n
    · simp [setField, hf]
    · simp [setField, hf, ih]

theorem setField_setField (t : Target) (n : Str) (a b : Value) :
    setField (setField t n a) n b = setField t n b := by
  induction t with
  | nil => rfl
  | cons f t ih =>
    by_cases hf : f.name = n
    · simp [setField, hf]
    · simp [setField, hf, ih]

theorem setField_self (t : Target) (n : Str) (x : Value) (h : fieldByName t n = some x) :
    setField t n x = t := by
  induction t with
  | nil => rfl
  | cons f t ih =>
    unfold fieldByName at h
    by_cases hn : n = []
    · simp [hn] at h
    · simp only [hn, if_false] at h
      by_cases hf : f.name = n
      · simp only [hf, if_true, Option.some.injEq] at h
        simp only [setField, hf, if_true]
        cases f
        simp_all
      · simp only [hf, if_false] at h
        simp only [setField, hf, if_false, ih h]

theorem fieldByName_none_of_names (t : Target) (n : Str) (h : ∀ f ∈ t, f.name ≠ n) :
    fieldByName t n = none := by
  induction t with
  | nil => unfold fieldByName; split <;> rfl
  | cons f t ih =>
    unfold fieldByName
    split
    · rfl
    · have hf : ¬ f.name = n := h f (by simp)
      simp only [hf, if_false]
      exact ih (fun g hg => h g (List.mem_cons_of_mem _ hg))


/-! ## Lemmas: one root line after a prefix -/

theorem skipLine_of_stopLine (l : Str) (h : stopLine l) : skipLine l := by
  unfold stopLine at h
  unfold skipLine
  right
  rcases h with ⟨_, h⟩
  cases ht : trimSpace l with
  | nil => rw [ht] at h; simp at h
  | cons c cs =>
    rw [ht] at h
    simp only [List.take_succ_cons] at h
    have : c = '#' := by
      have := congrArg List.head? h
      simpa using this
    simp [this]

theorem dispatch_root (E : Env) (p : Parser) (line : Str) (h : rootDispatch p line) :
    dispatch E p line = parseLine E p line := by
  unfold dispatch
  rcases h with ⟨h1, h2⟩ | h
  · simp [h1, h2]
  · split
    · simp [parseListLine, h]
    · split
      · simp [parseExtendedListLine, h]
      · rfl

theorem parseExtendListDeclaration_names (E : Env) (p : Parser) (l : Str) :
    (parseExtendListDeclaration E p l).1.rv.map Field.name = p.rv.map Field.name := by
  unfold parseExtendListDeclaration
  try simp only []
  repeat' split
  all_goals first
    | rfl
    | simp only [setField_names]

theorem parseLine_names (E : Env) (p : Parser) (l : Str) :
    (parseLine E p l).1.rv.map Field.name = p.rv.map Field.name := by
  unfold parseLine
  try simp only []
  repeat' split
  all_goals first
    | rfl
    | simp only [setField_names]
    | simp only [parseExtendListDeclaration_names, setField_names]

theorem parseListLine_names (E : Env) (p : Parser) (l : Str) :
    (parseListLine E p l).1.rv.map Field.name = p.rv.map Field.name := by
  unfold parseListLine
  try simp only []
  repeat' split
  all_goals first
    | rfl
    | exact parseLine_names E p l
    | simp only [setField_names]

theorem parseExtendedListLine_names (E : Env) (p : Parser) (l : Str) :
    (parseExtendedListLine E p l).1.rv.map Field.name = p.rv.map Field.name := by
  unfold parseExtendedListLine
  try simp only []
  repeat' split
  all_goals first
    | rfl
    | exact parseLine_names E p l

theorem dispatch_names (E : Env) (p : Parser) (l : Str) :
    (dispatch E p l).1.rv.map Field.name = p.rv.map Field.name := by
  unfold dispatch
  split
  · exact parseListLine_names E p l
  · split
    · exact parseExtendedListLine_names E p l
    · exact parseLine_names E p l

/-- Decoding never changes the names of the fields of the target. -/
theorem parseLoop_names (E : Env) (ls : List Str) : ∀ (p : Parser),
    (parseLoop E p ls).1.rv.map Field.name = p.rv.map Field.name := by
  induction ls with
  | nil => intro p; rfl
  | cons l ls ih =>
    intro p
    by_cases h1 : stopLine l
    · rw [parseLoop_stop E p l _ h1]
    · by_cases h2 : skipLine l
      · rw [parseLoop_skip E p l _ h1 h2, ih]
      · by_cases h3 : (dispatch E { p with currentLine := p.currentLine + 1 } l).2 = Res.ok
        · rw [parseLoop_content_ok E p l _ h1 h2 h3, ih, dispatch_names]
        · rw [parseLoop_content_stop E p l _ h1 h2 h3, dispatch_names]

/-- The parser with which `parse` enters its loop. -/
theorem parse_eq (E : Env) (v : Target) (ls : List Str) :
    Parser.parse E NewParser v ls =
      parseLoop E { mode := Mode.modeRoot, currentSigWs := [], rv := v, currentLine := 0,
                    listField := [], listName := [] } ls := rfl

/-- A line handed to `parseLine` after a prefix read without error: the document
is decoded as the prefix, then that call of `parseLine` at line `pre.length + 1`,
then the rest if the call returns no error. -/
theorem parse_root_line (E : Env) (v : Target) (pre : List Str) (line : Str) (post : List Str)
    (hpre : ∀ l ∈ pre, ¬ stopLine l) (hok : (Parser.parse E NewParser v pre).2 = Res.ok)
    (hskip : ¬ skipLine line)
    (hroot : rootDispatch (Parser.parse E NewParser v pre).1 line) :
    (Parser.parse E NewParser v pre).1.currentLine = pre.length ∧
    Parser.parse E NewParser v (pre ++ line :: post) =
      (match (parseLine E { (Parser.parse E NewParser v pre).1 with
                currentLine := pre.length + 1 } line).2 with
       | Res.ok => parseLoop E (parseLine E { (Parser.parse E NewParser v pre).1 with
                currentLine := pre.length + 1 } line).1 post
       | _ => parseLine E { (Parser.parse E NewParser v pre).1 with
                currentLine := pre.length + 1 } line) := by
  rw [parse_eq] at hok hroot ⊢
  rw [parse_eq]
  have hcl := parseLoop_currentLine E pre _ hpre hok
  simp only [Nat.zero_add] at hcl
  refine ⟨hcl, ?_⟩
  rw [parseLoop_append E pre _ _ hpre hok]
  have hstop : ¬ stopLine line := fun h => hskip (skipLine_of_stopLine line h)
  generalize parseLoop E _ pre = r at hok hroot hcl ⊢
  have hd := dispatch_root E { r.1 with currentLine := r.1.currentLine + 1 } line hroot
  rw [hcl] at hd
  cases hres : (parseLine E { r.1 with currentLine := pre.length + 1 } line).2 with
  | ok =>
    rw [parseLoop_content_ok E r.1 line post hstop hskip (by rw [hcl, hd]; exact hres)]
    rw [hcl, hd]
  | fail e =>
    rw [parseLoop_content_stop E r.1 line post hstop hskip (by rw [hcl, hd, hres]; simp)]
    rw [hcl, hd]
  | panic =>
    rw [parseLoop_content_stop E r.1 line post hstop hskip (by rw [hcl, hd, hres]; simp)]
    rw [hcl, hd]


/-- A root line whose normalized key names a field that cannot be set (an unexported
field), after any prefix read without error: the decoding fails with "Cannot set
field" at that line and the target is as before. -/
theorem root_line_unsettable (E : Env) (v : Target) (pre post : List Str)
    (key rest fname : Str) (f : Value)
    (hpre : ∀ l ∈ pre, ¬ stopLine l)
    (hok : (decode E v pre).1 = Res.ok)
    (hskip : ¬ skipLine (key ++ ':' :: rest))
    (hroot : rootDispatch (Parser.parse E NewParser v pre).1 (key ++ ':' :: rest))
    (hkey : ':' ∉ key) (hnorm : normalize E key = fname)
    (hset : canSet E fname = false)
    (hfield : fieldByName (decode E v pre).2 fname = some f) :
    decode E v (pre ++ (key ++ ':' :: rest) :: post) =
      (Res.fail (Err.cannotSet fname (pre.length + 1)), (decode E v pre).2) := by
  have hok2 : (Parser.parse E NewParser v pre).2 = Res.ok := hok
  obtain ⟨_, hp⟩ := parse_root_line E v pre _ post hpre hok2 hskip hroot
  have hf : fieldByName (Parser.parse E NewParser v pre).1.rv fname = some f := hfield
  have hl : parseLine E { (Parser.parse E NewParser v pre).1 with
      currentLine := pre.length + 1 } (key ++ ':' :: rest) =
      ({ (Parser.parse E NewParser v pre).1 with
          currentLine := pre.length + 1, mode := Mode.modeRoot },
        Res.fail (Err.cannotSet fname (pre.length + 1))) := by
    simp [parseLine, splitN2_first ':' key rest hkey, hnorm, hf, hset]
  simp only [decode, hp, hl]


/-! ## Claims -/

/-- C9. A line whose trimmed text starts with `###` ends the decoding: for all
line sequences `pre` and `post`, decoding `pre ++ [t] ++ post` gives the same
result (success, error or panic) and the same final target as decoding `pre`. -/
theorem C9_terminator_hides_rest (E : Env) (v : Target) (pre post : List Str) (t : Str)
    (ht : "###".toList <+: trimSpace t) :
    decode E v (pre ++ [t] ++ post) = decode E v pre := by
  have hs : stopLine t := by
    obtain ⟨r, hr⟩ := ht
    unfold stopLine
    rw [← hr]
    exact ⟨by simp, by simp⟩
  have h := parseLoop_terminator E pre t post hs
    { mode := Mode.modeRoot, currentSigWs := [], rv := v, currentLine := 0,
      listField := [], listName := [] }
  simp only [decode, parse_eq, List.append_assoc, List.singleton_append]
  rw [h.1, h.2]

/-- Witness of C9 on scenario 7 of the specification. -/
theorem C9_terminator_hides_rest_witness :
    "###".toList <+: trimSpace "###".toList ∧
    decode Env.ascii confFile (["Name: Alice".toList] ++ ["###".toList] ++ ["Name: Bob".toList])
      = decode Env.ascii confFile ["Name: Alice".toList] :=
  ⟨by decide, C9_terminator_hides_rest Env.ascii confFile ["Name: Alice".toList]
    ["Name: Bob".toList] "###".toList (by decide)⟩

/-- C10. A root `key: value` line whose normalized key is not the name of any
field of the target makes the decoding fail with the unknown-field error
("Invalid field") carrying the 1-based number of that line, and the target is as
the lines before left it. The line stands after any prefix `pre` read without
error, and is a root line: not blank, not a comment, and handed to `parseLine`. -/
theorem C10_unknown_field (E : Env) (v : Target) (pre post : List Str) (key rest : Str)
    (hpre : ∀ l ∈ pre, ¬ stopLine l)
    (hok : (decode E v pre).1 = Res.ok)
    (hskip : ¬ skipLine (key ++ ':' :: rest))
    (hroot : rootDispatch (Parser.parse E NewParser v pre).1 (key ++ ':' :: rest))
    (hkey : ':' ∉ key)
    (hname : ∀ f ∈ v, f.name ≠ normalize E key) :
    decode E v (pre ++ (key ++ ':' :: rest) :: post) =
      (Res.fail (Err.invalidField (normalize E key) (pre.length + 1)), (decode E v pre).2) := by
  have hok2 : (Parser.parse E NewParser v pre).2 = Res.ok := hok
  obtain ⟨_, hp⟩ := parse_root_line E v pre _ post hpre hok2 hskip hroot
  have hnames : (Parser.parse E NewParser v pre).1.rv.map Field.name = v.map Field.name := by
    rw [parse_eq]; exact parseLoop_names E pre _
  have hnone : fieldByName (Parser.parse E NewParser v pre).1.rv (normalize E key) = none := by
    apply fieldByName_none_of_names
    intro f hf
    have : f.name ∈ v.map Field.name := by
      rw [← hnames]; exact List.mem_map_of_mem _ hf
    obtain ⟨g, hg, hgn⟩ := List.mem_map.1 this
    rw [← hgn]
    exact hname g hg
  have hl : parseLine E { (Parser.parse E NewParser v pre).1 with
      currentLine := pre.length + 1 } (key ++ ':' :: rest) =
      ({ (Parser.parse E NewParser v pre).1 with
          currentLine := pre.length + 1, mode := Mode.modeRoot },
        Res.fail (Err.invalidField (normalize E key) (pre.length + 1))) := by
    simp [parseLine, splitN2_first ':' key rest hkey, hnone]
  simp only [decode, hp, hl]

/-- Witness of C10 on scenario 6 of the specification, after a comment line. -/
theorem C10_unknown_field_witness :
    decode Env.ascii confFile (["# people".toList] ++ ("Foo".toList ++ ':' :: " bar".toList) :: [])
      = (Res.fail (Err.invalidField "Foo".toList 2), confFile) :=
  C10_unknown_field Env.ascii confFile ["# people".toList] [] "Foo".toList " bar".toList
    (by decide) (by decide) (by decide) (by decide) (by decide) (by decide)


/-- C1 as stated fails for a field that cannot be set: the struct field `_x int8` is
found by `FieldByName` (the key `_x` normalizes to `_x`), it is not exported, and
the line `_x: 5` fails with "Cannot set field"; the field keeps its value. -/
theorem C1_signed_integer_counterexample :
    normalize Env.ascii "_x".toList = "_x".toList ∧
    fieldByName [{ name := "_x".toList, val := Value.int 8 0 }] "_x".toList =
      some (Value.int 8 0) ∧
    decode Env.ascii [{ name := "_x".toList, val := Value.int 8 0 }] ["_x: 5".toList] =
      (Res.fail (Err.cannotSet "_x".toList 1),
        [{ name := "_x".toList, val := Value.int 8 0 }]) := by
  decide

/-- C1, amended. For a signed integer field of width `w` (8, 16, 32 or 64 bits) and
every `n` of the `w`-bit signed range, take the single root line made of a key that
normalizes to the name of the field, a colon and the base-10 rendering of `n` with
any number of spaces around it. If the field can be set (it is exported), decoding
the line succeeds; afterwards that field holds `n` and every other field is as
before. If the field cannot be set, decoding the line fails with "Cannot set field"
at line 1 and the target is unchanged. -/
theorem C1_signed_integer (E : Env) (v : Target) (key fname : Str) (w : Nat) (old n : Int)
    (a b : Nat)
    (hw : w = 8 ∨ w = 16 ∨ w = 32 ∨ w = 64)
    (hn : -2 ^ (w - 1) ≤ n ∧ n < 2 ^ (w - 1))
    (hkey : ':' ∉ key) (hnorm : normalize E key = fname)
    (hskip : ¬ skipLine
      (key ++ ':' :: (List.replicate a ' ' ++ renderInt n ++ List.replicate b ' ')))
    (hfield : fieldByName v fname = some (Value.int w old)) :
    (canSet E fname = true →
      decode E v [key ++ ':' :: (List.replicate a ' ' ++ renderInt n ++ List.replicate b ' ')]
        = (Res.ok, setField v fname (Value.int w n)) ∧
      fieldByName (setField v fname (Value.int w n)) fname = some (Value.int w n) ∧
      ∀ g, g ≠ fname → fieldByName (setField v fname (Value.int w n)) g = fieldByName v g) ∧
    (canSet E fname = false →
      decode E v [key ++ ':' :: (List.replicate a ' ' ++ renderInt n ++ List.replicate b ' ')]
        = (Res.fail (Err.cannotSet fname 1), v)) := by
  refine ⟨fun hset => ?_, fun hset => ?_⟩
  swap
  · exact root_line_unsettable E v [] [] key _ fname _ (by simp) rfl hskip
      (Or.inl ⟨by simp [parse_eq, parseLoop], by simp [parse_eq, parseLoop]⟩) hkey hnorm hset
      hfield
  refine ⟨?_, fieldByName_setField_same v fname _ _ hfield,
    fun g hg => fieldByName_setField_other v fname g _ hg⟩
  have hw1 : 1 ≤ w := by omega
  have h63 : -2 ^ 63 ≤ n ∧ n < 2 ^ 63 := by
    rcases hw with rfl | rfl | rfl | rfl <;> norm_num at hn ⊢ <;> omega
  have hsp : ∀ k : Nat, ∀ c ∈ List.replicate k ' ', isSpace c = true := by
    intro k c hc
    rw [List.eq_of_mem_replicate hc]
    decide
  have htrim : trimSpace (List.replicate a ' ' ++ renderInt n ++ List.replicate b ' ')
      = renderInt n := by
    rw [trimSpace_pad _ _ _ (hsp a) (hsp b), trimSpace_of_no_space _ (renderInt_no_space n)]
  have hwrap := wrapInt_of_range w n hw1 hn.1 hn.2
  obtain ⟨_, hp⟩ := parse_root_line E v [] _ [] (by simp) rfl hskip
    (Or.inl ⟨by simp [parse_eq, parseLoop], by simp [parse_eq, parseLoop]⟩)
  simp only [List.nil_append] at hp
  have hl : parseLine E { (Parser.parse E NewParser v []).1 with currentLine := 0 + 1 }
      (key ++ ':' :: (List.replicate a ' ' ++ renderInt n ++ List.replicate b ' ')) =
      ({ (Parser.parse E NewParser v []).1 with
          currentLine := 0 + 1, mode := Mode.modeRoot,
          rv := setField v fname (Value.int w n) }, Res.ok) := by
    have hf : fieldByName (Parser.parse E NewParser v []).1.rv fname
        = some (Value.int w old) := hfield
    have htrim2 : trimSpace (List.replicate a ' ' ++ (renderInt n ++ List.replicate b ' '))
        = renderInt n := by rw [← List.append_assoc]; exact htrim
    have hv : (Parser.parse E NewParser v []).1.rv = v := rfl
    simp [parseLine, splitN2_first ':' key _ hkey, hnorm, hfield, hset, htrim2,
      parseInt_renderInt n h63.1 h63.2, overflowInt, hwrap, hv]
  simp only [List.length_nil] at hp
  simp only [decode, hp, hl, parseLoop]

/-- Witness of C1: an int8 field and the line `Age:  -128 `. -/
theorem C1_signed_integer_witness :
    decode Env.ascii [{ name := "Age".toList, val := Value.int 8 0 }]
      ["Age".toList ++ ':' :: (List.replicate 2 ' ' ++ renderInt (-128) ++ List.replicate 1 ' ')]
      = (Res.ok, setField [{ name := "Age".toList, val := Value.int 8 0 }] "Age".toList
          (Value.int 8 (-128))) :=
  ((C1_signed_integer Env.ascii [{ name := "Age".toList, val := Value.int 8 0 }] "Age".toList
    "Age".toList 8 0 (-128) 2 1 (by decide) (by decide) (by decide) (by decide) (by decide)
    (by decide)).1 (by decide)).1

/-- C2 as stated fails for a field that cannot be set: the struct field `_s string`
is empty and the key `_s` names it, yet the line `_s: hello` stores nothing and
fails with "Cannot set field". -/
theorem C2_string_field_counterexample :
    normalize Env.ascii "_s".toList = "_s".toList ∧
    fieldByName [{ name := "_s".toList, val := Value.str [] }] "_s".toList =
      some (Value.str []) ∧
    decode Env.ascii [{ name := "_s".toList, val := Value.str [] }] ["_s: hello".toList] =
      (Res.fail (Err.cannotSet "_s".toList 1),
        [{ name := "_s".toList, val := Value.str [] }]) := by
  decide

/-- C2, amended. A root line with a colon whose normalized key names a string field,
after any prefix read without error. When the field can be set (it is exported): if
the field is empty, the decoding succeeds and the field holds the text after the
first colon, trimmed of its leading and trailing white space (later colons are part
of it); if the field is not empty, the decoding fails with the redeclaration error
at that line and the target, hence the field, is as before. When the field cannot
be set, the decoding fails with "Cannot set field" at that line and the target is
as before. -/
theorem C2_string_field (E : Env) (v : Target) (pre : List Str) (key rest fname s : Str)
    (hpre : ∀ l ∈ pre, ¬ stopLine l)
    (hok : (decode E v pre).1 = Res.ok)
    (hskip : ¬ skipLine (key ++ ':' :: rest))
    (hroot : rootDispatch (Parser.parse E NewParser v pre).1 (key ++ ':' :: rest))
    (hkey : ':' ∉ key) (hnorm : normalize E key = fname)
    (hfield : fieldByName (decode E v pre).2 fname = some (Value.str s)) :
    (canSet E fname = true →
      (s = [] →
        decode E v (pre ++ [key ++ ':' :: rest]) =
          (Res.ok, setField (decode E v pre).2 fname (Value.str (trimSpace rest))) ∧
        fieldByName (decode E v (pre ++ [key ++ ':' :: rest])).2 fname =
          some (Value.str (trimSpace rest))) ∧
      (s ≠ [] → ∀ post,
        decode E v (pre ++ (key ++ ':' :: rest) :: post) =
          (Res.fail (Err.redeclared fname (pre.length + 1)), (decode E v pre).2))) ∧
    (canSet E fname = false → ∀ post,
      decode E v (pre ++ (key ++ ':' :: rest) :: post) =
        (Res.fail (Err.cannotSet fname (pre.length + 1)), (decode E v pre).2)) := by
  refine ⟨fun hset => ?_, fun hset post =>
    root_line_unsettable E v pre post key rest fname _ hpre hok hskip hroot hkey hnorm hset
      hfield⟩
  have hok2 : (Parser.parse E NewParser v pre).2 = Res.ok := hok
  have hf : fieldByName (Parser.parse E NewParser v pre).1.rv fname = some (Value.str s) :=
    hfield
  constructor
  · intro hs
    obtain ⟨_, hp⟩ := parse_root_line E v pre _ [] hpre hok2 hskip hroot
    have hl : parseLine E { (Parser.parse E NewParser v pre).1 with
        currentLine := pre.length + 1 } (key ++ ':' :: rest) =
        ({ (Parser.parse E NewParser v pre).1 with
            currentLine := pre.length + 1, mode := Mode.modeRoot,
            rv := setField (Parser.parse E NewParser v pre).1.rv fname
              (Value.str (trimSpace rest)) }, Res.ok) := by
      simp [parseLine, splitN2_first ':' key rest hkey, hnorm, hf, hset, hs]
    have hd : decode E v (pre ++ [key ++ ':' :: rest]) =
        (Res.ok, setField (decode E v pre).2 fname (Value.str (trimSpace rest))) := by
      simp only [decode, hp, hl, parseLoop]
    refine ⟨hd, ?_⟩
    rw [hd]
    exact fieldByName_setField_same _ _ _ _ hfield
  · intro hs post
    obtain ⟨_, hp⟩ := parse_root_line E v pre _ post hpre hok2 hskip hroot
    have hl : parseLine E { (Parser.parse E NewParser v pre).1 with
        currentLine := pre.length + 1 } (key ++ ':' :: rest) =
        ({ (Parser.parse E NewParser v pre).1 with
            currentLine := pre.length + 1, mode := Mode.modeRoot },
          Res.fail (Err.redeclared fname (pre.length + 1))) := by
      simp [parseLine, splitN2_first ':' key rest hkey, hnorm, hf, hset, hs]
    simp only [decode, hp, hl]

/-- Witness of C2: after `Birthdate: 1`, the line `Name: a:b ` stores `a:b`; after
`Name: x` the same line is a redeclaration. -/
theorem C2_string_field_witness :
    decode Env.ascii confFile
        (["Birthdate: 1".toList] ++ ["Name".toList ++ ':' :: " a:b ".toList]) =
      (Res.ok, setField (decode Env.ascii confFile ["Birthdate: 1".toList]).2 "Name".toList
        (Value.str (trimSpace " a:b ".toList))) ∧
    trimSpace " a:b ".toList = "a:b".toList ∧
    decode Env.ascii confFile (["Name: x".toList] ++ ("Name".toList ++ ':' :: " a:b ".toList)
      :: ["Birthdate: 1".toList])
      = (Res.fail (Err.redeclared "Name".toList 2),
          (decode Env.ascii confFile ["Name: x".toList]).2) :=
  ⟨((((C2_string_field Env.ascii confFile ["Birthdate: 1".toList] "Name".toList
      " a:b ".toList "Name".toList [] (by decide) (by decide) (by decide) (by decide)
      (by decide) (by decide) (by decide)).1 (by decide)).1 rfl).1),
   by decide,
   ((C2_string_field Env.ascii confFile ["Name: x".toList] "Name".toList " a:b ".toList
      "Name".toList "x".toList (by decide) (by decide) (by decide) (by decide) (by decide)
      (by decide) (by decide)).1 (by decide)).2 (by decide) ["Birthdate: 1".toList]⟩


theorem boolLiteral_eq (E : Env) (val : Str) :
    boolLiteral E val =
      if toLower E val ∈ ["true".toList, "yes".toList, "t".toList, "1".toList] then some true
      else if toLower E val ∈ ["false".toList, "no".toList, "f".toList, "0".toList] then
        some false
      else none := by
  unfold boolLiteral
  simp only [List.mem_cons, List.mem_singleton, List.not_mem_nil, or_false]

/-- C3 as stated fails for a field that cannot be set: the key `_b` names the struct
field `_b bool` and `yes` is a boolean literal, yet the line `_b: yes` does not
succeed: it fails with "Cannot set field". -/
theorem C3_boolean_field_counterexample :
    normalize Env.ascii "_b".toList = "_b".toList ∧
    fieldByName [{ name := "_b".toList, val := Value.bool false }] "_b".toList =
      some (Value.bool false) ∧
    toLower Env.ascii (trimSpace " yes".toList) = "yes".toList ∧
    decode Env.ascii [{ name := "_b".toList, val := Value.bool false }] ["_b: yes".toList] =
      (Res.fail (Err.cannotSet "_b".toList 1),
        [{ name := "_b".toList, val := Value.bool false }]) := by
  decide

/-- C3, amended. A root line whose normalized key names a boolean field, with value
text `val`, after any prefix read without error. Let `lit` be `val` trimmed of white
space and lower-cased. When the field can be set (it is exported): the decoding of
the document up to that line succeeds if and only if `lit` is one of `true, yes, t,
1, false, no, f, 0`; then the field holds `true` exactly when `lit` is one of `true,
yes, t, 1`. Otherwise the decoding fails with "Expected boolean" at that line and
the target, hence the field, is as before. When the field cannot be set, the
decoding fails with "Cannot set field" at that line, whatever the value text, and
the target is as before. -/
theorem C3_boolean_field (E : Env) (v : Target) (pre : List Str) (key val fname : Str)
    (b0 : Bool)
    (hpre : ∀ l ∈ pre, ¬ stopLine l)
    (hok : (decode E v pre).1 = Res.ok)
    (hskip : ¬ skipLine (key ++ ':' :: val))
    (hroot : rootDispatch (Parser.parse E NewParser v pre).1 (key ++ ':' :: val))
    (hkey : ':' ∉ key) (hnorm : normalize E key = fname)
    (hfield : fieldByName (decode E v pre).2 fname = some (Value.bool b0)) :
    (canSet E fname = true →
      ((decode E v (pre ++ [key ++ ':' :: val])).1 = Res.ok ↔
        toLower E (trimSpace val) ∈
          ["true".toList, "yes".toList, "t".toList, "1".toList,
           "false".toList, "no".toList, "f".toList, "0".toList]) ∧
      (toLower E (trimSpace val) ∈
          ["true".toList, "yes".toList, "t".toList, "1".toList,
           "false".toList, "no".toList, "f".toList, "0".toList] →
        decode E v (pre ++ [key ++ ':' :: val]) =
          (Res.ok, setField (decode E v pre).2 fname (Value.bool (decide
            (toLower E (trimSpace val) ∈
              ["true".toList, "yes".toList, "t".toList, "1".toList])))) ∧
        fieldByName (decode E v (pre ++ [key ++ ':' :: val])).2 fname =
          some (Value.bool (decide (toLower E (trimSpace val) ∈
              ["true".toList, "yes".toList, "t".toList, "1".toList])))) ∧
      (toLower E (trimSpace val) ∉
          ["true".toList, "yes".toList, "t".toList, "1".toList,
           "false".toList, "no".toList, "f".toList, "0".toList] → ∀ post,
        decode E v (pre ++ (key ++ ':' :: val) :: post) =
          (Res.fail (Err.expectedBoolean (pre.length + 1)), (decode E v pre).2))) ∧
    (canSet E fname = false → ∀ post,
      decode E v (pre ++ (key ++ ':' :: val) :: post) =
        (Res.fail (Err.cannotSet fname (pre.length + 1)), (decode E v pre).2)) := by
  refine ⟨fun hset => ?_, fun hset post =>
    root_line_unsettable E v pre post key val fname _ hpre hok hskip hroot hkey hnorm hset
      hfield⟩
  have hok2 : (Parser.parse E NewParser v pre).2 = Res.ok := hok
  have hf : fieldByName (Parser.parse E NewParser v pre).1.rv fname = some (Value.bool b0) :=
    hfield
  have hsplit : ∀ x : Str,
      x ∈ ["true".toList, "yes".toList, "t".toList, "1".toList,
         "false".toList, "no".toList, "f".toList, "0".toList] ↔
      (x ∈ ["true".toList, "yes".toList, "t".toList, "1".toList] ∨
       x ∈ ["false".toList, "no".toList, "f".toList, "0".toList]) := by
    intro x
    simp only [List.mem_cons, List.mem_singleton, List.not_mem_nil, or_false, or_assoc]
  -- what parseLine returns on the line, by the literal
  have hl : ∀ post, Parser.parse E NewParser v (pre ++ (key ++ ':' :: val) :: post) =
      (match boolLiteral E (trimSpace val) with
       | none => ({ (Parser.parse E NewParser v pre).1 with
            currentLine := pre.length + 1, mode := Mode.modeRoot },
            Res.fail (Err.expectedBoolean (pre.length + 1)))
       | some b => parseLoop E { (Parser.parse E NewParser v pre).1 with
            currentLine := pre.length + 1, mode := Mode.modeRoot,
            rv := setField (Parser.parse E NewParser v pre).1.rv fname (Value.bool b) }
            post) := by
    intro post
    obtain ⟨_, hp⟩ := parse_root_line E v pre _ post hpre hok2 hskip hroot
    rw [hp]
    cases hb : boolLiteral E (trimSpace val) with
    | none => simp [parseLine, splitN2_first ':' key val hkey, hnorm, hf, hset, hb]
    | some b => simp [parseLine, splitN2_first ':' key val hkey, hnorm, hf, hset, hb]
  have hdec : ∀ post, decode E v (pre ++ (key ++ ':' :: val) :: post) =
      ((Parser.parse E NewParser v (pre ++ (key ++ ':' :: val) :: post)).2,
       (Parser.parse E NewParser v (pre ++ (key ++ ':' :: val) :: post)).1.rv) :=
    fun _ => rfl
  by_cases ht : toLower E (trimSpace val) ∈
      ["true".toList, "yes".toList, "t".toList, "1".toList]
  · have hb : boolLiteral E (trimSpace val) = some true := by
      rw [boolLiteral_eq, if_pos ht]
    have hmem := (hsplit _).2 (Or.inl ht)
    have hd : decode E v (pre ++ [key ++ ':' :: val]) =
        (Res.ok, setField (decode E v pre).2 fname (Value.bool true)) := by
      rw [hdec, hl, hb]; rfl
    refine ⟨⟨fun _ => hmem, fun _ => by rw [hd]⟩, fun _ => ?_, fun h => absurd hmem h⟩
    simp only [ht, decide_True]
    exact ⟨hd, by rw [hd]; exact fieldByName_setField_same _ _ _ _ hfield⟩
  · by_cases hfa : toLower E (trimSpace val) ∈
        ["false".toList, "no".toList, "f".toList, "0".toList]
    · have hb : boolLiteral E (trimSpace val) = some false := by
        rw [boolLiteral_eq, if_neg ht, if_pos hfa]
      have hmem := (hsplit _).2 (Or.inr hfa)
      have hd : decode E v (pre ++ [key ++ ':' :: val]) =
          (Res.ok, setField (decode E v pre).2 fname (Value.bool false)) := by
        rw [hdec, hl, hb]; rfl
      refine ⟨⟨fun _ => hmem, fun _ => by rw [hd]⟩, fun _ => ?_, fun h => absurd hmem h⟩
      simp only [ht, decide_False]
      exact ⟨hd, by rw [hd]; exact fieldByName_setField_same _ _ _ _ hfield⟩
    · have hb : boolLiteral E (trimSpace val) = none := by
        rw [boolLiteral_eq, if_neg ht, if_neg hfa]
      have hnm : toLower E (trimSpace val) ∉
          ["true".toList, "yes".toList, "t".toList, "1".toList,
           "false".toList, "no".toList, "f".toList, "0".toList] := by
        rw [hsplit]; exact fun h => h.elim ht hfa
      have hd : ∀ post, decode E v (pre ++ (key ++ ':' :: val) :: post) =
          (Res.fail (Err.expectedBoolean (pre.length + 1)), (decode E v pre).2) := by
        intro post
        rw [hdec, hl, hb]; rfl
      refine ⟨⟨fun h => ?_, fun h => absurd h hnm⟩, fun h => absurd h hnm, fun _ => hd⟩
      rw [hd] at h
      simp at h

/-- Witness of C3: after `Name: x`, the line ` employed:  YES ` sets `Employed`. -/
theorem C3_boolean_field_witness :
    decode Env.ascii confFile (["Name: x".toList] ++ [" employed".toList ++ ':' :: "  YES ".toList])
      = (Res.ok, setField (decode Env.ascii confFile ["Name: x".toList]).2 "Employed".toList
          (Value.bool (decide (toLower Env.ascii (trimSpace "  YES ".toList) ∈
            ["true".toList, "yes".toList, "t".toList, "1".toList])))) :=
  (((C3_boolean_field Env.ascii confFile ["Name: x".toList] " employed".toList "  YES ".toList
    "Employed".toList false (by decide) (by decide) (by decide) (by decide) (by decide)
    (by decide) (by decide)).1 (by decide)).2.1 (by decide)).1


/-! ## Lemmas: list content lines -/

theorem takeWhile_append_all {p : Char → Bool} (l x : Str) (hl : ∀ c ∈ l, p c = true) :
    (l ++ x).takeWhile p = l ++ x.takeWhile p := by
  induction l with
  | nil => rfl
  | cons c l ih =>
    have hc : p c = true := hl c (by simp)
    simp only [List.cons_append, List.takeWhile_cons, hc, if_true]
    rw [ih (fun d hd => hl d (List.mem_cons_of_mem _ hd))]

theorem isSpace_of_isReSpace (c : Char) (h : isReSpace c = true) : isSpace c = true := by
  simp only [isReSpace, Bool.or_eq_true, decide_eq_true_eq] at h
  simp only [isSpace, Bool.or_eq_true, decide_eq_true_eq, Bool.and_eq_true]
  omega

/-- The line `ws ++ it`, for an indentation `ws` and an item that does not start with
white space: its leading white space is `ws`, its trimmed text that of the item. -/
theorem indented_line (ws it : Str) (hws : ws ≠ []) (hwsc : ∀ c ∈ ws, isReSpace c = true)
    (hit : wsRegexFind it = none) :
    wsRegexFind (ws ++ it) = some ws ∧ trimSpace (ws ++ it) = trimSpace it := by
  constructor
  · have h0 : it.takeWhile isReSpace = [] := by
      unfold wsRegexFind at hit
      split at hit
      · assumption
      · simp at hit
    unfold wsRegexFind
    rw [takeWhile_append_all ws it hwsc, h0, List.append_nil]
    cases ws with
    | nil => exact absurd rfl hws
    | cons c cs => rfl
  · have h := trimSpace_pad ws it [] (fun c hc => isSpace_of_isReSpace c (hwsc c hc))
      (by simp)
    simpa using h

theorem parseListLine_strSlice (E : Env) (p : Parser) (line sigWs : Str) (xs : List Str)
    (hws : wsRegexFind line = some sigWs)
    (hf : fieldByName p.rv p.listField = some (Value.strSlice xs))
    (hsig : xs = [] ∨ p.currentSigWs = sigWs) :
    parseListLine E p line =
      ({ p with currentSigWs := sigWs,
                rv := setField p.rv p.listField (Value.strSlice (xs ++ [trimSpace line])) },
        Res.ok) := by
  unfold parseListLine
  simp only [hws, hf]
  by_cases hx : xs.length = 0
  · simp [hx]
  · have hx2 : xs ≠ [] := fun e => hx (by simp [e])
    have hs : p.currentSigWs = sigWs := hsig.resolve_left hx2
    simp only [hx, if_false, ← hs, ne_eq, not_true_eq_false]

theorem parseListLine_mismatch (E : Env) (p : Parser) (line sigWs : Str) (xs : List Str)
    (hws : wsRegexFind line = some sigWs)
    (hf : fieldByName p.rv p.listField = some (Value.strSlice xs))
    (hx : xs ≠ []) (hsig : sigWs ≠ p.currentSigWs) :
    parseListLine E p line = (p, Res.fail (Err.notInBlock p.currentLine)) := by
  unfold parseListLine
  have hx2 : ¬ xs.length = 0 := fun e => hx (List.length_eq_zero.1 e)
  simp [hws, hf, hx2, hsig]

theorem parseListLine_namedList (E : Env) (p : Parser) (line sigWs : Str)
    (m : List (Str × List Str))
    (hws : wsRegexFind line = some sigWs)
    (hf : fieldByName p.rv p.listField = some (Value.namedList false m))
    (hsig : m = [] ∨ p.currentSigWs = sigWs) :
    parseListLine E p line =
      ({ p with currentSigWs := sigWs,
                rv := setField p.rv p.listField (Value.namedList false
                  (setMapIndex m p.listName
                    ((mapIndex m p.listName).getD [] ++ [trimSpace line]))) },
        Res.ok) := by
  unfold parseListLine
  simp only [hws, hf]
  by_cases hx : m.length = 0
  · simp [hx]
  · have hx2 : m ≠ [] := fun e => hx (by simp [e])
    have hs : p.currentSigWs = sigWs := hsig.resolve_left hx2
    simp [hx, ← hs]

theorem dispatch_list (E : Env) (p : Parser) (line : Str) (h : p.mode = Mode.modeList) :
    dispatch E p line = parseListLine E p line := by
  simp [dispatch, h]

/-- The items of a simple list, all with the indentation `ws`, read in `modeList`:
they are appended in order, trimmed. -/
theorem parseLoop_simple_items (E : Env) (fname ws : Str) (hws : ws ≠ [])
    (hwsc : ∀ c ∈ ws, isReSpace c = true) (items : List Str) :
    ∀ (p : Parser) (xs : List Str), p.mode = Mode.modeList → p.listField = fname →
    fieldByName p.rv fname = some (Value.strSlice xs) →
    (xs = [] ∨ p.currentSigWs = ws) →
    (∀ it ∈ items, ¬ skipLine it ∧ wsRegexFind it = none) →
    (parseLoop E p (items.map (fun it => ws ++ it))).2 = Res.ok ∧
    (parseLoop E p (items.map (fun it => ws ++ it))).1.rv =
      setField p.rv fname (Value.strSlice (xs ++ items.map trimSpace)) := by
  induction items with
  | nil =>
    intro p xs _ _ hf _ _
    simp only [List.map_nil, parseLoop, List.append_nil, true_and]
    exact (setField_self _ _ _ hf).symm
  | cons it items ih =>
    intro p xs hm hl hf hsig hit
    obtain ⟨hsk, hre⟩ := hit it (by simp)
    obtain ⟨hw, htr⟩ := indented_line ws it hws hwsc hre
    have hskip : ¬ skipLine (ws ++ it) := by
      unfold skipLine at hsk ⊢; rw [htr]; exact hsk
    have hstop : ¬ stopLine (ws ++ it) := fun h => hskip (skipLine_of_stopLine _ h)
    have hd : dispatch E { p with currentLine := p.currentLine + 1 } (ws ++ it) =
        ({ p with currentLine := p.currentLine + 1, currentSigWs := ws,
                  rv := setField p.rv fname (Value.strSlice (xs ++ [trimSpace it])) },
          Res.ok) := by
      have hm2 : ({ p with currentLine := p.currentLine + 1 } : Parser).mode
          = Mode.modeList := hm
      rw [dispatch_list E _ _ hm2,
        parseListLine_strSlice E ({ p with currentLine := p.currentLine + 1 }) (ws ++ it) ws xs
          hw (by simpa [hl] using hf) hsig, htr]
      simp [hl]
    rw [List.map_cons, parseLoop_content_ok E p _ _ hstop hskip (by rw [hd]), hd]
    have h := ih
      ({ p with currentLine := p.currentLine + 1, currentSigWs := ws,
                rv := setField p.rv fname (Value.strSlice (xs ++ [trimSpace it])) })
      (xs ++ [trimSpace it]) hm hl (fieldByName_setField_same _ _ _ _ hf) (Or.inr rfl)
      (fun x hx => hit x (List.mem_cons_of_mem _ hx))
    refine ⟨h.1, ?_⟩
    rw [h.2]
    simp only [setField_setField, List.append_assoc, List.singleton_append, List.map_cons]

/-- The items of a named list whose entry exists already, all with the indentation
`ws`, read in `modeList`: they are appended in order, trimmed, to that entry. -/
theorem parseLoop_named_items (E : Env) (fname ws kn : Str) (hws : ws ≠ [])
    (hwsc : ∀ c ∈ ws, isReSpace c = true) (items : List Str) :
    ∀ (p : Parser) (xs : List Str), p.mode = Mode.modeList → p.listField = fname →
    p.listName = kn →
    fieldByName p.rv fname = some (Value.namedList false [(kn, xs)]) →
    p.currentSigWs = ws →
    (∀ it ∈ items, ¬ skipLine it ∧ wsRegexFind it = none) →
    (parseLoop E p (items.map (fun it => ws ++ it))).2 = Res.ok ∧
    (parseLoop E p (items.map (fun it => ws ++ it))).1.rv =
      setField p.rv fname (Value.namedList false [(kn, xs ++ items.map trimSpace)]) := by
  induction items with
  | nil =>
    intro p xs _ _ _ hf _ _
    simp only [List.map_nil, parseLoop, List.append_nil, true_and]
    exact (setField_self _ _ _ hf).symm
  | cons it items ih =>
    intro p xs hm hl hk hf hsig hit
    obtain ⟨hsk, hre⟩ := hit it (by simp)
    obtain ⟨hw, htr⟩ := indented_line ws it hws hwsc hre
    have hskip : ¬ skipLine (ws ++ it) := by
      unfold skipLine at hsk ⊢; rw [htr]; exact hsk
    have hstop : ¬ stopLine (ws ++ it) := fun h => hskip (skipLine_of_stopLine _ h)
    have hd : dispatch E { p with currentLine := p.currentLine + 1 } (ws ++ it) =
        ({ p with currentLine := p.currentLine + 1, currentSigWs := ws,
                  rv := setField p.rv fname
                    (Value.namedList false [(kn, xs ++ [trimSpace it])]) },
          Res.ok) := by
      have hm2 : ({ p with currentLine := p.currentLine + 1 } : Parser).mode
          = Mode.modeList := hm
      rw [dispatch_list E _ _ hm2,
        parseListLine_namedList E ({ p with currentLine := p.currentLine + 1 }) (ws ++ it) ws
          [(kn, xs)] hw (by simpa [hl] using hf) (Or.inr hsig), htr]
      simp [hl, hk, setMapIndex, mapIndex]
    rw [List.map_cons, parseLoop_content_ok E p _ _ hstop hskip (by rw [hd]), hd]
    have h := ih
      ({ p with currentLine := p.currentLine + 1, currentSigWs := ws,
                rv := setField p.rv fname
                    (Value.namedList false [(kn, xs ++ [trimSpace it])]) })
      (xs ++ [trimSpace it]) hm hl hk (fieldByName_setField_same _ _ _ _ hf) rfl
      (fun x hx => hit x (List.mem_cons_of_mem _ hx))
    refine ⟨h.1, ?_⟩
    rw [h.2]
    simp only [setField_setField, List.append_assoc, List.singleton_append, List.map_cons]


/-- C4 as stated fails: the items `a` and ` b` are non-empty after trimming and do
not start with `#`, yet with the prefix of two spaces the second line has three
leading spaces and the decoding fails with the indentation mismatch at line 3. -/
theorem C4_simple_list_counterexample :
    (∀ it ∈ ["a".toList, " b".toList], trimSpace it ≠ [] ∧ it.head? ≠ some '#') ∧
    decode Env.ascii confFile
      ("Hobbies:".toList :: ["a".toList, " b".toList].map (fun it => "  ".toList ++ it))
      = (Res.fail (Err.notInBlock 3),
          setField confFile "Hobbies".toList (Value.strSlice ["a".toList])) := by
  decide

/-- C4, amended. For every non-empty prefix `ws` of spaces and tabs and every list
of items, each non-empty after trimming, with a trimmed text that does not start
with `#`, and not itself starting with white space: decoding a list-opening line
for a settable, empty list-of-string field followed by one line `ws ++ item` per
item succeeds and leaves in the field the trimmed items in their order. -/
theorem C4_simple_list (E : Env) (v : Target) (key rest fname ws : Str) (items : List Str)
    (hkey : ':' ∉ key) (hnorm : normalize E key = fname)
    (hskip : ¬ skipLine (key ++ ':' :: rest))
    (hset : canSet E fname = true)
    (hfield : fieldByName v fname = some (Value.strSlice []))
    (hws : ws ≠ []) (hwsc : ∀ c ∈ ws, c = ' ' ∨ c = '\t')
    (hitems : ∀ it ∈ items,
      trimSpace it ≠ [] ∧ (trimSpace it).head? ≠ some '#' ∧ wsRegexFind it = none) :
    decode E v ((key ++ ':' :: rest) :: items.map (fun it => ws ++ it))
      = (Res.ok, setField v fname (Value.strSlice (items.map trimSpace))) ∧
    fieldByName (setField v fname (Value.strSlice (items.map trimSpace))) fname
      = some (Value.strSlice (items.map trimSpace)) := by
  refine ⟨?_, fieldByName_setField_same v fname _ _ hfield⟩
  have hwsc2 : ∀ c ∈ ws, isReSpace c = true := by
    intro c hc
    rcases hwsc c hc with rfl | rfl <;> decide
  have hit2 : ∀ it ∈ items, ¬ skipLine it ∧ wsRegexFind it = none := by
    intro it hit
    obtain ⟨h1, h2, h3⟩ := hitems it hit
    refine ⟨?_, h3⟩
    unfold skipLine
    rintro (h | h)
    · exact h1 (List.length_eq_zero.1 (by omega))
    · exact h2 h
  obtain ⟨_, hp⟩ := parse_root_line E v [] _ (items.map (fun it => ws ++ it)) (by simp) rfl
    hskip (Or.inl ⟨by simp [parse_eq, parseLoop], by simp [parse_eq, parseLoop]⟩)
  simp only [List.nil_append, List.length_nil] at hp
  have hl : parseLine E { (Parser.parse E NewParser v []).1 with currentLine := 0 + 1 }
      (key ++ ':' :: rest) =
      ({ (Parser.parse E NewParser v []).1 with
          currentLine := 0 + 1, mode := Mode.modeList, listField := fname }, Res.ok) := by
    have hf : fieldByName (Parser.parse E NewParser v []).1.rv fname
        = some (Value.strSlice []) := hfield
    simp [parseLine, splitN2_first ':' key _ hkey, hnorm, hf, hset]
  have hloop := parseLoop_simple_items E fname ws hws hwsc2 items
    ({ (Parser.parse E NewParser v []).1 with
          currentLine := 0 + 1, mode := Mode.modeList, listField := fname }) [] rfl rfl
    hfield (Or.inl rfl) hit2
  simp only [decode, hp, hl]
  rw [hloop.1, hloop.2]
  rfl

/-- Witness of C4 on scenario 2 of the specification. -/
theorem C4_simple_list_witness :
    decode Env.ascii confFile (("Hobbies".toList ++ ':' :: [])
      :: ["Reading".toList, "Chess ".toList].map (fun it => "  ".toList ++ it))
      = (Res.ok, setField confFile "Hobbies".toList
          (Value.strSlice (["Reading".toList, "Chess ".toList].map trimSpace))) :=
  (C4_simple_list Env.ascii confFile "Hobbies".toList [] "Hobbies".toList "  ".toList
    ["Reading".toList, "Chess ".toList] (by decide) (by decide) (by decide) (by decide)
    (by decide) (by decide) (by decide) (by decide)).1

/-- C5 as stated fails on the empty list of items: after the one line
`work places: Acme` the map of named lists exists and has no entry at all, not the
entry `Acme` with an empty list. -/
theorem C5_named_list_counterexample :
    decode Env.ascii confFile
      (("work places".toList ++ ": ".toList ++ "Acme".toList)
        :: ([] : List Str).map (fun it => "  ".toList ++ it))
      = (Res.ok, setField confFile "WorkPlaces".toList (Value.namedList false [])) := by
  decide

/-- C5, amended. For every text `k`, every non-empty prefix `ws` of spaces and tabs
and every non-empty list of items, each non-empty after trimming, with a trimmed
text that does not start with `#`, and not itself starting with white space:
decoding the line `key:k` for a settable field of type map of string to list of
string whose map is empty (or nil), followed by one line `ws ++ item` per item,
succeeds and leaves the map with exactly one entry: `k` trimmed of its leading and
trailing white space, mapped to the trimmed items in their order. -/
theorem C5_named_list (E : Env) (v : Target) (key k fname ws : Str) (items : List Str)
    (isNil : Bool)
    (hkey : ':' ∉ key) (hnorm : normalize E key = fname)
    (hskip : ¬ skipLine (key ++ ':' :: k))
    (hset : canSet E fname = true)
    (hfield : fieldByName v fname = some (Value.namedList isNil []))
    (hws : ws ≠ []) (hwsc : ∀ c ∈ ws, c = ' ' ∨ c = '\t')
    (hne : items ≠ [])
    (hitems : ∀ it ∈ items,
      trimSpace it ≠ [] ∧ (trimSpace it).head? ≠ some '#' ∧ wsRegexFind it = none) :
    decode E v ((key ++ ':' :: k) :: items.map (fun it => ws ++ it))
      = (Res.ok, setField v fname
          (Value.namedList false [(trimSpace k, items.map trimSpace)])) ∧
    fieldByName (setField v fname
          (Value.namedList false [(trimSpace k, items.map trimSpace)])) fname
      = some (Value.namedList false [(trimSpace k, items.map trimSpace)]) := by
  refine ⟨?_, fieldByName_setField_same v fname _ _ hfield⟩
  have hwsc2 : ∀ c ∈ ws, isReSpace c = true := by
    intro c hc
    rcases hwsc c hc with rfl | rfl <;> decide
  have hit2 : ∀ it ∈ items, ¬ skipLine it ∧ wsRegexFind it = none := by
    intro it hit
    obtain ⟨h1, h2, h3⟩ := hitems it hit
    refine ⟨?_, h3⟩
    unfold skipLine
    rintro (h | h)
    · exact h1 (List.length_eq_zero.1 (by omega))
    · exact h2 h
  cases items with
  | nil => exact absurd rfl hne
  | cons it items =>
    obtain ⟨_, hp⟩ := parse_root_line E v [] _ ((it :: items).map (fun it => ws ++ it))
      (by simp) rfl hskip
      (Or.inl ⟨by simp [parse_eq, parseLoop], by simp [parse_eq, parseLoop]⟩)
    simp only [List.nil_append, List.length_nil] at hp
    have hl : parseLine E { (Parser.parse E NewParser v []).1 with currentLine := 0 + 1 }
        (key ++ ':' :: k) =
        ({ (Parser.parse E NewParser v []).1 with
            currentLine := 0 + 1, mode := Mode.modeList, listField := fname,
            listName := trimSpace k,
            rv := setField v fname (Value.namedList false []) }, Res.ok) := by
      have hf : fieldByName (Parser.parse E NewParser v []).1.rv fname
          = some (Value.namedList isNil []) := hfield
      have hv : (Parser.parse E NewParser v []).1.rv = v := rfl
      simp [parseLine, splitN2_first ':' key _ hkey, hnorm, hfield, hset, hv]
    -- the first item creates the entry
    obtain ⟨hsk, hre⟩ := hit2 it (by simp)
    obtain ⟨hw, htr⟩ := indented_line ws it hws hwsc2 hre
    have hskip1 : ¬ skipLine (ws ++ it) := by
      unfold skipLine at hsk ⊢; rw [htr]; exact hsk
    have hstop1 : ¬ stopLine (ws ++ it) := fun h => hskip1 (skipLine_of_stopLine _ h)
    have hf1 : fieldByName (setField v fname (Value.namedList false [])) fname
        = some (Value.namedList false []) := fieldByName_setField_same v fname _ _ hfield
    have hd : dispatch E
        { mode := Mode.modeList, currentSigWs := [],
          rv := setField v fname (Value.namedList false []), currentLine := 0 + 1 + 1,
          listField := fname, listName := trimSpace k } (ws ++ it) =
        ({ mode := Mode.modeList, currentSigWs := ws,
           rv := setField v fname (Value.namedList false [(trimSpace k, [trimSpace it])]),
           currentLine := 0 + 1 + 1, listField := fname, listName := trimSpace k },
          Res.ok) := by
      rw [dispatch_list E _ _ rfl,
        parseListLine_namedList E _ (ws ++ it) ws [] hw hf1 (Or.inl rfl), htr]
      simp [setMapIndex, mapIndex, setField_setField]
    have hloop := parseLoop_named_items E fname ws (trimSpace k) hws hwsc2 items
      ({ mode := Mode.modeList, currentSigWs := ws,
         rv := setField v fname (Value.namedList false [(trimSpace k, [trimSpace it])]),
         currentLine := 0 + 1 + 1, listField := fname, listName := trimSpace k })
      [trimSpace it] rfl rfl rfl (fieldByName_setField_same v fname _ _ hfield) rfl
      (fun x hx => hit2 x (List.mem_cons_of_mem _ hx))
    have hrun : parseLoop E
        ({ (Parser.parse E NewParser v []).1 with
            currentLine := 0 + 1, mode := Mode.modeList, listField := fname,
            listName := trimSpace k,
            rv := setField v fname (Value.namedList false []) })
        ((it :: items).map (fun it => ws ++ it)) =
        parseLoop E
          ({ mode := Mode.modeList, currentSigWs := ws,
             rv := setField v fname (Value.namedList false [(trimSpace k, [trimSpace it])]),
             currentLine := 0 + 1 + 1, listField := fname, listName := trimSpace k })
          (items.map (fun it => ws ++ it)) := by
      rw [List.map_cons, parseLoop_content_ok E _ _ _ hstop1 hskip1 (by
        show (dispatch E _ (ws ++ it)).2 = Res.ok
        exact (congrArg Prod.snd hd)), ]
      exact congrArg (fun q => parseLoop E q.1 (items.map (fun it => ws ++ it))) hd
    simp only [decode, hp, hl, hrun]
    rw [hloop.1, hloop.2]
    simp only [setField_setField, List.singleton_append, List.map_cons]

/-- Witness of C5 on scenario 3 of the specification, with the key `work places`
that normalizes to `WorkPlaces`. -/
theorem C5_named_list_witness :
    decode Env.ascii confFile (("work places".toList ++ ':' :: " Acme".toList)
      :: ["Office1".toList, "Office2".toList].map (fun it => "  ".toList ++ it))
      = (Res.ok, setField confFile "WorkPlaces".toList
          (Value.namedList false [(trimSpace " Acme".toList,
            ["Office1".toList, "Office2".toList].map trimSpace)])) :=
  (C5_named_list Env.ascii confFile "work places".toList " Acme".toList "WorkPlaces".toList
    "  ".toList ["Office1".toList, "Office2".toList] true (by decide) (by decide) (by decide)
    (by decide) (by decide) (by decide) (by decide) (by decide) (by decide)).1


/-- An indented content line accepted in `modeList` for a `[]string` field: its
leading white space is the signature from then on, and the list is not empty. -/
theorem list_step_ok (E : Env) (p : Parser) (l w : Str) (xs : List Str)
    (hm : p.mode = Mode.modeList)
    (hf : fieldByName p.rv p.listField = some (Value.strSlice xs))
    (hw : wsRegexFind l = some w) (hok : (dispatch E p l).2 = Res.ok) :
    dispatch E p l =
      ({ p with currentSigWs := w,
                rv := setField p.rv p.listField (Value.strSlice (xs ++ [trimSpace l])) },
        Res.ok) := by
  rw [dispatch_list E p l hm] at hok ⊢
  by_cases h : xs = [] ∨ p.currentSigWs = w
  · exact parseListLine_strSlice E p l w xs hw hf h
  · have h1 : xs ≠ [] := fun e => h (Or.inl e)
    have h2 : w ≠ p.currentSigWs := fun e => h (Or.inr e.symm)
    rw [parseListLine_mismatch E p l w xs hw hf h1 h2] at hok
    simp at hok

/-- Inside a block: blank lines, comments and accepted indented lines keep the
parser in `modeList` on a non-empty list with the same signature. -/
theorem block_lines (E : Env) (w1 : Str) (mid : List Str) : ∀ (p : Parser),
    p.mode = Mode.modeList →
    (∃ xs, xs ≠ [] ∧ fieldByName p.rv p.listField = some (Value.strSlice xs)) →
    p.currentSigWs = w1 →
    (∀ l ∈ mid, ¬ stopLine l ∧ (skipLine l ∨ wsRegexFind l ≠ none)) →
    (parseLoop E p mid).2 = Res.ok →
    (parseLoop E p mid).1.mode = Mode.modeList ∧
    (∃ xs, xs ≠ [] ∧ fieldByName (parseLoop E p mid).1.rv (parseLoop E p mid).1.listField
        = some (Value.strSlice xs)) ∧
    (parseLoop E p mid).1.currentSigWs = w1 := by
  induction mid with
  | nil => intro p hm hx hs _ _; exact ⟨hm, hx, hs⟩
  | cons l mid ih =>
    intro p hm hx hs hl hok
    obtain ⟨hstop, hkind⟩ := hl l (by simp)
    have hl2 : ∀ x ∈ mid, ¬ stopLine x ∧ (skipLine x ∨ wsRegexFind x ≠ none) :=
      fun x hx => hl x (List.mem_cons_of_mem _ hx)
    by_cases hsk : skipLine l
    · rw [parseLoop_skip E p l _ hstop hsk] at hok ⊢
      exact ih _ hm hx hs hl2 hok
    · have hw : wsRegexFind l ≠ none := hkind.resolve_left hsk
      obtain ⟨w, hw⟩ := Option.ne_none_iff_exists'.1 hw
      obtain ⟨xs, hxs, hf⟩ := hx
      by_cases hd : (dispatch E { p with currentLine := p.currentLine + 1 } l).2 = Res.ok
      · have hstep := list_step_ok E ({ p with currentLine := p.currentLine + 1 }) l w xs hm
          hf hw hd
        rw [parseLoop_content_ok E p l _ hstop hsk hd] at hok ⊢
        rw [hstep] at hok ⊢
        have hww : w = w1 := by
          by_contra hne
          have hmis := parseListLine_mismatch E ({ p with currentLine := p.currentLine + 1 })
            l w xs hw hf hxs (by rw [show ({ p with currentLine := p.currentLine + 1 }
              : Parser).currentSigWs = w1 from hs]; exact hne)
          rw [dispatch_list E ({ p with currentLine := p.currentLine + 1 }) l hm, hmis] at hd
          simp at hd
        exact ih _ hm ⟨xs ++ [trimSpace l], by simp,
          fieldByName_setField_same _ _ _ _ hf⟩ hww hl2 hok
      · rw [parseLoop_content_stop E p l _ hstop hsk hd] at hok
        exact absurd hok hd

/-- C7. A simple list is open after the lines `pre` (the parser is in `modeList` on a
list-of-string field). Its first content line `first` has the leading white space
`w1` and is accepted, as are the lines `mid` of the block after it (blank lines,
comments, indented content lines), so that the list holds at least one item
decoded in this block. Then a further content line `bad` whose leading white space
`w2` is not empty and differs from `w1` makes the decoding fail with the
indentation error ("Line not in block") carrying the 1-based number of `bad`,
and the target is as it was before `bad`: the line is not appended. -/
theorem C7_indentation_mismatch (E : Env) (v : Target) (pre mid post : List Str)
    (first bad w1 w2 : Str) (xs : List Str)
    (hpre : ∀ l ∈ pre, ¬ stopLine l)
    (hok : (decode E v pre).1 = Res.ok)
    (hmode : (Parser.parse E NewParser v pre).1.mode = Mode.modeList)
    (hfield : fieldByName (decode E v pre).2 (Parser.parse E NewParser v pre).1.listField
      = some (Value.strSlice xs))
    (hfirst : ¬ skipLine first) (hw1 : wsRegexFind first = some w1)
    (hmid : ∀ l ∈ mid, ¬ stopLine l ∧ (skipLine l ∨ wsRegexFind l ≠ none))
    (hblock : (decode E v (pre ++ first :: mid)).1 = Res.ok)
    (hbad : ¬ skipLine bad) (hw2 : wsRegexFind bad = some w2) (hne : w2 ≠ w1) :
    decode E v (pre ++ first :: mid ++ bad :: post) =
      (Res.fail (Err.notInBlock (pre.length + mid.length + 2)),
        (decode E v (pre ++ first :: mid)).2) := by
  have hok2 : (Parser.parse E NewParser v pre).2 = Res.ok := hok
  have hblock2 : (Parser.parse E NewParser v (pre ++ first :: mid)).2 = Res.ok := hblock
  have hf : fieldByName (Parser.parse E NewParser v pre).1.rv
      (Parser.parse E NewParser v pre).1.listField = some (Value.strSlice xs) := hfield
  have hstopf : ¬ stopLine first := fun h => hfirst (skipLine_of_stopLine _ h)
  have hstopb : ¬ stopLine bad := fun h => hbad (skipLine_of_stopLine _ h)
  have hall : ∀ l ∈ pre ++ first :: mid, ¬ stopLine l := by
    intro l hl
    rcases List.mem_append.1 hl with h | h
    · exact hpre l h
    · rcases List.mem_cons.1 h with rfl | h
      · exact hstopf
      · exact (hmid l h).1
  rw [parse_eq] at hok2 hblock2 hmode hf
  -- the state after the prefix, then after the first content line and the block
  have hsplit := parseLoop_append E pre (first :: mid) _ hpre hok2
  rw [hsplit] at hblock2
  have hcl0 := parseLoop_currentLine E pre _ hpre hok2
  generalize parseLoop E _ pre = r at hok2 hmode hf hsplit hblock2 hcl0
  have hd1 : (dispatch E { r.1 with currentLine := r.1.currentLine + 1 } first).2 = Res.ok := by
    by_contra hd
    rw [parseLoop_content_stop E r.1 first mid hstopf hfirst hd] at hblock2
    exact hd hblock2
  have hstep := list_step_ok E ({ r.1 with currentLine := r.1.currentLine + 1 }) first w1 xs
    hmode hf hw1 hd1
  obtain ⟨q1, hstep2, hq1m, hq1f, hq1s⟩ : ∃ q1 : Parser,
      dispatch E { r.1 with currentLine := r.1.currentLine + 1 } first = (q1, Res.ok) ∧
      q1.mode = Mode.modeList ∧
      (∃ ys, ys ≠ [] ∧ fieldByName q1.rv q1.listField = some (Value.strSlice ys)) ∧
      q1.currentSigWs = w1 := by
    refine ⟨_, hstep, hmode, ?_, rfl⟩
    exact ⟨xs ++ [trimSpace first], by simp, fieldByName_setField_same _ _ _ _ hf⟩
  have hA : Parser.parse E NewParser v (pre ++ first :: mid) = parseLoop E q1 mid := by
    rw [parse_eq]
    rw [hsplit, parseLoop_content_ok E r.1 first mid hstopf hfirst hd1, hstep2]
  rw [parseLoop_content_ok E r.1 first mid hstopf hfirst hd1, hstep2] at hblock2
  have hinv := block_lines E w1 mid q1 hq1m hq1f hq1s hmid hblock2
  have hAok : (Parser.parse E NewParser v (pre ++ first :: mid)).2 = Res.ok := by
    rw [hA]; exact hblock2
  rw [parse_eq] at hA hAok
  have hcl := parseLoop_currentLine E (pre ++ first :: mid) _ hall hAok
  have hfin := parseLoop_append E (pre ++ first :: mid) (bad :: post) _ hall hAok
  rw [hA] at hcl hfin
  generalize parseLoop E q1 mid = q at hinv hcl hfin hblock2 hA
  obtain ⟨hqm, ⟨ys, hys, hqf⟩, hqs⟩ := hinv
  have hmis := parseListLine_mismatch E ({ q.1 with currentLine := q.1.currentLine + 1 }) bad
    w2 ys hw2 hqf hys (by
      rw [show ({ q.1 with currentLine := q.1.currentLine + 1 } : Parser).currentSigWs = w1
        from hqs]; exact hne)
  have hdb : dispatch E { q.1 with currentLine := q.1.currentLine + 1 } bad =
      ({ q.1 with currentLine := q.1.currentLine + 1 },
        Res.fail (Err.notInBlock (q.1.currentLine + 1))) := by
    rw [dispatch_list E ({ q.1 with currentLine := q.1.currentLine + 1 }) bad hqm, hmis]
  have hlen : q.1.currentLine + 1 = pre.length + mid.length + 2 := by
    rw [hcl]; simp only [List.length_append, List.length_cons]; omega
  have hwhole : pre ++ first :: mid ++ bad :: post = (pre ++ first :: mid) ++ bad :: post := by
    simp
  simp only [decode, parse_eq]
  rw [hwhole, hfin, hA,
    parseLoop_content_stop E q.1 bad post hstopb hbad (by rw [hdb]; simp), hdb, hlen]

/-- Witness of C7 on scenario 5 of the specification. -/
theorem C7_indentation_mismatch_witness :
    decode Env.ascii confFile (["Hobbies:".toList] ++ "  Reading".toList :: [] ++
        "    Chess".toList :: ["Name: x".toList]) =
      (Res.fail (Err.notInBlock (["Hobbies:".toList].length + ([] : List Str).length + 2)),
        (decode Env.ascii confFile (["Hobbies:".toList] ++ "  Reading".toList :: [])).2) :=
  C7_indentation_mismatch Env.ascii confFile ["Hobbies:".toList] [] ["Name: x".toList]
    "  Reading".toList "    Chess".toList "  ".toList "    ".toList [] (by decide) (by decide)
    (by decide) (by decide) (by decide) (by decide) (by decide) (by decide) (by decide)
    (by decide) (by decide)

/-- C6, the code at the failing input. The declaration line alone is decoded as the
claim says: the map holds the block `English` with its name, the attribute and no
item. With one item line the call of `parseExtendedListLine` panics in
`itemsField.Set`, the block read through `MapIndex` not being addressable, and no
item is ever stored. -/
theorem C6_block_items_panic :
    decode Env.ascii confFile ["Languages: English native=true".toList] =
      (Res.ok, setField confFile "Languages".toList (Value.blocks language false
        [("English".toList,
          [("Name".toList, BVal.str "English".toList), ("Items".toList, BVal.strSlice []),
           ("Native".toList, BVal.str "true".toList)])])) ∧
    decode Env.ascii confFile
        ["Languages: English native=true".toList, "  Hello".toList, "  Hi".toList] =
      (Res.panic, setField confFile "Languages".toList (Value.blocks language false
        [("English".toList,
          [("Name".toList, BVal.str "English".toList), ("Items".toList, BVal.strSlice []),
           ("Native".toList, BVal.str "true".toList)])])) := by
  decide

/-- C8, the code at the failing input. Two named lists of the same map with
different indentations: the first content line of the second list is compared with
the signature of the first one, because `f.Len()` is the number of entries of the
map, and the decoding fails with "Line not in block" at line 4. Two different
list-of-string fields with different indentations are decoded. -/
theorem C8_signature_shared_in_map :
    decode Env.ascii confFile
        ["work places: Acme".toList, "  Office1".toList,
         "work places: Beta".toList, "    Office2".toList] =
      (Res.fail (Err.notInBlock 4), setField confFile "WorkPlaces".toList
        (Value.namedList false [("Acme".toList, ["Office1".toList])])) ∧
    decode Env.ascii
        [{ name := "Hobbies".toList, val := Value.strSlice [] },
         { name := "Pets".toList, val := Value.strSlice [] }]
        ["Hobbies:".toList, "  Chess".toList, "Pets:".toList, "    Cat".toList] =
      (Res.ok,
        [{ name := "Hobbies".toList, val := Value.strSlice ["Chess".toList] },
         { name := "Pets".toList, val := Value.strSlice ["Cat".toList] }]) := by
  decide

/-- C11, the code at the failing input. Only the `reflect.String` case of
`parseLine` tests whether the field is already set: a second assignment of a string
field fails with the redeclaration error at line 2 and keeps the first value, but
a second assignment of a signed integer, an unsigned integer or a boolean field
succeeds and overwrites the first value. -/
theorem C11_redeclaration_only_for_strings :
    decode Env.ascii confFile ["Name: Alice".toList, "Name: Bob".toList] =
      (Res.fail (Err.redeclared "Name".toList 2),
        setField confFile "Name".toList (Value.str "Alice".toList)) ∧
    decode Env.ascii confFile ["id number: 1".toList, "id number: 2".toList] =
      (Res.ok, setField confFile "IdNumber".toList (Value.int 64 2)) ∧
    decode Env.ascii [{ name := "Port".toList, val := Value.uint 16 0 }]
        ["Port: 80".toList, "Port: 8080".toList] =
      (Res.ok, [{ name := "Port".toList, val := Value.uint 16 8080 }]) ∧
    decode Env.ascii confFile ["employed: yes".toList, "employed: no".toList] =
      (Res.ok, setField confFile "Employed".toList (Value.bool false)) := by
  decide

/-- C15 as stated fails for its own example: a line that names a settable field of
kind struct is accepted (the `reflect.Struct` case only prints "Extended list"),
the decoding succeeds and the target is unchanged. -/
theorem C15_unsupported_kind_counterexample :
    decode Env.ascii [{ name := "Class".toList, val := Value.struct }]
      ["Class: Yoga weekend=true".toList] =
      (Res.ok, [{ name := "Class".toList, val := Value.struct }]) := by
  decide

/-- C15, amended. A root `key: value` line whose normalized key names a settable
field, after any prefix read without error. If the field is of a kind other than
string, signed or unsigned integer, float, boolean, slice, map and struct, the
decoding fails with the unsupported-type error ("Invalid type", which names the
field and its kind) and the target is as before. If the field is of kind struct,
the line is accepted and the target is as before. -/
theorem C15_unsupported_kind (E : Env) (v : Target) (pre : List Str) (key rest fname : Str)
    (hpre : ∀ l ∈ pre, ¬ stopLine l)
    (hok : (decode E v pre).1 = Res.ok)
    (hskip : ¬ skipLine (key ++ ':' :: rest))
    (hroot : rootDispatch (Parser.parse E NewParser v pre).1 (key ++ ':' :: rest))
    (hkey : ':' ∉ key) (hnorm : normalize E key = fname)
    (hset : canSet E fname = true) :
    (∀ kind, fieldByName (decode E v pre).2 fname = some (Value.other kind) → ∀ post,
      decode E v (pre ++ (key ++ ':' :: rest) :: post) =
        (Res.fail (Err.invalidType fname kind), (decode E v pre).2)) ∧
    (fieldByName (decode E v pre).2 fname = some Value.struct →
      decode E v (pre ++ [key ++ ':' :: rest]) = (Res.ok, (decode E v pre).2)) := by
  have hok2 : (Parser.parse E NewParser v pre).2 = Res.ok := hok
  constructor
  · intro kind hfield post
    have hf : fieldByName (Parser.parse E NewParser v pre).1.rv fname
        = some (Value.other kind) := hfield
    obtain ⟨_, hp⟩ := parse_root_line E v pre _ post hpre hok2 hskip hroot
    have hl : parseLine E { (Parser.parse E NewParser v pre).1 with
        currentLine := pre.length + 1 } (key ++ ':' :: rest) =
        ({ (Parser.parse E NewParser v pre).1 with
            currentLine := pre.length + 1, mode := Mode.modeRoot },
          Res.fail (Err.invalidType fname kind)) := by
      simp [parseLine, splitN2_first ':' key rest hkey, hnorm, hf, hset]
    simp only [decode, hp, hl]
  · intro hfield
    have hf : fieldByName (Parser.parse E NewParser v pre).1.rv fname
        = some Value.struct := hfield
    obtain ⟨_, hp⟩ := parse_root_line E v pre _ [] hpre hok2 hskip hroot
    have hl : parseLine E { (Parser.parse E NewParser v pre).1 with
        currentLine := pre.length + 1 } (key ++ ':' :: rest) =
        ({ (Parser.parse E NewParser v pre).1 with
            currentLine := pre.length + 1, mode := Mode.modeRoot }, Res.ok) := by
      simp [parseLine, splitN2_first ':' key rest hkey, hnorm, hf, hset]
    simp only [decode, hp, hl, parseLoop]

/-- Witness of C15: a field of kind `complex128` after one line. -/
theorem C15_unsupported_kind_witness :
    decode Env.ascii
        [{ name := "Name".toList, val := Value.str [] },
         { name := "Gain".toList, val := Value.other "complex128".toList }]
        (["Name: x".toList] ++ ("gain".toList ++ ':' :: " 1".toList) :: ["Name: y".toList]) =
      (Res.fail (Err.invalidType "Gain".toList "complex128".toList),
        (decode Env.ascii
          [{ name := "Name".toList, val := Value.str [] },
           { name := "Gain".toList, val := Value.other "complex128".toList }]
          ["Name: x".toList]).2) :=
  (C15_unsupported_kind Env.ascii
    [{ name := "Name".toList, val := Value.str [] },
     { name := "Gain".toList, val := Value.other "complex128".toList }]
    ["Name: x".toList] "gain".toList " 1".toList "Gain".toList
    (by decide) (by decide) (by decide) (by decide) (by decide) (by decide) (by decide)).1
    "complex128".toList (by decide) ["Name: y".toList]

/-- C18. In every parser state (in particular in the modes of a simple list, a named
list or an extended list), a line that is neither blank nor a comment and does not
start with white space is read as in Root mode: the method called for the line in
the current mode returns the same parser (target, mode and all) and the same result
as for the same state in `modeRoot`, and the loop of `parse` goes on in the same
way. In particular, when the line is a `key: value` line that names a scalar field
(string, integer, unsigned integer, float or boolean), the parser is in `modeRoot`
afterwards, whatever the result. -/
theorem C18_unindented_line_as_root (E : Env) (p : Parser) (line : Str) (rest : List Str)
    (hskip : ¬ skipLine line) (hws : wsRegexFind line = none) :
    dispatch E p line = dispatch E { p with mode := Mode.modeRoot } line ∧
    parseLoop E p (line :: rest) = parseLoop E { p with mode := Mode.modeRoot } (line :: rest) ∧
    (∀ key val f, splitN2 ':' line = some (key, val) →
      fieldByName p.rv (normalize E key) = some f →
      ((∃ s, f = Value.str s) ∨ (∃ w i, f = Value.int w i) ∨ (∃ w u, f = Value.uint w u) ∨
        (∃ w x, f = Value.float w x) ∨ (∃ b, f = Value.bool b)) →
      (dispatch E p line).1.mode = Mode.modeRoot) := by
  have h1 : ∀ q : Parser, dispatch E q line = parseLine E q line :=
    fun q => dispatch_root E q line (Or.inr hws)
  have h2 : ∀ q : Parser, parseLine E q line = parseLine E { q with mode := Mode.modeRoot } line :=
    fun q => by unfold parseLine; rfl
  have hd : ∀ q : Parser, dispatch E q line = dispatch E { q with mode := Mode.modeRoot } line :=
    fun q => by rw [h1, h1, h2]
  have hstop : ¬ stopLine line := fun h => hskip (skipLine_of_stopLine line h)
  refine ⟨hd p, ?_, ?_⟩
  · have hq := hd { p with currentLine := p.currentLine + 1 }
    by_cases h3 : (dispatch E { p with currentLine := p.currentLine + 1 } line).2 = Res.ok
    · rw [parseLoop_content_ok E p line rest hstop hskip h3,
        parseLoop_content_ok E { p with mode := Mode.modeRoot } line rest hstop hskip
          (by rw [← h3, hq])]
      rw [hq]
    · rw [parseLoop_content_stop E p line rest hstop hskip h3,
        parseLoop_content_stop E { p with mode := Mode.modeRoot } line rest hstop hskip
          (by intro h; apply h3; rw [← h, hq])]
      rw [hq]
  · intro key val f hsplit hf hkind
    rw [h1]
    unfold parseLine
    simp only [hsplit, hf]
    rcases hkind with ⟨s, rfl⟩ | ⟨w, i, rfl⟩ | ⟨w, u, rfl⟩ | ⟨w, x, rfl⟩ | ⟨b, rfl⟩ <;>
      simp only [] <;> (repeat' split) <;> rfl

/-- Witness of C18: in `modeList` after `Hobbies:` and one item, the line `Name: x`. -/
theorem C18_unindented_line_as_root_witness :
    dispatch Env.ascii (Parser.parse Env.ascii NewParser confFile
        ["Hobbies:".toList, "  Chess".toList]).1 "Name: x".toList =
      dispatch Env.ascii
        { (Parser.parse Env.ascii NewParser confFile
            ["Hobbies:".toList, "  Chess".toList]).1 with mode := Mode.modeRoot }
        "Name: x".toList :=
  (C18_unindented_line_as_root Env.ascii (Parser.parse Env.ascii NewParser confFile
    ["Hobbies:".toList, "  Chess".toList]).1 "Name: x".toList [] (by decide) (by decide)).1

/-! ## Lemmas: ASCII runes, `Title` and `TrimSpace` -/

theorem char_ofNat_toNat (n : Nat) (h : n < 128) : (Char.ofNat n).toNat = n := by
  interval_cases n <;> rfl

theorem char_eq_of_toNat (c d : Char) (h : c.toNat = d.toNat) : c = d := by
  have := congrArg Char.ofNat h
  simpa using this

theorem toLowerRune_toNat (E : Env) (c : Char) (h : c.toNat ≤ 127) :
    (toLowerRune E c).toNat = if 65 ≤ c.toNat ∧ c.toNat ≤ 90 then c.toNat + 32 else c.toNat := by
  unfold toLowerRune
  simp only [h, if_true]
  split
  · exact char_ofNat_toNat _ (by omega)
  · rfl

theorem toTitleRune_toNat (E : Env) (c : Char) (h : c.toNat ≤ 127) :
    (toTitleRune E c).toNat = if 97 ≤ c.toNat ∧ c.toNat ≤ 122 then c.toNat - 32 else c.toNat := by
  unfold toTitleRune
  simp only [h, if_true]
  split
  · exact char_ofNat_toNat _ (by omega)
  · rfl

/-- An ASCII rune that `ToLower` leaves alone is given back by `ToLower` after
`ToTitle`. -/
theorem toLower_toTitle_rune (E : Env) (c : Char) (h : c.toNat ≤ 127)
    (hl : ¬ (65 ≤ c.toNat ∧ c.toNat ≤ 90)) :
    toLowerRune E (toTitleRune E c) = c ∧ toLowerRune E c = c := by
  have ht := toTitleRune_toNat E c h
  constructor
  · apply char_eq_of_toNat
    have h2 : (toTitleRune E c).toNat ≤ 127 := by rw [ht]; split <;> omega
    rw [toLowerRune_toNat E _ h2, ht]
    split_ifs <;> omega
  · apply char_eq_of_toNat
    rw [toLowerRune_toNat E c h, if_neg hl]

theorem isSpace_toTitleRune (E : Env) (c : Char) (h : c.toNat ≤ 127) :
    isSpace (toTitleRune E c) = isSpace c := by
  have ht := toTitleRune_toNat E c h
  by_cases hr : 97 ≤ c.toNat ∧ c.toNat ≤ 122
  · rw [if_pos hr] at ht
    have h1 : isSpace (toTitleRune E c) = false := by
      simp only [isSpace, ht]; simp; omega
    have h2 : isSpace c = false := by
      simp only [isSpace]; simp; omega
    rw [h1, h2]
  · rw [if_neg hr] at ht
    rw [char_eq_of_toNat _ _ ht]

theorem isSeparator_of_isSpace (E : Env) (c : Char) (h : c.toNat ≤ 127)
    (hs : isSpace c = true) : isSeparator E c = true := by
  simp only [isSpace, Bool.or_eq_true, decide_eq_true_eq, Bool.and_eq_true] at hs
  simp only [isSeparator, h, if_true]
  simp
  omega

theorem titleFrom_congr (E : Env) (p1 p2 : Char) (y : Str)
    (h : isSeparator E p1 = isSeparator E p2) : titleFrom E p1 y = titleFrom E p2 y := by
  cases y with
  | nil => rfl
  | cons c y => simp [titleFrom, h]

theorem titleFrom_append (E : Env) (a b : Str) : ∀ prev : Char,
    titleFrom E prev (a ++ b) = titleFrom E prev a ++ titleFrom E (a.getLast?.getD prev) b := by
  induction a with
  | nil => intro prev; rfl
  | cons c a ih =>
    intro prev
    have hl : (c :: a).getLast?.getD prev = a.getLast?.getD c := by
      cases a with
      | nil => rfl
      | cons d a => simp [List.getLast?_eq_getLast]
    rw [hl, List.cons_append]
    simp only [titleFrom]
    rw [ih c]
    rfl

theorem mem_titleFrom (E : Env) (y : Str) : ∀ (prev x : Char), x ∈ titleFrom E prev y →
    ∃ c ∈ y, x = toTitleRune E c ∨ x = c := by
  induction y with
  | nil => intro prev x h; simp [titleFrom] at h
  | cons c y ih =>
    intro prev x h
    simp only [titleFrom, List.mem_cons] at h
    rcases h with h | h
    · refine ⟨c, by simp, ?_⟩
      split at h
      · exact Or.inl h
      · exact Or.inr h
    · obtain ⟨d, hd, hx⟩ := ih c x h
      exact ⟨d, List.mem_cons_of_mem _ hd, hx⟩

theorem toLower_titleFrom (E : Env) (y : Str) : ∀ prev : Char,
    (∀ c ∈ y, c.toNat ≤ 127 ∧ ¬ (65 ≤ c.toNat ∧ c.toNat ≤ 90)) →
    toLower E (titleFrom E prev y) = y := by
  induction y with
  | nil => intro prev _; rfl
  | cons c y ih =>
    intro prev h
    obtain ⟨h1, h2⟩ := h c (by simp)
    obtain ⟨e1, e2⟩ := toLower_toTitle_rune E c h1 h2
    have ih2 := ih c (fun d hd => h d (List.mem_cons_of_mem _ hd))
    simp only [toLower] at ih2 ⊢
    simp only [titleFrom, List.map_cons, ih2]
    split <;> simp [e1, e2]

theorem head_titleFrom (E : Env) (prev : Char) (y : Str) (x : Char)
    (h : (titleFrom E prev y).head? = some x) :
    ∃ c, y.head? = some c ∧ (x = toTitleRune E c ∨ x = c) := by
  cases y with
  | nil => simp [titleFrom] at h
  | cons c y =>
    simp only [titleFrom, List.head?_cons, Option.some.injEq] at h
    refine ⟨c, rfl, ?_⟩
    split at h
    · exact Or.inl h.symm
    · exact Or.inr h.symm

theorem getLast_titleFrom (E : Env) (y : Str) : ∀ (prev x : Char),
    (titleFrom E prev y).getLast? = some x →
    ∃ c, y.getLast? = some c ∧ (x = toTitleRune E c ∨ x = c) := by
  induction y with
  | nil => intro prev x h; simp [titleFrom] at h
  | cons c y ih =>
    intro prev x h
    cases y with
    | nil =>
      simp only [titleFrom, List.getLast?_singleton, Option.some.injEq] at h
      refine ⟨c, rfl, ?_⟩
      split at h
      · exact Or.inl h.symm
      · exact Or.inr h.symm
    | cons d y =>
      simp only [titleFrom, List.getLast?_cons_cons] at h ih ⊢
      exact ih c x h

theorem dropWhile_head_not {p : Char → Bool} (l : Str) (c : Char)
    (h : (l.dropWhile p).head? = some c) : p c = false := by
  induction l with
  | nil => simp at h
  | cons a l ih =>
    by_cases ha : p a = true
    · simp only [List.dropWhile_cons, ha, if_true] at h
      exact ih h
    · simp only [List.dropWhile_cons, ha, Bool.false_eq_true, if_false, List.head?_cons,
        Option.some.injEq] at h
      rw [← h]
      simpa using ha

theorem dropWhile_getLast {p : Char → Bool} (l : Str) (c : Char)
    (h : (l.dropWhile p).getLast? = some c) : l.getLast? = some c := by
  induction l with
  | nil => simp at h
  | cons a l ih =>
    by_cases ha : p a = true
    · simp only [List.dropWhile_cons, ha, if_true] at h
      have h2 := ih h
      cases l with
      | nil => simp at h2
      | cons b l => simpa [List.getLast?_cons_cons] using h2
    · simpa [List.dropWhile_cons, ha] using h

/-- The text `TrimSpace` returns does not start with white space. -/
theorem trimSpace_head (y : Str) (c : Char) (h : (trimSpace y).head? = some c) :
    isSpace c = false := by
  unfold trimSpace at h
  rw [List.head?_reverse] at h
  have h2 := dropWhile_getLast _ c h
  rw [List.getLast?_reverse] at h2
  exact dropWhile_head_not y c h2

/-- The text `TrimSpace` returns does not end with white space. -/
theorem trimSpace_getLast (y : Str) (c : Char) (h : (trimSpace y).getLast? = some c) :
    isSpace c = false := by
  unfold trimSpace at h
  rw [List.getLast?_reverse] at h
  exact dropWhile_head_not _ c h

theorem dropWhile_of_head {p : Char → Bool} (x : Str)
    (h : ∀ c, x.head? = some c → p c = false) : x.dropWhile p = x := by
  cases x with
  | nil => rfl
  | cons a x => simp [List.dropWhile_cons, h a rfl]

/-- A text that neither starts nor ends with white space is left alone. -/
theorem trimSpace_of_ends (x : Str) (h1 : ∀ c, x.head? = some c → isSpace c = false)
    (h2 : ∀ c, x.getLast? = some c → isSpace c = false) : trimSpace x = x := by
  unfold trimSpace
  rw [dropWhile_of_head x h1, dropWhile_of_head x.reverse
    (by intro c hc; rw [List.head?_reverse] at hc; exact h2 c hc), List.reverse_reverse]

theorem trimSpace_idem (x : Str) : trimSpace (trimSpace x) = trimSpace x :=
  trimSpace_of_ends _ (trimSpace_head x) (trimSpace_getLast x)

theorem mem_of_mem_trimSpace (x : Str) (c : Char) (h : c ∈ trimSpace x) : c ∈ x := by
  unfold trimSpace at h
  rw [List.mem_reverse] at h
  have h1 := (List.dropWhile_sublist isSpace).subset h
  rw [List.mem_reverse] at h1
  exact (List.dropWhile_sublist isSpace).subset h1

/-- A text is white space, its trimmed text, white space. -/
theorem trimSpace_decomp (y : Str) : ∃ lead trail : Str,
    y = lead ++ trimSpace y ++ trail ∧ (∀ c ∈ lead, isSpace c = true) ∧
    (∀ c ∈ trail, isSpace c = true) := by
  refine ⟨y.takeWhile isSpace, (((y.dropWhile isSpace).reverse).takeWhile isSpace).reverse,
    ?_, ?_, ?_⟩
  · have h1 := List.takeWhile_append_dropWhile isSpace y
    have h2 := List.takeWhile_append_dropWhile isSpace (y.dropWhile isSpace).reverse
    have h3 := congrArg List.reverse h2
    rw [List.reverse_append, List.reverse_reverse] at h3
    unfold trimSpace
    rw [List.append_assoc, h3, h1]
  · intro c hc
    exact List.mem_takeWhile_imp hc
  · intro c hc
    rw [List.mem_reverse] at hc
    exact List.mem_takeWhile_imp hc

/-- On ASCII text `Title` and `TrimSpace` commute. -/
theorem trimSpace_title (E : Env) (y : Str) (hy : ∀ c ∈ y, c.toNat ≤ 127) :
    trimSpace (title E y) = title E (trimSpace y) := by
  obtain ⟨lead, trail, hdec, hlead, htrail⟩ := trimSpace_decomp y
  have hm : ∀ c ∈ trimSpace y, c.toNat ≤ 127 := fun c hc => hy c (mem_of_mem_trimSpace y c hc)
  have hyl : ∀ c ∈ lead, c.toNat ≤ 127 := fun c hc => hy c (by rw [hdec]; simp [hc])
  have hyt : ∀ c ∈ trail, c.toNat ≤ 127 := fun c hc => hy c (by rw [hdec]; simp [hc])
  have hsp : ∀ (part : Str) (prev : Char), (∀ c ∈ part, isSpace c = true) →
      (∀ c ∈ part, c.toNat ≤ 127) → ∀ x ∈ titleFrom E prev part, isSpace x = true := by
    intro part prev h1 h2 x hx
    obtain ⟨c, hc, hx⟩ := mem_titleFrom E part prev x hx
    rcases hx with hx | hx
    · rw [hx, isSpace_toTitleRune E c (h2 c hc)]; exact h1 c hc
    · rw [hx]; exact h1 c hc
  have hsep : isSeparator E (lead.getLast?.getD ' ') = isSeparator E ' ' := by
    have h32 : isSeparator E ' ' = true :=
      isSeparator_of_isSpace E ' ' (by decide) (by decide)
    rw [h32]
    cases hl : lead.getLast? with
    | none => exact h32
    | some c =>
      have hc : c ∈ lead := List.mem_of_getLast?_eq_some hl
      exact isSeparator_of_isSpace E c (hyl c hc) (hlead c hc)
  have htitle : title E y = titleFrom E ' ' lead ++ title E (trimSpace y) ++
      titleFrom E ((trimSpace y).getLast?.getD (lead.getLast?.getD ' ')) trail := by
    conv_lhs => rw [hdec]
    unfold title
    rw [List.append_assoc, titleFrom_append, titleFrom_append,
      titleFrom_congr E _ ' ' (trimSpace y) hsep, List.append_assoc]
  rw [htitle, trimSpace_pad _ _ _ (hsp lead _ hlead hyl) (hsp trail _ htrail hyt)]
  apply trimSpace_of_ends
  · intro x hx
    obtain ⟨c, hc, hxc⟩ := head_titleFrom E ' ' _ x hx
    have hns := trimSpace_head y c hc
    rcases hxc with hxc | hxc
    · rw [hxc, isSpace_toTitleRune E c (hm c (List.mem_of_mem_head? hc))]; exact hns
    · rw [hxc]; exact hns
  · intro x hx
    obtain ⟨c, hc, hxc⟩ := getLast_titleFrom E _ ' ' x hx
    have hns := trimSpace_getLast y c hc
    rcases hxc with hxc | hxc
    · rw [hxc, isSpace_toTitleRune E c (hm c (List.mem_of_getLast?_eq_some hc))]; exact hns
    · rw [hxc]; exact hns

/-! ## Lemmas: normalizing twice -/

theorem toLowerRune_space (E : Env) : toLowerRune E ' ' = ' ' := by
  simp [toLowerRune]

theorem toTitleRune_space (E : Env) : toTitleRune E ' ' = ' ' := by
  simp [toTitleRune]

theorem isSeparator_space (E : Env) : isSeparator E ' ' = true :=
  isSeparator_of_isSpace E ' ' (by decide) (by decide)

/-- Every ASCII rune has coherent case tables: they are those of the embedding. -/
theorem stableRune_of_ascii (E : Env) (c : Char) (h : c.toNat ≤ 127) : stableRune E c := by
  have hx := toLowerRune_toNat E c h
  have hx127 : (toLowerRune E c).toNat ≤ 127 := by rw [hx]; split <;> omega
  have hxl : ¬ (65 ≤ (toLowerRune E c).toNat ∧ (toLowerRune E c).toNat ≤ 90) := by
    rw [hx]; split <;> omega
  obtain ⟨e1, e2⟩ := toLower_toTitle_rune E (toLowerRune E c) hx127 hxl
  have hy := toTitleRune_toNat E (toLowerRune E c) hx127
  have h32 : (' ' : Char).toNat = 32 := rfl
  have hfix : isSpace (toLowerRune E c) = true →
      toTitleRune E (toLowerRune E c) = toLowerRune E c := by
    intro hw
    simp only [isSpace, Bool.or_eq_true, decide_eq_true_eq, Bool.and_eq_true] at hw
    apply char_eq_of_toNat
    rw [hy]
    split_ifs <;> omega
  unfold stableRune
  refine ⟨e2, ?_, ?_, ?_, ?_, ?_, ?_⟩
  · rw [e1]
  · rw [e1]
  · intro h1
    rw [e1] at h1
    exact h1.symm
  · intro hc
    have hc32 : c.toNat ≠ 32 := fun e => hc (char_eq_of_toNat c ' ' (by rw [e, h32]))
    constructor
    · intro e
      have e2 := congrArg Char.toNat e
      rw [hx, h32] at e2
      split_ifs at e2 <;> omega
    · intro e
      have e2 := congrArg Char.toNat e
      rw [hy, hx, h32] at e2
      split_ifs at e2 <;> omega
  · intro hw
    exact ⟨hfix hw, isSeparator_of_isSpace E _ hx127 hw⟩
  · intro hw
    rw [isSpace_toTitleRune E _ hx127] at hw
    exact hfix hw

theorem length_titleFrom (E : Env) (y : Str) : ∀ p : Char, (titleFrom E p y).length = y.length := by
  induction y with
  | nil => intro p; rfl
  | cons c y ih => intro p; simp [titleFrom, ih]

theorem titleFrom_fixed (E : Env) (part : Str) (h : ∀ r ∈ part, toTitleRune E r = r) :
    ∀ p : Char, titleFrom E p part = part := by
  induction part with
  | nil => intro p; rfl
  | cons c y ih =>
    intro p
    simp only [titleFrom, h c (by simp), ite_self,
      ih (fun r hr => h r (List.mem_cons_of_mem _ hr))]

theorem toLower_fixed (E : Env) (part : Str) (h : ∀ r ∈ part, toLowerRune E r = r) :
    toLower E part = part := by
  induction part with
  | nil => rfl
  | cons c y ih =>
    simp only [toLower, List.map_cons, h c (by simp)]
    have := ih (fun r hr => h r (List.mem_cons_of_mem _ hr))
    simp only [toLower] at this
    rw [this]

theorem trimSpace_sublist (x : Str) : (trimSpace x).Sublist x := by
  unfold trimSpace
  have h1 : ((x.dropWhile isSpace).reverse.dropWhile isSpace).Sublist
      (x.dropWhile isSpace).reverse := List.dropWhile_sublist _
  have h2 := h1.reverse
  rw [List.reverse_reverse] at h2
  exact h2.trans (List.dropWhile_sublist _)

/-- The second pass of `Title` over the key once titled and rid of its spaces gives
the same text exactly when no letter was joined to a word. `p` is the rune before
in the first pass, `q` in the second pass. -/
theorem titleFrom_filter_fixed (E : Env) (xs : Str) : ∀ (p q last : Char) (gap : Bool),
    (∀ c ∈ xs, stableRune E c) →
    isSeparator E q = isSeparator E (toLowerRune E last) →
    (gap = true → p = ' ') →
    (gap = false → isSeparator E p = isSeparator E (toLowerRune E last)) →
    (titleFrom E q
        (toLower E ((titleFrom E p (toLower E xs)).filter (fun c => decide (c ≠ ' ')))) =
        (titleFrom E p (toLower E xs)).filter (fun c => decide (c ≠ ' ')) ↔
      joinsFrom E last gap xs = false) := by
  induction xs with
  | nil =>
    intro p q last gap _ _ _ _
    simp [toLower, titleFrom, joinsFrom]
  | cons c xs ih =>
    intro p q last gap hst hq hg1 hg0
    have hxs : ∀ d ∈ xs, stableRune E d := fun d hd => hst d (List.mem_cons_of_mem _ hd)
    by_cases hc : c = ' '
    · subst hc
      have h1 : (titleFrom E p (toLower E (' ' :: xs))).filter (fun c => decide (c ≠ ' ')) =
          (titleFrom E ' ' (toLower E xs)).filter (fun c => decide (c ≠ ' ')) := by
        simp [toLower, titleFrom, toLowerRune_space, toTitleRune_space]
      have h2 : joinsFrom E last gap (' ' :: xs) = joinsFrom E last true xs := by
        simp [joinsFrom]
      rw [h1, h2]
      exact ih ' ' q last true hxs hq (fun _ => rfl) (fun h => by simp at h)
    · have hc2 := hst c (by simp)
      unfold stableRune at hc2
      obtain ⟨ha, hb, hcc, hf, he, _, _⟩ := hc2
      obtain ⟨hx32, hy32⟩ := he hc
      have hJ : joinsFrom E last gap (c :: xs) =
          ((gap && !isSeparator E (toLowerRune E last) &&
            decide (toTitleRune E (toLowerRune E c) ≠ toLowerRune E c)) ||
          joinsFrom E c false xs) := by
        simp only [joinsFrom, hc, if_false]
      rw [hJ]
      cases hp : isSeparator E p with
      | false =>
        have hgap : gap = false := by
          cases gap with
          | false => rfl
          | true =>
            rw [hg1 rfl, isSeparator_space] at hp
            exact absurd hp (by simp)
        subst hgap
        have hlast : isSeparator E (toLowerRune E last) = false := by
          rw [← hg0 rfl]; exact hp
        have hq2 : isSeparator E q = false := by rw [hq, hlast]
        have h1 : (titleFrom E p (toLower E (c :: xs))).filter (fun c => decide (c ≠ ' ')) =
            toLowerRune E c ::
              (titleFrom E (toLowerRune E c) (toLower E xs)).filter
                (fun c => decide (c ≠ ' ')) := by
          simp only [toLower, List.map_cons, titleFrom, hp, Bool.false_eq_true, if_false]
          rw [List.filter_cons_of_pos]
          simpa using hx32
        have h2 : ∀ F : Str, titleFrom E q (toLower E (toLowerRune E c :: F)) =
            toLowerRune E c :: titleFrom E (toLowerRune E c) (toLower E F) := by
          intro F
          simp only [toLower, List.map_cons, titleFrom, hq2, Bool.false_eq_true, if_false, ha]
        rw [h1, h2]
        simp only [List.cons.injEq, true_and, Bool.false_and, Bool.false_or]
        exact ih _ _ c false hxs rfl (fun h => by simp at h) (fun _ => rfl)
      | true =>
        have h1 : (titleFrom E p (toLower E (c :: xs))).filter (fun c => decide (c ≠ ' ')) =
            toTitleRune E (toLowerRune E c) ::
              (titleFrom E (toLowerRune E c) (toLower E xs)).filter
                (fun c => decide (c ≠ ' ')) := by
          simp only [toLower, List.map_cons, titleFrom, hp, if_true]
          rw [List.filter_cons_of_pos]
          simpa using hy32
        have h2 : ∀ F : Str,
            titleFrom E q (toLower E (toTitleRune E (toLowerRune E c) :: F)) =
            (if isSeparator E q = true
              then toTitleRune E (toLowerRune E (toTitleRune E (toLowerRune E c)))
              else toLowerRune E (toTitleRune E (toLowerRune E c))) ::
              titleFrom E (toLowerRune E (toTitleRune E (toLowerRune E c))) (toLower E F) := by
          intro F
          simp only [toLower, List.map_cons, titleFrom]
        rw [h1, h2]
        have hih := ih (toLowerRune E c) (toLowerRune E (toTitleRune E (toLowerRune E c))) c
          false hxs hcc (fun h => by simp at h) (fun _ => rfl)
        cases hsq : isSeparator E q with
        | true =>
          have hlast : isSeparator E (toLowerRune E last) = true := by rw [← hq]; exact hsq
          simp only [if_true, hb, List.cons.injEq, true_and, hlast, Bool.not_true,
            Bool.and_false, Bool.false_and, Bool.false_or]
          exact hih
        | false =>
          have hlast : isSeparator E (toLowerRune E last) = false := by rw [← hq]; exact hsq
          have hgap : gap = true := by
            cases gap with
            | true => rfl
            | false =>
              have := hg0 rfl
              rw [hp, hlast] at this
              exact absurd this (by simp)
          subst hgap
          simp only [Bool.false_eq_true, if_false, List.cons.injEq, hlast, Bool.not_false,
            Bool.true_and, Bool.or_eq_false_iff, decide_eq_false_iff_not, not_not]
          rw [hih]
          constructor
          · rintro ⟨e1, e2⟩
            exact ⟨hf e1, e2⟩
          · rintro ⟨e1, e2⟩
            refine ⟨?_, e2⟩
            rw [e1]
            exact ha

/-- C14 as stated fails: the key `a b` normalizes to `AB` (the space that made `b` the
start of a word is removed), and `AB` normalizes to `Ab`. -/
theorem C14_normalize_idempotent_counterexample :
    normalize Env.ascii "a b".toList = "AB".toList ∧
    normalize Env.ascii (normalize Env.ascii "a b".toList) = "Ab".toList ∧
    normalize Env.ascii (normalize Env.ascii "a b".toList) ≠ normalize Env.ascii "a b".toList ∧
    joinsWords Env.ascii "a b".toList = true := by
  decide

/-- C14, amended. For every raw key text `k`, normalizing the normalized form of `k`
gives the normalized form of `k` again exactly when removing the spaces of `k` joins
no letter to a word: no rune that `Title` changes (once lower-cased) stands, after
one or more spaces, behind a rune whose lower case is not a separator. The runes of
`k` above U+007F are asked to have coherent Unicode case tables (`stableRune`); an
ASCII key needs nothing. -/
theorem C14_normalize_idempotent (E : Env) (k : Str)
    (hE : ∀ c ∈ k, 127 < c.toNat → stableRune E c) :
    normalize E (normalize E k) = normalize E k ↔ joinsWords E k = false := by
  have hst : ∀ c ∈ k, stableRune E c := by
    intro c hc
    by_cases h : c.toNat ≤ 127
    · exact stableRune_of_ascii E c h
    · exact hE c hc (by omega)
  have hA := titleFrom_filter_fixed E k ' ' ' ' ' ' false hst
    (by rw [toLowerRune_space]) (fun h => by simp at h) (fun _ => by rw [toLowerRune_space])
  have hN : normalize E k =
      trimSpace ((titleFrom E ' ' (toLower E k)).filter (fun c => decide (c ≠ ' '))) := rfl
  generalize hR : (titleFrom E ' ' (toLower E k)).filter (fun c => decide (c ≠ ' ')) = R
    at hA hN
  -- the runes of the titled key: no U+0020, and a white space has one case only
  have hRmem : ∀ r ∈ R, r ≠ ' ' ∧ (isSpace r = true →
      toLowerRune E r = r ∧ toTitleRune E r = r ∧ isSeparator E r = true) := by
    intro r hr
    rw [← hR, List.mem_filter] at hr
    obtain ⟨hr1, hr2⟩ := hr
    refine ⟨by simpa using hr2, ?_⟩
    obtain ⟨x, hx, hrx⟩ := mem_titleFrom E _ ' ' r hr1
    simp only [toLower, List.mem_map] at hx
    obtain ⟨c, hc, rfl⟩ := hx
    have hc2 := hst c hc
    unfold stableRune at hc2
    obtain ⟨ha, _, _, _, _, hg1, hg2⟩ := hc2
    intro hw
    have hrx2 : r = toLowerRune E c := by
      rcases hrx with e | e
      · rw [e] at hw ⊢
        exact hg2 hw
      · exact e
    rw [hrx2] at hw ⊢
    exact ⟨ha, (hg1 hw).1, (hg1 hw).2⟩
  rw [hN]
  unfold joinsWords
  rw [← hA]
  -- normalizing the normalized form: `Title` after `ToLower`
  have hNsp : List.filter (fun c => decide (c ≠ ' ')) (trimSpace R) = trimSpace R := by
    rw [List.filter_eq_self]
    intro c hc
    simpa using (hRmem c (mem_of_mem_trimSpace R c hc)).1
  have hC : normalize E (trimSpace R) = trimSpace R ↔
      titleFrom E ' ' (toLower E (trimSpace R)) = trimSpace R := by
    constructor
    · intro h
      have hs : (normalize E (trimSpace R)).Sublist (titleFrom E ' ' (toLower E (trimSpace R))) :=
        (trimSpace_sublist _).trans (List.filter_sublist _)
      rw [h] at hs
      have hlen : (trimSpace R).length = (titleFrom E ' ' (toLower E (trimSpace R))).length := by
        rw [length_titleFrom]
        simp [toLower]
      exact (hs.eq_of_length hlen).symm
    · intro h
      show trimSpace ((titleFrom E ' ' (toLower E (trimSpace R))).filter
        (fun c => decide (c ≠ ' '))) = trimSpace R
      rw [h, hNsp, trimSpace_idem]
  rw [hC]
  -- the white space around the trimmed text is left alone by both passes
  obtain ⟨lead, trail, hdec, hlead, htrail⟩ := trimSpace_decomp R
  have hfixL : ∀ part : Str, (∀ c ∈ part, c ∈ R) → (∀ c ∈ part, isSpace c = true) →
      toLower E part = part ∧ (∀ p, titleFrom E p part = part) ∧
      ∀ c ∈ part, isSeparator E c = true := by
    intro part hin hw
    exact ⟨toLower_fixed E part (fun r hr => ((hRmem r (hin r hr)).2 (hw r hr)).1),
      titleFrom_fixed E part (fun r hr => ((hRmem r (hin r hr)).2 (hw r hr)).2.1),
      fun r hr => ((hRmem r (hin r hr)).2 (hw r hr)).2.2⟩
  obtain ⟨hl1, hl2, hl3⟩ := hfixL lead
    (fun c hc => by rw [hdec]; simp [hc]) hlead
  obtain ⟨ht1, ht2, _⟩ := hfixL trail
    (fun c hc => by rw [hdec]; simp [hc]) htrail
  have hsep : isSeparator E (lead.getLast?.getD ' ') = isSeparator E ' ' := by
    rw [isSeparator_space]
    cases hl : lead.getLast? with
    | none => exact isSeparator_space E
    | some c => exact hl3 c (List.mem_of_getLast?_eq_some hl)
  have hsplit : titleFrom E ' ' (toLower E R) =
      lead ++ titleFrom E ' ' (toLower E (trimSpace R)) ++ trail := by
    conv_lhs => rw [hdec]
    have hm : toLower E (lead ++ trimSpace R ++ trail) =
        lead ++ toLower E (trimSpace R) ++ trail := by
      simp only [toLower, List.map_append] at hl1 ht1 ⊢
      rw [hl1, ht1]
    rw [hm, List.append_assoc, titleFrom_append, titleFrom_append, hl2, ht2,
      titleFrom_congr E _ ' ' _ hsep, List.append_assoc]
  rw [hsplit]
  constructor
  · intro h
    rw [h]
    exact hdec.symm
  · intro h
    have h2 : lead ++ titleFrom E ' ' (toLower E (trimSpace R)) ++ trail =
        lead ++ trimSpace R ++ trail := h.trans hdec
    rw [List.append_assoc, List.append_assoc] at h2
    exact List.append_cancel_right (List.append_cancel_left h2)

/-- Witness of C14: the keys ` employed`, `name ` and `a 1` have spaces, and a
non-ASCII rune stands in `é 1`; none joins a letter to a word, and each has an
idempotent normalization. -/
theorem C14_normalize_idempotent_witness :
    (normalize Env.ascii (normalize Env.ascii " employed".toList) =
      normalize Env.ascii " employed".toList) ∧
    (normalize Env.ascii (normalize Env.ascii "name ".toList) =
      normalize Env.ascii "name ".toList) ∧
    (normalize Env.ascii (normalize Env.ascii "a 1".toList) =
      normalize Env.ascii "a 1".toList) ∧
    (normalize Env.ascii (normalize Env.ascii "é 1".toList) =
      normalize Env.ascii "é 1".toList) :=
  ⟨(C14_normalize_idempotent Env.ascii " employed".toList (by decide)).2 (by decide),
   (C14_normalize_idempotent Env.ascii "name ".toList (by decide)).2 (by decide),
   (C14_normalize_idempotent Env.ascii "a 1".toList (by decide)).2 (by decide),
   (C14_normalize_idempotent Env.ascii "é 1".toList (by decide)).2 (by decide)⟩

/-! ## Lemmas: what `ParseUint` and `ParseInt` return on a well-formed literal -/

theorem le_digitsValueFrom (ds : Str) : ∀ n : Nat, n ≤ digitsValueFrom n ds := by
  induction ds with
  | nil => intro n; exact Nat.le_refl _
  | cons c ds ih =>
    intro n
    have h := ih (n * 10 + (c.toNat - 48))
    simp only [digitsValueFrom, List.foldl_cons] at h ⊢
    omega

theorem parseUintFrom_digits (ds : Str) : ∀ n : Nat, n < 2 ^ 64 →
    (∀ c ∈ ds, 48 ≤ c.toNat ∧ c.toNat ≤ 57) →
    parseUintFrom n ds =
      if digitsValueFrom n ds < 2 ^ 64 then some (digitsValueFrom n ds) else none := by
  induction ds with
  | nil =>
    intro n hn _
    simp only [parseUintFrom, digitsValueFrom, List.foldl_nil, if_pos hn]
  | cons c ds ih =>
    intro n hn hd
    have hc := hd c (by simp)
    have hrest : ∀ x ∈ ds, 48 ≤ x.toNat ∧ x.toNat ≤ 57 :=
      fun x hx => hd x (List.mem_cons_of_mem _ hx)
    have hle := le_digitsValueFrom ds (n * 10 + (c.toNat - 48))
    have hval : digitsValueFrom n (c :: ds) = digitsValueFrom (n * 10 + (c.toNat - 48)) ds := rfl
    rw [hval]
    unfold parseUintFrom
    simp only [hc, and_self, if_true]
    by_cases hcut : n ≥ (2 ^ 64 - 1) / 10 + 1
    · have hbig : ¬ digitsValueFrom (n * 10 + (c.toNat - 48)) ds < 2 ^ 64 := by
        norm_num at hcut ⊢; omega
      rw [if_pos hcut, if_neg hbig]
    · rw [if_neg hcut]
      have e1 : (n * 10) % 2 ^ 64 = n * 10 := Nat.mod_eq_of_lt (by norm_num at hcut ⊢; omega)
      simp only [e1]
      by_cases hov : n * 10 + (c.toNat - 48) < 2 ^ 64
      · have e2 : (n * 10 + (c.toNat - 48)) % 2 ^ 64 = n * 10 + (c.toNat - 48) :=
          Nat.mod_eq_of_lt hov
        have h3 : ¬ (n * 10 + (c.toNat - 48) < n * 10 ∨
            n * 10 + (c.toNat - 48) > 2 ^ 64 - 1) := by
          norm_num at hov ⊢; omega
        simp only [e2, if_neg h3]
        exact ih _ hov hrest
      · have hbig : ¬ digitsValueFrom (n * 10 + (c.toNat - 48)) ds < 2 ^ 64 := by omega
        have h3 : (n * 10 + (c.toNat - 48)) % 2 ^ 64 < n * 10 ∨
            (n * 10 + (c.toNat - 48)) % 2 ^ 64 > 2 ^ 64 - 1 := by
          left
          norm_num at hov hcut ⊢
          omega
        rw [if_pos h3, if_neg hbig]

theorem parseUint_digits (ds : Str) (h : isDigits ds) :
    parseUint ds = if digitsValue ds < 2 ^ 64 then some (digitsValue ds) else none := by
  obtain ⟨hne, hd⟩ := h
  unfold parseUint digitsValue
  cases ds with
  | nil => exact absurd rfl hne
  | cons c cs => exact parseUintFrom_digits (c :: cs) 0 (by norm_num) hd

theorem parseInt_of_parseUint (c : Char) (rest : Str) :
    parseInt (c :: rest) =
      match parseUint (if c = '+' ∨ c = '-' then rest else c :: rest) with
      | none => none
      | some un =>
        if c = '-' then (if un > 2 ^ 63 then none else some (- (un : Int)))
        else (if un ≥ 2 ^ 63 then none else some (un : Int)) := by
  simp only [parseInt]
  generalize parseUint (if c = '+' ∨ c = '-' then rest else c :: rest) = r
  cases r with
  | none => rfl
  | some un => by_cases hc : c = '-' <;> simp [hc]

theorem parseInt_sign (c : Char) (ds : Str) (V : Nat) (hc : c = '+' ∨ c = '-')
    (hu : parseUint ds = if V < 2 ^ 64 then some V else none) :
    parseInt (c :: ds) =
      if c = '-' then (if V ≤ 2 ^ 63 then some (- (V : Int)) else none)
      else (if V < 2 ^ 63 then some (V : Int) else none) := by
  rw [parseInt_of_parseUint, if_pos hc, hu]
  by_cases h64 : V < 2 ^ 64
  · rw [if_pos h64]
    show (if c = '-' then (if V > 2 ^ 63 then none else some (- (V : Int)))
        else (if V ≥ 2 ^ 63 then none else some (V : Int))) = _
    split_ifs <;> first | rfl | omega
  · rw [if_neg h64]
    show (none : Option Int) = _
    split_ifs <;> first | rfl | omega

theorem parseInt_nosign (c : Char) (cs : Str) (V : Nat) (hp : c ≠ '+') (hm : c ≠ '-')
    (hu : parseUint (c :: cs) = if V < 2 ^ 64 then some V else none) :
    parseInt (c :: cs) = if V < 2 ^ 63 then some (V : Int) else none := by
  rw [parseInt_of_parseUint, if_neg (by simp [hp, hm]), hu]
  by_cases h64 : V < 2 ^ 64
  · rw [if_pos h64]
    show (if c = '-' then (if V > 2 ^ 63 then none else some (- (V : Int)))
        else (if V ≥ 2 ^ 63 then none else some (V : Int))) = _
    rw [if_neg hm]
    split_ifs <;> first | rfl | omega
  · rw [if_neg h64]
    show (none : Option Int) = _
    split_ifs <;> first | rfl | omega

/-- The result of `ParseInt` on an optional sign followed by decimal digits: the
number, when it fits 64 bits. -/
theorem parseInt_literal (sign ds : Str) (hs : sign = [] ∨ sign = ['+'] ∨ sign = ['-'])
    (h : isDigits ds) :
    parseInt (sign ++ ds) =
      if sign = ['-'] then
        (if digitsValue ds ≤ 2 ^ 63 then some (- (digitsValue ds : Int)) else none)
      else (if digitsValue ds < 2 ^ 63 then some (digitsValue ds : Int) else none) := by
  have hu := parseUint_digits ds h
  obtain ⟨hne, hd⟩ := h
  rcases hs with rfl | rfl | rfl
  · cases ds with
    | nil => exact absurd rfl hne
    | cons c cs =>
      have hc := hd c (by simp)
      have hp : c ≠ '+' := by rintro rfl; revert hc; decide
      have hm : c ≠ '-' := by rintro rfl; revert hc; decide
      rw [List.nil_append, parseInt_nosign c cs _ hp hm hu]
      simp
  · rw [List.singleton_append, parseInt_sign '+' ds _ (Or.inl rfl) hu]
    simp
  · rw [List.singleton_append, parseInt_sign '-' ds _ (Or.inr rfl) hu]
    simp

theorem wrapInt_range (bits : Nat) (n : Int) (hb : 1 ≤ bits) :
    -2 ^ (bits - 1) ≤ wrapInt bits n ∧ wrapInt bits n < 2 ^ (bits - 1) := by
  unfold wrapInt
  have hp : (2 : Int) ^ bits = 2 * 2 ^ (bits - 1) := by
    obtain ⟨k, rfl⟩ : ∃ k, bits = k + 1 := ⟨bits - 1, by omega⟩
    simp [pow_succ, mul_comm]
  have hpos : (0 : Int) < 2 ^ bits := by positivity
  have h1 := Int.emod_nonneg (n + 2 ^ (bits - 1)) (ne_of_gt hpos)
  have h2 := Int.emod_lt_of_pos (n + 2 ^ (bits - 1)) hpos
  constructor <;> omega

theorem parseInt_literalValue (sign ds : Str)
    (hs : sign = [] ∨ sign = ['+'] ∨ sign = ['-']) (h : isDigits ds) :
    parseInt (sign ++ ds) =
      if -2 ^ 63 ≤ literalValue sign ds ∧ literalValue sign ds < 2 ^ 63 then
        some (literalValue sign ds) else none := by
  rw [parseInt_literal sign ds hs h]
  unfold literalValue
  by_cases hm : sign = ['-']
  · simp only [hm, if_true]
    split_ifs <;> first | rfl | omega
  · simp only [hm, if_false]
    split_ifs <;> first | rfl | omega

/-- C12 as stated fails beyond 64 bits: `strconv.ParseInt` and `strconv.ParseUint`
themselves return an error for a literal that does not fit 64 bits, and a sign is a
syntax error for `ParseUint`, so the decoder answers "Expected integer" or "Expected
unsigned integer", not the overflow error. It fails also for a field that cannot be
set: on the struct field `_x int8` the line `_x: 128` gives "Cannot set field". -/
theorem C12_integer_overflow_counterexample :
    decode Env.ascii [{ name := "Age".toList, val := Value.int 8 0 }]
        ["Age: 9223372036854775808".toList] =
      (Res.fail (Err.expectedInteger 1), [{ name := "Age".toList, val := Value.int 8 0 }]) ∧
    decode Env.ascii [{ name := "Port".toList, val := Value.uint 16 0 }]
        ["Port: 18446744073709551616".toList] =
      (Res.fail (Err.expectedUnsigned 1),
        [{ name := "Port".toList, val := Value.uint 16 0 }]) ∧
    decode Env.ascii [{ name := "Port".toList, val := Value.uint 16 0 }]
        ["Port: -1".toList] =
      (Res.fail (Err.expectedUnsigned 1),
        [{ name := "Port".toList, val := Value.uint 16 0 }]) ∧
    decode Env.ascii [{ name := "_x".toList, val := Value.int 8 0 }] ["_x: 128".toList] =
      (Res.fail (Err.cannotSet "_x".toList 1),
        [{ name := "_x".toList, val := Value.int 8 0 }]) := by
  decide

/-- C12, amended. A root line whose normalized key names an integer field of width
`w` (8, 16, 32 or 64 bits) and whose trimmed value is a well-formed base-10 literal,
after any prefix read without error. When the field can be set (it is exported): for
a signed field and a literal (optional sign, decimal digits) of value `n`, if `n`
fits 64 bits but not `w` bits, the decoding fails with "Integer is too big" at that
line; if `n` does not fit 64 bits, it fails with "Expected integer". For an unsigned
field and a literal without sign of value `m`: if `m` fits 64 bits but not `w` bits,
the decoding fails with "Unsigned integer is too big"; if `m` does not fit 64 bits,
with "Expected unsigned integer". When the field cannot be set, the decoding fails
with "Cannot set field" at that line. In all cases the target, hence the field, is
as before. -/
theorem C12_integer_overflow (E : Env) (v : Target) (pre post : List Str)
    (key val fname sign ds : Str) (w : Nat)
    (hpre : ∀ l ∈ pre, ¬ stopLine l)
    (hok : (decode E v pre).1 = Res.ok)
    (hskip : ¬ skipLine (key ++ ':' :: val))
    (hroot : rootDispatch (Parser.parse E NewParser v pre).1 (key ++ ':' :: val))
    (hkey : ':' ∉ key) (hnorm : normalize E key = fname)
    (hval : trimSpace val = sign ++ ds)
    (hsign : sign = [] ∨ sign = ['+'] ∨ sign = ['-']) (hds : isDigits ds)
    (hw : w = 8 ∨ w = 16 ∨ w = 32 ∨ w = 64) :
    (canSet E fname = true →
      (∀ old, fieldByName (decode E v pre).2 fname = some (Value.int w old) →
        ((-2 ^ 63 ≤ literalValue sign ds ∧ literalValue sign ds < 2 ^ 63) →
          ¬ (-2 ^ (w - 1) ≤ literalValue sign ds ∧ literalValue sign ds < 2 ^ (w - 1)) →
          decode E v (pre ++ (key ++ ':' :: val) :: post) =
            (Res.fail (Err.integerTooBig (pre.length + 1)), (decode E v pre).2)) ∧
        (¬ (-2 ^ 63 ≤ literalValue sign ds ∧ literalValue sign ds < 2 ^ 63) →
          decode E v (pre ++ (key ++ ':' :: val) :: post) =
            (Res.fail (Err.expectedInteger (pre.length + 1)), (decode E v pre).2))) ∧
      (∀ old, fieldByName (decode E v pre).2 fname = some (Value.uint w old) → sign = [] →
        (digitsValue ds < 2 ^ 64 → 2 ^ w ≤ digitsValue ds →
          decode E v (pre ++ (key ++ ':' :: val) :: post) =
            (Res.fail (Err.unsignedTooBig (pre.length + 1)), (decode E v pre).2)) ∧
        (2 ^ 64 ≤ digitsValue ds →
          decode E v (pre ++ (key ++ ':' :: val) :: post) =
            (Res.fail (Err.expectedUnsigned (pre.length + 1)), (decode E v pre).2)))) ∧
    (canSet E fname = false → ∀ f, fieldByName (decode E v pre).2 fname = some f →
      decode E v (pre ++ (key ++ ':' :: val) :: post) =
        (Res.fail (Err.cannotSet fname (pre.length + 1)), (decode E v pre).2)) := by
  refine ⟨fun hset => ?_, fun hset f hfield =>
    root_line_unsettable E v pre post key val fname f hpre hok hskip hroot hkey hnorm hset
      hfield⟩
  have hok2 : (Parser.parse E NewParser v pre).2 = Res.ok := hok
  obtain ⟨_, hp⟩ := parse_root_line E v pre _ post hpre hok2 hskip hroot
  have hw1 : 1 ≤ w := by omega
  have hpi := parseInt_literalValue sign ds hsign hds
  have hpu := parseUint_digits ds hds
  -- it is enough to know what parseLine returns, when it is an error without a write
  have hfin : ∀ e : Err, parseLine E { (Parser.parse E NewParser v pre).1 with
      currentLine := pre.length + 1 } (key ++ ':' :: val) =
      ({ (Parser.parse E NewParser v pre).1 with
          currentLine := pre.length + 1, mode := Mode.modeRoot }, Res.fail e) →
      decode E v (pre ++ (key ++ ':' :: val) :: post) = (Res.fail e, (decode E v pre).2) := by
    intro e hl
    simp only [decode, hp, hl]
  constructor
  · intro old hfield
    have hf : fieldByName (Parser.parse E NewParser v pre).1.rv fname
        = some (Value.int w old) := hfield
    constructor
    · intro h64 hwr
      apply hfin
      rw [if_pos h64] at hpi
      have hov : overflowInt w (literalValue sign ds) = true := by
        unfold overflowInt
        simp only [ne_eq, decide_not, Bool.not_eq_true', decide_eq_false_iff_not]
        intro heq
        have hr := wrapInt_range w (literalValue sign ds) hw1
        rw [← heq] at hr
        exact hwr hr
      simp [parseLine, splitN2_first ':' key val hkey, hnorm, hf, hset, hval, hpi, hov]
    · intro h64
      apply hfin
      rw [if_neg h64] at hpi
      simp [parseLine, splitN2_first ':' key val hkey, hnorm, hf, hset, hval, hpi]
  · intro old hfield hs
    have hf : fieldByName (Parser.parse E NewParser v pre).1.rv fname
        = some (Value.uint w old) := hfield
    have hval2 : trimSpace val = ds := by rw [hval, hs, List.nil_append]
    constructor
    · intro h64 hwr
      apply hfin
      rw [if_pos h64] at hpu
      have hov : overflowUint w (digitsValue ds) = true := by
        unfold overflowUint
        simp only [ne_eq, decide_not, Bool.not_eq_true', decide_eq_false_iff_not]
        intro heq
        have hlt : digitsValue ds % 2 ^ w < 2 ^ w := Nat.mod_lt _ (by positivity)
        omega
      simp [parseLine, splitN2_first ':' key val hkey, hnorm, hf, hset, hval2, hpu, hov]
    · intro h64
      apply hfin
      rw [if_neg (by omega)] at hpu
      simp [parseLine, splitN2_first ':' key val hkey, hnorm, hf, hset, hval2, hpu]

/-- Witness of C12: `Age: +128` for an int8 field. -/
theorem C12_integer_overflow_witness :
    decode Env.ascii [{ name := "Age".toList, val := Value.int 8 0 }]
        ([] ++ ("Age".toList ++ ':' :: " +128".toList) :: ["Age: 1".toList]) =
      (Res.fail (Err.integerTooBig (([] : List Str).length + 1)),
        (decode Env.ascii [{ name := "Age".toList, val := Value.int 8 0 }] []).2) :=
  (((C12_integer_overflow Env.ascii [{ name := "Age".toList, val := Value.int 8 0 }] []
    ["Age: 1".toList] "Age".toList " +128".toList "Age".toList "+".toList "128".toList 8
    (by decide) (by decide) (by decide) (by decide) (by decide) (by decide)
    (by decide) (by decide) (by decide) (by decide)).1 (by decide)).1 0 (by decide)).1
    (by decide) (by decide)

/-! ## Lemmas: the line counter only shows in the messages -/

theorem eraseLine_eq_ok (r : Res) : r.eraseLine = Res.ok ↔ r = Res.ok := by
  cases r <;> simp [Res.eraseLine]

theorem applySettings_shift (E : Env) (j k : Nat) (ps : List Str) : ∀ b : Block,
    (applySettings E j ps b).mapError Err.eraseLine =
      (applySettings E k ps b).mapError Err.eraseLine := by
  induction ps with
  | nil => intro b; rfl
  | cons piece ps ih =>
    intro b
    unfold applySettings
    split
    · simp only []
      split
      · split
        · split
          · exact ih _
          · rfl
        · rfl
      · rfl
    · exact ih _

theorem parseExtendListDeclaration_shift (E : Env) (p : Parser) (l : Str) (k : Nat) :
    (parseExtendListDeclaration E { p with currentLine := k } l).1 =
      { (parseExtendListDeclaration E p l).1 with currentLine := k } ∧
    (parseExtendListDeclaration E { p with currentLine := k } l).2.eraseLine =
      (parseExtendListDeclaration E p l).2.eraseLine := by
  have hs := applySettings_shift E k p.currentLine
  unfold parseExtendListDeclaration
  simp only []
  split
  · split
    · split
      · exact ⟨rfl, rfl⟩
      · rename_i mapElem _
        have h := hs (split ' ' l).tail mapElem
        generalize applySettings E k (split ' ' l).tail mapElem = r1 at h ⊢
        generalize applySettings E p.currentLine (split ' ' l).tail mapElem = r2 at h ⊢
        cases r1 <;> cases r2 <;> simp [Except.mapError] at h
        · simp [Res.eraseLine, h]
        · subst h
          split_ifs <;> exact ⟨rfl, rfl⟩
    · exact ⟨rfl, rfl⟩
  · exact ⟨rfl, rfl⟩

theorem parseExtendListDeclaration_shift_fields (E : Env) (m : Mode) (sig : Str) (rv : Target)
    (j k : Nat) (lf ln l : Str) :
    (parseExtendListDeclaration E (Parser.mk m sig rv k lf ln) l).1 =
      { (parseExtendListDeclaration E (Parser.mk m sig rv j lf ln) l).1 with
        currentLine := k } ∧
    (parseExtendListDeclaration E (Parser.mk m sig rv k lf ln) l).2.eraseLine =
      (parseExtendListDeclaration E (Parser.mk m sig rv j lf ln) l).2.eraseLine :=
  parseExtendListDeclaration_shift E (Parser.mk m sig rv j lf ln) l k

theorem parseLine_shift (E : Env) (p : Parser) (l : Str) (k : Nat) :
    (parseLine E { p with currentLine := k } l).1 =
      { (parseLine E p l).1 with currentLine := k } ∧
    (parseLine E { p with currentLine := k } l).2.eraseLine =
      (parseLine E p l).2.eraseLine := by
  unfold parseLine
  simp only []
  repeat' (first | split | simp only [])
  all_goals first
    | exact ⟨rfl, rfl⟩
    | exact ⟨trivial, rfl⟩
    | exact ⟨trivial, trivial⟩
    | exact parseExtendListDeclaration_shift_fields E _ _ _ _ _ _ _ _

theorem parseListLine_shift (E : Env) (p : Parser) (l : Str) (k : Nat) :
    (parseListLine E { p with currentLine := k } l).1 =
      { (parseListLine E p l).1 with currentLine := k } ∧
    (parseListLine E { p with currentLine := k } l).2.eraseLine =
      (parseListLine E p l).2.eraseLine := by
  unfold parseListLine
  simp only []
  repeat' (first | split | simp only [])
  all_goals first
    | exact ⟨rfl, rfl⟩
    | exact ⟨trivial, rfl⟩
    | exact ⟨trivial, trivial⟩
    | exact parseLine_shift E p l k

theorem parseExtendedListLine_shift (E : Env) (p : Parser) (l : Str) (k : Nat) :
    (parseExtendedListLine E { p with currentLine := k } l).1 =
      { (parseExtendedListLine E p l).1 with currentLine := k } ∧
    (parseExtendedListLine E { p with currentLine := k } l).2.eraseLine =
      (parseExtendedListLine E p l).2.eraseLine := by
  unfold parseExtendedListLine
  simp only []
  repeat' (first | split | simp only [])
  all_goals first
    | exact ⟨rfl, rfl⟩
    | exact ⟨trivial, rfl⟩
    | exact ⟨trivial, trivial⟩
    | exact parseLine_shift E p l k

theorem dispatch_shift (E : Env) (p : Parser) (l : Str) (k : Nat) :
    (dispatch E { p with currentLine := k } l).1 = { (dispatch E p l).1 with currentLine := k } ∧
    (dispatch E { p with currentLine := k } l).2.eraseLine = (dispatch E p l).2.eraseLine := by
  unfold dispatch
  simp only []
  split
  · exact parseListLine_shift E p l k
  · split
    · exact parseExtendedListLine_shift E p l k
    · exact parseLine_shift E p l k

/-- Two runs of the loop that differ in the line counter only: same result up to the
line numbers, same target. -/
theorem parseLoop_shift (E : Env) (ls : List Str) : ∀ (p : Parser) (k : Nat),
    (parseLoop E { p with currentLine := k } ls).2.eraseLine = (parseLoop E p ls).2.eraseLine ∧
    (parseLoop E { p with currentLine := k } ls).1.rv = (parseLoop E p ls).1.rv := by
  induction ls with
  | nil => intro p k; exact ⟨rfl, rfl⟩
  | cons l ls ih =>
    intro p k
    by_cases h1 : stopLine l
    · rw [parseLoop_stop E _ l _ h1, parseLoop_stop E p l _ h1]
      exact ⟨rfl, rfl⟩
    · by_cases h2 : skipLine l
      · rw [parseLoop_skip E _ l _ h1 h2, parseLoop_skip E p l _ h1 h2]
        exact ih { p with currentLine := p.currentLine + 1 } (k + 1)
      · obtain ⟨hs1, hs2⟩ := dispatch_shift E { p with currentLine := p.currentLine + 1 } l
          (k + 1)
        by_cases h3 : (dispatch E { p with currentLine := p.currentLine + 1 } l).2 = Res.ok
        · have h3k : (dispatch E { p with currentLine := k + 1 } l).2 = Res.ok := by
            rw [h3] at hs2
            exact (eraseLine_eq_ok _).1 hs2
          rw [parseLoop_content_ok E p l _ h1 h2 h3,
            parseLoop_content_ok E { p with currentLine := k } l _ h1 h2 h3k]
          have hk : (dispatch E { p with currentLine := k + 1 } l).1 =
              { (dispatch E { p with currentLine := p.currentLine + 1 } l).1 with
                currentLine := k + 1 } := hs1
          rw [show ({ ({ p with currentLine := k } : Parser) with currentLine := k + 1 } : Parser)
            = { p with currentLine := k + 1 } from rfl, hk]
          exact ih _ (k + 1)
        · have h3k : (dispatch E { p with currentLine := k + 1 } l).2 ≠ Res.ok := by
            intro h
            apply h3
            rw [h] at hs2
            exact (eraseLine_eq_ok _).1 hs2.symm
          rw [parseLoop_content_stop E p l _ h1 h2 h3,
            parseLoop_content_stop E { p with currentLine := k } l _ h1 h2 h3k]
          refine ⟨hs2, ?_⟩
          have hk : (dispatch E { p with currentLine := k + 1 } l).1 =
              { (dispatch E { p with currentLine := p.currentLine + 1 } l).1 with
                currentLine := k + 1 } := hs1
          show (dispatch E { p with currentLine := k + 1 } l).1.rv = _
          rw [hk]

theorem parseLoop_insert_skipped (E : Env) (c : Str) (post : List Str) (hc1 : ¬ stopLine c)
    (hc2 : skipLine c) (pre : List Str) : ∀ p : Parser,
    (parseLoop E p (pre ++ c :: post)).2.eraseLine = (parseLoop E p (pre ++ post)).2.eraseLine ∧
    (parseLoop E p (pre ++ c :: post)).1.rv = (parseLoop E p (pre ++ post)).1.rv := by
  induction pre with
  | nil =>
    intro p
    rw [List.nil_append, List.nil_append, parseLoop_skip E p c post hc1 hc2]
    exact parseLoop_shift E post p (p.currentLine + 1)
  | cons l pre ih =>
    intro p
    by_cases h1 : stopLine l
    · rw [List.cons_append, List.cons_append, parseLoop_stop E p l _ h1,
        parseLoop_stop E p l _ h1]
      exact ⟨rfl, rfl⟩
    · by_cases h2 : skipLine l
      · rw [List.cons_append, List.cons_append, parseLoop_skip E p l _ h1 h2,
          parseLoop_skip E p l _ h1 h2]
        exact ih _
      · by_cases h3 : (dispatch E { p with currentLine := p.currentLine + 1 } l).2 = Res.ok
        · rw [List.cons_append, List.cons_append, parseLoop_content_ok E p l _ h1 h2 h3,
            parseLoop_content_ok E p l _ h1 h2 h3]
          exact ih _
        · rw [List.cons_append, List.cons_append, parseLoop_content_stop E p l _ h1 h2 h3,
            parseLoop_content_stop E p l _ h1 h2 h3]
          exact ⟨rfl, rfl⟩

/-- C19. Blank and comment lines change nothing: for every document `pre ++ post` and
every line `c` whose trimmed text is empty, or starts with `#` but not with `###`,
decoding `pre ++ [c] ++ post` gives the same result as decoding `pre ++ post` up to
the line numbers that the messages carry (the same success, panic, or error with
the same names), and the same final target. -/
theorem C19_skipped_line_changes_nothing (E : Env) (v : Target) (pre post : List Str) (c : Str)
    (hc : trimSpace c = [] ∨
      ((trimSpace c).head? = some '#' ∧ ¬ "###".toList <+: trimSpace c)) :
    (decode E v (pre ++ [c] ++ post)).1.eraseLine = (decode E v (pre ++ post)).1.eraseLine ∧
    (decode E v (pre ++ [c] ++ post)).2 = (decode E v (pre ++ post)).2 := by
  have hskip : skipLine c := by
    unfold skipLine
    rcases hc with h | ⟨h, _⟩
    · left; rw [h]; decide
    · right; exact h
  have hstop : ¬ stopLine c := by
    unfold stopLine
    rintro ⟨h3, ht⟩
    rcases hc with h | ⟨_, h⟩
    · rw [h] at h3; simp at h3
    · apply h
      refine ⟨(trimSpace c).drop 3, ?_⟩
      rw [← ht]
      exact List.take_append_drop 3 _
  have h := parseLoop_insert_skipped E c post hstop hskip pre
    { mode := Mode.modeRoot, currentSigWs := [], rv := v, currentLine := 0,
      listField := [], listName := [] }
  simp only [decode, parse_eq, List.append_assoc, List.singleton_append]
  exact h

/-- Witness of C19: a comment between the two lines of a failing document. -/
theorem C19_skipped_line_changes_nothing_witness :
    (decode Env.ascii confFile
        (["Name: x".toList] ++ ["  # note".toList] ++ ["Foo: 1".toList])).1.eraseLine =
      (decode Env.ascii confFile (["Name: x".toList] ++ ["Foo: 1".toList])).1.eraseLine ∧
    (decode Env.ascii confFile
        (["Name: x".toList] ++ ["  # note".toList] ++ ["Foo: 1".toList])).2 =
      (decode Env.ascii confFile (["Name: x".toList] ++ ["Foo: 1".toList])).2 :=
  C19_skipped_line_changes_nothing Env.ascii confFile ["Name: x".toList] ["Foo: 1".toList]
    "  # note".toList (by decide)

/-! ## Lemmas: what one line writes -/

theorem blockField_setBlockField_same (b : Block) (n : Str) (x v : BVal)
    (h : blockField b n = some x) : blockField (setBlockField b n v) n = some v := by
  induction b with
  | nil => unfold blockField at h; split at h <;> simp at h
  | cons f b ih =>
    obtain ⟨fn, fv⟩ := f
    unfold blockField at h
    by_cases hn : n = []
    · simp [hn] at h
    · simp only [hn, if_false] at h
      by_cases hf : fn = n
      · simp only [setBlockField, hf, if_true]
        unfold blockField
        simp [hn]
      · simp only [hf, if_false] at h
        simp only [setBlockField, hf, if_false]
        unfold blockField
        simp only [hn, if_false, hf]
        exact ih h

theorem blockField_setBlockField_other (b : Block) (n g : Str) (v : BVal) (h : g ≠ n) :
    blockField (setBlockField b n v) g = blockField b g := by
  induction b with
  | nil => rfl
  | cons f b ih =>
    obtain ⟨fn, fv⟩ := f
    by_cases hg : g = []
    · unfold blockField; simp [hg]
    · by_cases hf : fn = n
      · have hfg : ¬ n = g := fun e => h e.symm
        simp only [setBlockField, hf, if_true]
        unfold blockField
        simp [hg, hfg, hf]
      · simp only [setBlockField, hf, if_false]
        unfold blockField
        simp only [hg, if_false]
        by_cases hfg : fn = g
        · simp [hfg]
        · simp only [hfg, if_false]
          exact ih

/-- Setting a string field of a block to a string does not change its items. -/
theorem blockItems_setStr (b : Block) (n s x : Str) (h : blockField b n = some (BVal.str s)) :
    blockItems (setBlockField b n (BVal.str x)) = blockItems b := by
  unfold blockItems
  by_cases hn : "Items".toList = n
  · rw [hn, blockField_setBlockField_same b n _ _ h, h]
  · rw [blockField_setBlockField_other b n _ _ hn]

theorem applySettings_block (E : Env) (k : Nat) (ps : List Str) : ∀ b b2 : Block,
    applySettings E k ps b = Except.ok b2 →
    blockItems b2 = blockItems b ∧
    ∀ s, blockField b2 "Name".toList = some (BVal.str s) →
      ∃ s0, blockField b "Name".toList = some (BVal.str s0) ∧
        s = (nameSetting E ps).getD s0 := by
  induction ps with
  | nil =>
    intro b b2 h
    simp only [applySettings, Except.ok.injEq] at h
    subst h
    exact ⟨rfl, fun s hs => ⟨s, hs, rfl⟩⟩
  | cons piece ps ih =>
    intro b b2 h
    unfold applySettings at h
    split at h
    · rename_i parts0 parts1 rest hsp
      simp only [] at h
      split at h
      · rename_i f hf
        split at h
        · split at h
          · rename_i s1
            obtain ⟨h1, h2⟩ := ih _ _ h
            refine ⟨by rw [h1, blockItems_setStr b _ s1 _ hf], ?_⟩
            intro s hs
            obtain ⟨s0, hs0, hs2⟩ := h2 s hs
            by_cases hname : trimSpace (title E (toLower E parts0)) = "Name".toList
            · rw [hname] at hf hs0
              rw [blockField_setBlockField_same b _ _ _ hf] at hs0
              simp only [Option.some.injEq, BVal.str.injEq] at hs0
              refine ⟨s1, hf, ?_⟩
              rw [hs2, ← hs0]
              simp only [nameSetting, nameOfPiece, hsp, hname, if_true]
              cases nameSetting E ps <;> rfl
            · rw [blockField_setBlockField_other b _ _ _ (fun e => hname e.symm)] at hs0
              refine ⟨s0, hs0, ?_⟩
              rw [hs2]
              simp only [nameSetting, nameOfPiece, hsp, hname, if_false]
              cases nameSetting E ps <;> rfl
          · simp at h
        · simp at h
      · simp at h
    · rename_i hsp
      obtain ⟨h1, h2⟩ := ih _ _ h
      refine ⟨h1, ?_⟩
      intro s hs
      obtain ⟨s0, hs0, hs2⟩ := h2 s hs
      refine ⟨s0, hs0, ?_⟩
      rw [hs2]
      have hp : nameOfPiece E piece = none := by
        unfold nameOfPiece
        split
        · rename_i p0 p1 r hq
          exact absurd hq (hsp p0 p1 r)
        · rfl
      simp only [nameSetting, hp]
      cases nameSetting E ps <;> rfl

theorem applySettings_line (E : Env) (k : Nat) (ps : List Str) : ∀ (b : Block) (e : Err),
    applySettings E k ps b = Except.error e → ∀ m, e.lineOf = some m → m = k := by
  induction ps with
  | nil => intro b e h; simp [applySettings] at h
  | cons piece ps ih =>
    intro b e h m hm
    unfold applySettings at h
    split at h
    · simp only [] at h
      split at h
      · split at h
        · split at h
          · exact ih _ _ h m hm
          · simp only [Except.error.injEq] at h
            subst h
            simp [Err.lineOf] at hm
        · simp only [Except.error.injEq] at h
          subst h
          simpa [Err.lineOf, eq_comm] using hm
      · simp only [Except.error.injEq] at h
        subst h
        simpa [Err.lineOf, eq_comm] using hm
    · exact ih _ _ h m hm

theorem decl_blocks (E : Env) (l a b : Str) (t : Target) (setting : Str) (zero : Block)
    (isNil : Bool) (m : List (Str × Block)) (mode : Mode) (sig : Str) (k : Nat) (ln : Str)
    (hl : splitN2 ':' l = some (a, b)) (hs : setting = normalize E a)
    (hf : fieldByName t setting = some (Value.blocks zero isNil m)) :
    effect E l t
      (parseExtendListDeclaration E
        (Parser.mk mode sig (setField t setting (Value.blocks zero false m)) k setting ln)
        (trimSpace b)).2
      (parseExtendListDeclaration E
        (Parser.mk mode sig (setField t setting (Value.blocks zero false m)) k setting ln)
        (trimSpace b)).1.rv := by
  have hfs : fieldByName (setField t setting (Value.blocks zero false m)) setting
      = some (Value.blocks zero false m) := fieldByName_setField_same t setting _ _ hf
  have halloc : ∀ r : Res, effect E l t r (setField t setting (Value.blocks zero false m)) :=
    fun r => Or.inr ⟨setting, _, _, hf, rfl,
      Step.alloc r (Value.blocks zero isNil m) ⟨a, b, hl, hs⟩⟩
  unfold parseExtendListDeclaration
  simp only [hfs]
  split
  · rename_i xs hitems
    have h0 : blockItems (setBlockField zero "Items".toList (BVal.strSlice [])) = [] := by
      unfold blockItems
      rw [blockField_setBlockField_same zero _ _ _ hitems]
    split
    · rename_i e hnamed
      exact halloc _
    · rename_i mapElem1 hnamed
      have h1 : blockItems mapElem1 = [] ∧
          (∀ s, blockField mapElem1 "Name".toList = some (BVal.str s) →
            s = (split ' ' (trimSpace b)).headD []) := by
        split at hnamed
        · rename_i s0 hname
          simp only [Except.ok.injEq] at hnamed
          subst hnamed
          refine ⟨by rw [blockItems_setStr _ _ s0 _ hname, h0], ?_⟩
          intro s hs
          rw [blockField_setBlockField_same _ _ _ _ hname] at hs
          simp only [Option.some.injEq, BVal.str.injEq] at hs
          exact hs.symm
        · simp at hnamed
        · rename_i hname
          simp only [Except.ok.injEq] at hnamed
          subst hnamed
          refine ⟨h0, ?_⟩
          intro s hs
          rw [hname] at hs
          simp at hs
      split
      · exact halloc _
      · rename_i mapElem happly
        obtain ⟨hi, hn⟩ := applySettings_block E _ _ _ _ happly
        simp only [Bool.false_eq_true, if_false, setField_setField]
        refine Or.inr ⟨setting, _, _, hf, rfl, Step.declare zero isNil m _ mapElem ?_
          ⟨a, b, hl, hs, rfl, ?_⟩⟩
        · rw [hi, h1.1]
        · intro s hsn
          obtain ⟨s0, hs0, hs2⟩ := hn s hsn
          rw [hs2, h1.2 s0 hs0]
  · exact halloc _

theorem decl_ptr (E : Env) (l a b : Str) (t : Target) (setting : Str) (isNil : Bool)
    (mode : Mode) (sig : Str) (k : Nat) (ln sv : Str)
    (hl : splitN2 ':' l = some (a, b)) (hs : setting = normalize E a)
    (hf : fieldByName t setting = some (Value.ptrMap isNil)) :
    effect E l t
      (parseExtendListDeclaration E
        (Parser.mk mode sig (setField t setting (Value.ptrMap false)) k setting ln) sv).2
      (parseExtendListDeclaration E
        (Parser.mk mode sig (setField t setting (Value.ptrMap false)) k setting ln) sv).1.rv := by
  have hfs : fieldByName (setField t setting (Value.ptrMap false)) setting
      = some (Value.ptrMap false) := fieldByName_setField_same t setting _ _ hf
  unfold parseExtendListDeclaration
  simp only [hfs]
  exact Or.inr ⟨setting, _, _, hf, rfl, Step.alloc _ (Value.ptrMap isNil) ⟨a, b, hl, hs⟩⟩

theorem parseLine_effect (E : Env) (p : Parser) (l : Str) :
    effect E l p.rv (parseLine E p l).2 (parseLine E p l).1.rv := by
  unfold parseLine
  simp only []
  split
  · exact Or.inl rfl
  · rename_i a b hl
    split
    · exact Or.inl rfl
    · rename_i f hf
      split
      · split
        all_goals repeat' (first | split | simp only [])
        all_goals first
          | exact Or.inl rfl
          | exact Or.inr ⟨_, _, _, hf, rfl, Step.str _ _⟩
          | exact Or.inr ⟨_, _, _, hf, rfl, Step.int _ _ _⟩
          | exact Or.inr ⟨_, _, _, hf, rfl, Step.uint _ _ _⟩
          | exact Or.inr ⟨_, _, _, hf, rfl, Step.float _ _ _⟩
          | exact Or.inr ⟨_, _, _, hf, rfl, Step.bool _ _⟩
          | exact Or.inr ⟨_, _, _, hf, rfl, Step.alloc _ (Value.namedList _ _) ⟨a, b, hl, rfl⟩⟩
          | exact Or.inr ⟨_, _, _, hf, rfl, Step.alloc _ (Value.otherMap _ _) ⟨a, b, hl, rfl⟩⟩
          | exact decl_blocks E l a b p.rv _ _ _ _ _ _ _ _ hl rfl hf
          | exact decl_ptr E l a b p.rv _ _ _ _ _ _ _ hl rfl hf
      · exact Or.inl rfl

theorem parseListLine_effect (E : Env) (p : Parser) (l : Str) :
    effect E l p.rv (parseListLine E p l).2 (parseListLine E p l).1.rv := by
  unfold parseListLine
  split
  · exact parseLine_effect E p l
  · split
    all_goals repeat' (first | split | simp only [])
    all_goals first
      | exact Or.inl rfl
      | exact Or.inr ⟨_, _, _, by assumption, rfl, Step.item _⟩
      | exact Or.inr ⟨_, _, _, by assumption, rfl, Step.namedItem _ _ _⟩

theorem parseExtendedListLine_effect (E : Env) (p : Parser) (l : Str) :
    effect E l p.rv (parseExtendedListLine E p l).2 (parseExtendedListLine E p l).1.rv := by
  unfold parseExtendedListLine
  split
  · exact parseLine_effect E p l
  · repeat' (first | split | simp only [])
    all_goals exact Or.inl rfl

theorem dispatch_effect (E : Env) (p : Parser) (l : Str) :
    effect E l p.rv (dispatch E p l).2 (dispatch E p l).1.rv := by
  unfold dispatch
  split
  · exact parseListLine_effect E p l
  · split
    · exact parseExtendedListLine_effect E p l
    · exact parseLine_effect E p l

/-! ## Lemmas: the line that fails -/

theorem parseExtendListDeclaration_line (E : Env) (p : Parser) (l : Str) (e : Err)
    (h : (parseExtendListDeclaration E p l).2 = Res.fail e) :
    ∀ m, e.lineOf = some m → m = p.currentLine := by
  intro m hm
  unfold parseExtendListDeclaration at h
  simp only [] at h
  split at h
  · split at h
    · split at h
      · rename_i e1 hnamed
        simp only [Res.fail.injEq] at h
        subst h
        split at hnamed
        · simp at hnamed
        · simp only [Except.error.injEq] at hnamed
          subst hnamed
          simp [Err.lineOf] at hm
        · simp at hnamed
      · split at h
        · rename_i e1 happly
          simp only [Res.fail.injEq] at h
          subst h
          exact applySettings_line E _ _ _ _ happly m hm
        · split at h <;> simp at h
    · simp at h
  · simp at h

theorem parseLine_line (E : Env) (p : Parser) (l : Str) (e : Err)
    (h : (parseLine E p l).2 = Res.fail e) : ∀ m, e.lineOf = some m → m = p.currentLine := by
  intro m hm
  unfold parseLine at h
  simp only [] at h
  repeat' (first | split at h | simp only [] at h)
  all_goals first
    | (simp only [Res.fail.injEq] at h; subst h; simp [Err.lineOf] at hm; exact hm.symm)
    | (simp only [Res.fail.injEq] at h; subst h; simp [Err.lineOf] at hm)
    | exact parseExtendListDeclaration_line E _ _ e h m hm
    | simp at h

theorem parseListLine_line (E : Env) (p : Parser) (l : Str) (e : Err)
    (h : (parseListLine E p l).2 = Res.fail e) :
    ∀ m, e.lineOf = some m → m = p.currentLine := by
  intro m hm
  unfold parseListLine at h
  split at h
  · exact parseLine_line E p l e h m hm
  · repeat' (first | split at h | simp only [] at h)
    all_goals first
      | (simp only [Res.fail.injEq] at h; subst h; simp [Err.lineOf] at hm; exact hm.symm)
      | simp at h

theorem parseExtendedListLine_line (E : Env) (p : Parser) (l : Str) (e : Err)
    (h : (parseExtendedListLine E p l).2 = Res.fail e) :
    ∀ m, e.lineOf = some m → m = p.currentLine := by
  intro m hm
  unfold parseExtendedListLine at h
  split at h
  · exact parseLine_line E p l e h m hm
  · repeat' (first | split at h | simp only [] at h)
    all_goals first
      | (simp only [Res.fail.injEq] at h; subst h; simp [Err.lineOf] at hm; exact hm.symm)
      | simp at h

theorem dispatch_line (E : Env) (p : Parser) (l : Str) (e : Err)
    (h : (dispatch E p l).2 = Res.fail e) : ∀ m, e.lineOf = some m → m = p.currentLine := by
  unfold dispatch at h
  split at h
  · exact parseListLine_line E p l e h
  · split at h
    · exact parseExtendedListLine_line E p l e h
    · exact parseLine_line E p l e h

/-- A decode that returns an error stops at one line: the lines before it are read
without error and hold no terminator, and the method called for that line returns
the error. -/
theorem parseLoop_fail_split (E : Env) (ls : List Str) : ∀ (p q : Parser) (e : Err),
    parseLoop E p ls = (q, Res.fail e) →
    ∃ pre l post, ls = pre ++ l :: post ∧ (∀ x ∈ pre, ¬ stopLine x) ∧
      (parseLoop E p pre).2 = Res.ok ∧ ¬ skipLine l ∧
      dispatch E { (parseLoop E p pre).1 with
        currentLine := (parseLoop E p pre).1.currentLine + 1 } l = (q, Res.fail e) := by
  induction ls with
  | nil => intro p q e h; simp [parseLoop] at h
  | cons x ls ih =>
    intro p q e h
    by_cases h1 : stopLine x
    · rw [parseLoop_stop E p x _ h1] at h
      simp at h
    · by_cases h2 : skipLine x
      · rw [parseLoop_skip E p x _ h1 h2] at h
        obtain ⟨pre, l, post, hls, hpre, hok, hsk, hd⟩ := ih _ q e h
        refine ⟨x :: pre, l, post, by rw [hls]; rfl, ?_, ?_, hsk, ?_⟩
        · intro y hy
          rcases List.mem_cons.1 hy with rfl | hy
          · exact h1
          · exact hpre y hy
        · rw [parseLoop_skip E p x _ h1 h2]; exact hok
        · rw [parseLoop_skip E p x _ h1 h2]; exact hd
      · by_cases h3 : (dispatch E { p with currentLine := p.currentLine + 1 } x).2 = Res.ok
        · rw [parseLoop_content_ok E p x _ h1 h2 h3] at h
          obtain ⟨pre, l, post, hls, hpre, hok, hsk, hd⟩ := ih _ q e h
          refine ⟨x :: pre, l, post, by rw [hls]; rfl, ?_, ?_, hsk, ?_⟩
          · intro y hy
            rcases List.mem_cons.1 hy with rfl | hy
            · exact h1
            · exact hpre y hy
          · rw [parseLoop_content_ok E p x _ h1 h2 h3]; exact hok
          · rw [parseLoop_content_ok E p x _ h1 h2 h3]; exact hd
        · rw [parseLoop_content_stop E p x _ h1 h2 h3] at h
          exact ⟨[], x, ls, rfl, by simp, rfl, h2, h⟩

/-- The same, for `decode`: the failing line, its number, and the target. -/
theorem decode_fail_split (E : Env) (v : Target) (lines : List Str) (e : Err) (t : Target)
    (h : decode E v lines = (Res.fail e, t)) :
    ∃ pre l post, lines = pre ++ l :: post ∧ (∀ x ∈ pre, ¬ stopLine x) ∧
      (decode E v pre).1 = Res.ok ∧ ¬ skipLine l ∧
      decode E v (pre ++ [l]) = (Res.fail e, t) ∧
      (∀ m, e.lineOf = some m → m = pre.length + 1) ∧
      effect E l (decode E v pre).2 (Res.fail e) t := by
  simp only [decode, parse_eq, Prod.mk.injEq] at h
  obtain ⟨hr, ht⟩ := h
  generalize hp0 : (Parser.mk Mode.modeRoot [] v 0 [] []) = p0 at hr ht
  have hp0' : p0.currentLine = 0 := by rw [← hp0]
  obtain ⟨pre, l, post, hls, hpre, hok, hsk, hd⟩ := parseLoop_fail_split E lines p0
    (parseLoop E p0 lines).1 e (Prod.ext rfl hr)
  have hcl := parseLoop_currentLine E pre _ hpre hok
  rw [hp0', Nat.zero_add] at hcl
  have hstop : ¬ stopLine l := fun hs => hsk (skipLine_of_stopLine l hs)
  have hdec : ∀ ls, decode E v ls = ((parseLoop E p0 ls).2, (parseLoop E p0 ls).1.rv) := by
    intro ls; rw [← hp0]; rfl
  refine ⟨pre, l, post, hls, hpre, ?_, hsk, ?_, ?_, ?_⟩
  · rw [hdec]; exact hok
  · rw [hdec, parseLoop_append E pre [l] _ hpre hok,
      parseLoop_content_stop E _ l [] hstop hsk (by rw [hd]; simp), hd, ht]
  · intro m hm
    have := dispatch_line E _ l e (by rw [hd]) m hm
    rw [this]
    show (parseLoop E p0 pre).1.currentLine + 1 = pre.length + 1
    rw [hcl]
  · have he := dispatch_effect E { (parseLoop E p0 pre).1 with
        currentLine := (parseLoop E p0 pre).1.currentLine + 1 } l
    rw [hd, ht] at he
    rw [hdec]
    exact he

/-- Whenever a decode returns an error, it stops at one line `l` of the document,
the lines `pre` before it having been read without error; if the message of the
error carries a line number, that number is the 1-based physical number of `l`
(blank and comment lines counted). The messages that carry no line number are
those about the type of the field or of a member of the block: "Invalid slice
type", "Maps must have a key type of string", "Invalid map type", "Invalid type",
"Lists and named lists must be slices of strings", "Name field must be a string"
and "Invalid list setting type". -/
theorem error_line_number (E : Env) (v : Target) (lines : List Str) (e : Err) (t : Target)
    (h : decode E v lines = (Res.fail e, t)) :
    ∃ pre l post, lines = pre ++ l :: post ∧ (∀ x ∈ pre, ¬ stopLine x) ∧
      (decode E v pre).1 = Res.ok ∧ decode E v (pre ++ [l]) = (Res.fail e, t) ∧
      (∀ m, e.lineOf = some m → m = pre.length + 1) ∧
      (e.lineOf = none →
        (∃ s, e = Err.invalidSliceType s) ∨ (∃ s, e = Err.mapKeyType s) ∨
        (∃ s, e = Err.invalidMapType s) ∨ (∃ s k, e = Err.invalidType s k) ∨
        e = Err.listsMustBeSlices ∨ e = Err.nameFieldMustBeString ∨
        e = Err.invalidListSettingType) := by
  obtain ⟨pre, l, post, hls, hpre, hok, _, hd, hline, _⟩ := decode_fail_split E v lines e t h
  refine ⟨pre, l, post, hls, hpre, hok, hd, hline, ?_⟩
  intro hn
  cases e <;> simp [Err.lineOf] at hn ⊢

/-- C13 fails in the code: some errors carry no line number. On the struct of
`parser_test.go`, line 2 `Languages: English items=3` names the member `Items` of
the block, which is not a string, and the decode fails with "Invalid list setting
type", a message without line number; so does a line that names a field of an
unsupported kind ("Invalid type"). The sibling branches of the same `if` chain
format `p.currentLine`: on the same line, the attribute `foo=3`, which names no
member, gives "Invalid block setting" with the line number 2. -/
theorem C13_error_without_line_number :
    decode Env.ascii confFile ["Name: x".toList, "Languages: English items=3".toList] =
      (Res.fail Err.invalidListSettingType,
        setField (decode Env.ascii confFile ["Name: x".toList]).2 "Languages".toList
          (Value.blocks language false [])) ∧
    Err.lineOf Err.invalidListSettingType = none ∧
    (decode Env.ascii [{ name := "Ch".toList, val := Value.other "chan".toList }]
        ["".toList, "ch: 1".toList]).1 =
      Res.fail (Err.invalidType "Ch".toList "chan".toList) ∧
    Err.lineOf (Err.invalidType "Ch".toList "chan".toList) = none ∧
    (decode Env.ascii confFile ["Name: x".toList, "Languages: English foo=3".toList]).1 =
      Res.fail (Err.invalidBlockSetting "foo".toList 2) ∧
    Err.lineOf (Err.invalidBlockSetting "foo".toList 2) = some 2 := by
  decide

/-- C16 as stated fails: a line that names a map field allocates the map before the
declaration is checked. Here line 2 fails with "Invalid block setting", and the map
`Languages`, nil after line 1, is an empty map after the failed decode. -/
theorem C16_no_rollback_counterexample :
    decode Env.ascii confFile ["Name: x".toList, "Languages: English foo=bar".toList] =
      (Res.fail (Err.invalidBlockSetting "foo".toList 2),
        setField (decode Env.ascii confFile ["Name: x".toList]).2 "Languages".toList
          (Value.blocks language false [])) ∧
    (decode Env.ascii confFile ["Name: x".toList, "Languages: English foo=bar".toList]).2 ≠
      (decode Env.ascii confFile ["Name: x".toList]).2 := by
  decide

/-- C16, amended. Whenever a decode returns an error, it stops at one line `l` of the
document (line `n`); decoding only the lines `pre` before it (the first `n - 1`
lines) succeeds, and the target after the failed decode is the target after
decoding `pre`, except that the failing line, if it reads `key: ...`, may have
allocated the map of the field that its key names (`makeMap`: a nil map becomes an
empty one, the entries are unchanged). Nothing that was set before is rolled back
and no other field is changed. -/
theorem C16_no_rollback (E : Env) (v : Target) (lines : List Str) (e : Err) (t : Target)
    (h : decode E v lines = (Res.fail e, t)) :
    ∃ pre l post, lines = pre ++ l :: post ∧ (∀ x ∈ pre, ¬ stopLine x) ∧
      (decode E v pre).1 = Res.ok ∧ decode E v (pre ++ [l]) = (Res.fail e, t) ∧
      (t = (decode E v pre).2 ∨
        ∃ key rest val, splitN2 ':' l = some (key, rest) ∧
          fieldByName (decode E v pre).2 (normalize E key) = some val ∧
          t = setField (decode E v pre).2 (normalize E key) (makeMap val) ∧
          fieldByName t (normalize E key) = some (makeMap val) ∧
          ∀ g, g ≠ normalize E key → fieldByName t g = fieldByName (decode E v pre).2 g) := by
  obtain ⟨pre, l, post, hls, hpre, hok, _, hd, _, heff⟩ := decode_fail_split E v lines e t h
  refine ⟨pre, l, post, hls, hpre, hok, hd, ?_⟩
  rcases heff with h1 | ⟨n, old, new, hf, ht, hstep⟩
  · exact Or.inl h1
  · right
    cases hstep with
    | alloc _ _ hn =>
      obtain ⟨key, rest, hl, rfl⟩ := hn
      refine ⟨key, rest, old, hl, hf, ht, ?_, ?_⟩
      · rw [ht]
        exact fieldByName_setField_same _ _ _ _ hf
      · intro g hg
        rw [ht]
        exact fieldByName_setField_other _ _ g _ hg

/-- Witness of C16 on a document that fails at its third line, where the map
`Languages`, nil after two lines, is allocated by the failing line. -/
theorem C16_no_rollback_witness :
    ∃ pre l post, ["Name: x".toList, "id number: 7".toList,
        "Languages: English foo=bar".toList, "Name: y".toList] =
        pre ++ l :: post ∧ (∀ x ∈ pre, ¬ stopLine x) ∧
      (decode Env.ascii confFile pre).1 = Res.ok ∧
      decode Env.ascii confFile (pre ++ [l]) =
        (Res.fail (Err.invalidBlockSetting "foo".toList 3),
          setField (decode Env.ascii confFile ["Name: x".toList, "id number: 7".toList]).2
            "Languages".toList (Value.blocks language false [])) ∧
      (setField (decode Env.ascii confFile ["Name: x".toList, "id number: 7".toList]).2
            "Languages".toList (Value.blocks language false []) =
          (decode Env.ascii confFile pre).2 ∨
        ∃ key rest val, splitN2 ':' l = some (key, rest) ∧
          fieldByName (decode Env.ascii confFile pre).2 (normalize Env.ascii key) = some val ∧
          setField (decode Env.ascii confFile ["Name: x".toList, "id number: 7".toList]).2
            "Languages".toList (Value.blocks language false []) =
            setField (decode Env.ascii confFile pre).2 (normalize Env.ascii key)
              (makeMap val) ∧
          fieldByName
            (setField (decode Env.ascii confFile ["Name: x".toList, "id number: 7".toList]).2
              "Languages".toList (Value.blocks language false []))
            (normalize Env.ascii key) = some (makeMap val) ∧
          ∀ g, g ≠ normalize Env.ascii key →
            fieldByName
              (setField
                (decode Env.ascii confFile ["Name: x".toList, "id number: 7".toList]).2
                "Languages".toList (Value.blocks language false [])) g =
            fieldByName (decode Env.ascii confFile pre).2 g) :=
  C16_no_rollback Env.ascii confFile
    ["Name: x".toList, "id number: 7".toList, "Languages: English foo=bar".toList,
     "Name: y".toList]
    (Err.invalidBlockSetting "foo".toList 3)
    (setField (decode Env.ascii confFile ["Name: x".toList, "id number: 7".toList]).2
      "Languages".toList (Value.blocks language false [])) (by decide)

/-! ## Lemmas: invariants of the target -/

theorem parseLoop_invariant (E : Env) (I : Target → Prop) (C : Str → Prop)
    (hstep : ∀ (p : Parser) (l : Str), ¬ skipLine l → C l → I p.rv → I (dispatch E p l).1.rv)
    (ls : List Str) : ∀ p : Parser, (∀ l ∈ ls, C l) → I p.rv → I (parseLoop E p ls).1.rv := by
  induction ls with
  | nil => intro p _ h; exact h
  | cons l ls ih =>
    intro p hc h
    have hc2 : ∀ x ∈ ls, C x := fun x hx => hc x (List.mem_cons_of_mem _ hx)
    by_cases h1 : stopLine l
    · rw [parseLoop_stop E p l _ h1]; exact h
    · by_cases h2 : skipLine l
      · rw [parseLoop_skip E p l _ h1 h2]
        exact ih _ hc2 h
      · have hd := hstep { p with currentLine := p.currentLine + 1 } l h2 (hc l (by simp)) h
        by_cases h3 : (dispatch E { p with currentLine := p.currentLine + 1 } l).2 = Res.ok
        · rw [parseLoop_content_ok E p l _ h1 h2 h3]
          exact ih _ hc2 hd
        · rw [parseLoop_content_stop E p l _ h1 h2 h3]
          exact hd

theorem mem_of_fieldByName (t : Target) (n : Str) (x : Value) (h : fieldByName t n = some x) :
    ∃ f ∈ t, f.name = n ∧ f.val = x := by
  by_cases hn : n = []
  · unfold fieldByName at h
    simp [hn] at h
  · induction t with
    | nil => simp [fieldByName] at h
    | cons g t ih =>
      by_cases hg : g.name = n
      · simp only [fieldByName, hg, hn, if_true, if_false, Option.some.injEq] at h
        exact ⟨g, by simp, hg, h⟩
      · simp only [fieldByName, hg, hn, if_false] at h
        obtain ⟨f, hf, hv⟩ := ih h
        exact ⟨f, List.mem_cons_of_mem _ hf, hv⟩

theorem mem_setField (t : Target) (n : Str) (v : Value) (f : Field)
    (h : f ∈ setField t n v) : f ∈ t ∨ (f.name = n ∧ f.val = v) := by
  induction t with
  | nil => simp [setField] at h
  | cons g t ih =>
    by_cases hg : g.name = n
    · simp only [setField, hg, if_true, List.mem_cons] at h
      rcases h with h | h
      · right; rw [h]; exact ⟨rfl, rfl⟩
      · left; exact List.mem_cons_of_mem _ h
    · simp only [setField, hg, if_false, List.mem_cons] at h
      rcases h with h | h
      · left; rw [h]; simp
      · rcases ih h with h | h
        · left; exact List.mem_cons_of_mem _ h
        · right; exact h

/-- A property of the fields, by name and value, that every write keeps is kept by
every method of the parser. -/
theorem effect_invariant (E : Env) (l : Str) (G : Str → Value → Prop) (t t2 : Target)
    (r : Res) (he : effect E l t r t2)
    (hG : ∀ n old new, Step E l n r old new → G n old → G n new)
    (h : ∀ f ∈ t, G f.name f.val) : ∀ f ∈ t2, G f.name f.val := by
  rcases he with rfl | ⟨n, old, new, hf, rfl, hstep⟩
  · exact h
  · intro f hfm
    obtain ⟨g, hg, hgn, hgv⟩ := mem_of_fieldByName t n old hf
    rcases mem_setField t n new f hfm with h1 | ⟨h1, h2⟩
    · exact h f h1
    · rw [h1, h2]
      have hgG := h g hg
      rw [hgn, hgv] at hgG
      exact hG n old new hstep hgG

theorem mem_setMapIndex {α : Type} (m : List (Str × α)) (k : Str) (v : α) (x : Str × α)
    (h : x ∈ setMapIndex m k v) : x ∈ m ∨ x = (k, v) := by
  induction m with
  | nil => simp [setMapIndex] at h; exact Or.inr h
  | cons a m ih =>
    obtain ⟨k1, v1⟩ := a
    by_cases hk : k1 = k
    · simp only [setMapIndex, hk, if_true, List.mem_cons] at h
      rcases h with h | h
      · exact Or.inr h
      · exact Or.inl (List.mem_cons_of_mem _ h)
    · simp only [setMapIndex, hk, if_false, List.mem_cons] at h
      rcases h with h | h
      · left; rw [h]; simp
      · rcases ih h with h | h
        · exact Or.inl (List.mem_cons_of_mem _ h)
        · exact Or.inr h

theorem mem_of_mapIndex {α : Type} (m : List (Str × α)) (k : Str) (v : α)
    (h : mapIndex m k = some v) : (k, v) ∈ m := by
  induction m with
  | nil => simp [mapIndex] at h
  | cons a m ih =>
    obtain ⟨k1, v1⟩ := a
    by_cases hk : k1 = k
    · simp only [mapIndex, hk, if_true, Option.some.injEq] at h
      rw [hk, h]; simp
    · simp only [mapIndex, hk, if_false] at h
      exact List.mem_cons_of_mem _ (ih h)

/-- The trimmed text of a line that is neither blank nor a comment is a well-formed
item. -/
theorem goodItem_trimSpace (l : Str) (h : ¬ skipLine l) : goodItem (trimSpace l) := by
  unfold skipLine at h
  refine ⟨?_, trimSpace_head l, trimSpace_getLast l, fun hh => h (Or.inr hh)⟩
  intro he
  apply h
  left
  rw [he]
  decide

theorem step_items (E : Env) (l n : Str) (r : Res) (old new : Value) (hl : ¬ skipLine l)
    (hs : Step E l n r old new) (h : ∀ s ∈ itemStrings old, goodItem s) :
    ∀ s ∈ itemStrings new, goodItem s := by
  cases hs with
  | alloc r val _ => cases old <;> exact h
  | str _ _ => intro s hs; simp [itemStrings] at hs
  | int _ _ _ => intro s hs; simp [itemStrings] at hs
  | uint _ _ _ => intro s hs; simp [itemStrings] at hs
  | float _ _ _ => intro s hs; simp [itemStrings] at hs
  | bool _ _ => intro s hs; simp [itemStrings] at hs
  | item xs =>
    intro s hs
    simp only [itemStrings, List.mem_append, List.mem_singleton] at hs h
    rcases hs with hs | rfl
    · exact h s hs
    · exact goodItem_trimSpace l hl
  | namedItem isNil m k =>
    intro s hs
    simp only [itemStrings, List.mem_flatten, List.mem_map] at hs h
    obtain ⟨xs, ⟨kv, hkv, rfl⟩, hsx⟩ := hs
    rcases mem_setMapIndex m k _ kv hkv with hm | rfl
    · exact h s ⟨kv.2, ⟨kv, hm, rfl⟩, hsx⟩
    · simp only [List.mem_append, List.mem_singleton] at hsx
      rcases hsx with hsx | rfl
      · cases hmi : mapIndex m k with
        | none => rw [hmi] at hsx; simp at hsx
        | some ys =>
          rw [hmi] at hsx
          exact h s ⟨ys, ⟨(k, ys), mem_of_mapIndex m k ys hmi, rfl⟩, hsx⟩
      · exact goodItem_trimSpace l hl
  | declare zero isNil m name mapElem hitems _ =>
    intro s hs
    simp only [itemStrings, List.mem_flatten, List.mem_map] at hs h
    obtain ⟨xs, ⟨kb, hkb, rfl⟩, hsx⟩ := hs
    rcases mem_setMapIndex m name _ kb hkb with hm | rfl
    · exact h s ⟨blockItems kb.2, ⟨kb, hm, rfl⟩, hsx⟩
    · rw [hitems] at hsx
      simp at hsx

/-- C20. For every document and every target whose lists, named lists and block
`Items` hold no string at the start, after decoding, whatever the result (success,
error or panic), every string held in a list-of-string field, in an entry of a map
of named lists or in the `Items` of a block is not empty, has no white space at
its start or at its end, and does not start with `#`. -/
theorem C20_items_well_formed (E : Env) (v : Target) (lines : List Str)
    (hstart : ∀ f ∈ v, itemStrings f.val = []) :
    ∀ f ∈ (decode E v lines).2, ∀ s ∈ itemStrings f.val,
      s ≠ [] ∧ (∀ c, s.head? = some c → isSpace c = false) ∧
      (∀ c, s.getLast? = some c → isSpace c = false) ∧ s.head? ≠ some '#' := by
  have h := parseLoop_invariant E (fun t => ∀ f ∈ t, ∀ s ∈ itemStrings f.val, goodItem s)
    (fun _ => True)
    (fun p l hl _ hI => effect_invariant E l (fun _ val => ∀ s ∈ itemStrings val, goodItem s)
      p.rv _ _ (dispatch_effect E p l) (fun n old new hs => step_items E l n _ old new hl hs)
      hI)
    lines (Parser.mk Mode.modeRoot [] v 0 [] []) (fun _ _ => trivial)
    (by intro f hf s hs; rw [hstart f hf] at hs; simp at hs)
  exact h

/-- Witness of C20 on a document with a list, a named list and an error. -/
theorem C20_items_well_formed_witness :
    (∀ f ∈ confFile, itemStrings f.val = []) ∧
    (∀ f ∈ (decode Env.ascii confFile
        ["Hobbies:".toList, "  Chess ".toList, "work places: Acme".toList,
         "\t Office1".toList, "Foo".toList]).2,
      ∀ s ∈ itemStrings f.val,
        s ≠ [] ∧ (∀ c, s.head? = some c → isSpace c = false) ∧
        (∀ c, s.getLast? = some c → isSpace c = false) ∧ s.head? ≠ some '#') :=
  ⟨by decide, C20_items_well_formed Env.ascii confFile
    ["Hobbies:".toList, "  Chess ".toList, "work places: Acme".toList,
     "\t Office1".toList, "Foo".toList] (by decide)⟩

/-- Every entry of a map of named blocks was in the map of the same field before the
write, or is the entry that the line declares. -/
theorem step_entries (E : Env) (l n : Str) (r : Res) (old new : Value)
    (hs : Step E l n r old new) :
    ∀ kb ∈ blockEntries new, kb ∈ blockEntries old ∨ declares E l n kb := by
  cases hs with
  | alloc r val _ => intro kb hkb; left; cases old <;> exact hkb
  | str _ _ => intro kb hkb; simp [blockEntries] at hkb
  | int _ _ _ => intro kb hkb; simp [blockEntries] at hkb
  | uint _ _ _ => intro kb hkb; simp [blockEntries] at hkb
  | float _ _ _ => intro kb hkb; simp [blockEntries] at hkb
  | bool _ _ => intro kb hkb; simp [blockEntries] at hkb
  | item xs => intro kb hkb; simp [blockEntries] at hkb
  | namedItem isNil m k => intro kb hkb; simp [blockEntries] at hkb
  | declare zero isNil m name mapElem _ hd =>
    intro kb hkb
    rcases mem_setMapIndex m name _ kb hkb with hm | rfl
    · exact Or.inl hm
    · exact Or.inr hd

/-- C17, as the claim states it, refuted: the declaration line
`Languages: English name=French` creates the entry of key `English`, and the token
`name=French` overwrites the `Name` the first token gave it. -/
theorem C17_block_name_counterexample :
    decode Env.ascii confFile ["Languages: English name=French".toList] =
      (Res.ok, setField confFile "Languages".toList
        (Value.blocks language false
          [("English".toList,
            [("Name".toList, BVal.str "French".toList), ("Items".toList, BVal.strSlice []),
             ("Native".toList, BVal.str [])])])) ∧
    blockField
      [("Name".toList, BVal.str "French".toList), ("Items".toList, BVal.strSlice []),
       ("Native".toList, BVal.str [])] "Name".toList = some (BVal.str "French".toList) ∧
    "French".toList ≠ "English".toList := by
  decide

/-- C17, amended. After decoding any document into any target, whatever the result,
every entry (k, b) of a map-of-string-to-block field either was an entry of that
field before the decoding, or was created by a line of the document that reads
`key: name attribute=value ...` with a key that normalizes to the name of the
field; then k is `name`, the first token after the colon, and if the block has a
string field `Name`: when no token `attribute=value` after the first has an
attribute that normalizes to `Name`, b.Name is k; otherwise b.Name is the value of
the last such token, while the key stays k. -/
theorem C17_block_name (E : Env) (v : Target) (lines : List Str) :
    ∀ f ∈ (decode E v lines).2, ∀ kb ∈ blockEntries f.val,
      (∃ f0 ∈ v, f0.name = f.name ∧ kb ∈ blockEntries f0.val) ∨
      ∃ l ∈ lines, ∃ key rest, splitN2 ':' l = some (key, rest) ∧
        f.name = normalize E key ∧
        kb.1 = (split ' ' (trimSpace rest)).headD [] ∧
        ∀ s, blockField kb.2 "Name".toList = some (BVal.str s) →
          (nameSetting E (split ' ' (trimSpace rest)).tail = none → s = kb.1) ∧
          (∀ x, nameSetting E (split ' ' (trimSpace rest)).tail = some x → s = x) := by
  have h := parseLoop_invariant E
    (fun t => ∀ f ∈ t, ∀ kb ∈ blockEntries f.val,
      (∃ f0 ∈ v, f0.name = f.name ∧ kb ∈ blockEntries f0.val) ∨
      ∃ l ∈ lines, declares E l f.name kb)
    (fun l => l ∈ lines)
    (fun p l _ hl hI => effect_invariant E l
      (fun n val => ∀ kb ∈ blockEntries val,
        (∃ f0 ∈ v, f0.name = n ∧ kb ∈ blockEntries f0.val) ∨ ∃ l ∈ lines, declares E l n kb)
      p.rv _ _ (dispatch_effect E p l)
      (fun n old new hs hold kb hkb =>
        (step_entries E l n _ old new hs kb hkb).elim (fun ho => hold kb ho)
          (fun hd => Or.inr ⟨l, hl, hd⟩))
      hI)
    lines (Parser.mk Mode.modeRoot [] v 0 [] []) (fun _ hl => hl)
    (fun f hf kb hkb => Or.inl ⟨f, hf, rfl, hkb⟩)
  intro f hf kb hkb
  rcases h f hf kb hkb with h1 | ⟨l, hl, key, rest, hsp, hn, hk, hname⟩
  · exact Or.inl h1
  · refine Or.inr ⟨l, hl, key, rest, hsp, hn, hk, ?_⟩
    intro s hs
    have h2 := hname s hs
    constructor
    · intro hnone
      rw [hnone] at h2
      exact h2
    · intro x hx
      rw [hx] at h2
      exact h2

/-- Witness of C17 on a document with two declarations of the same field: the entry
`English` of `Languages`, whose `Name` is `French`, was created by the first line. -/
theorem C17_block_name_witness :
    (∃ f0 ∈ confFile, f0.name = "Languages".toList ∧
      ("English".toList,
        [("Name".toList, BVal.str "French".toList), ("Items".toList, BVal.strSlice []),
         ("Native".toList, BVal.str [])]) ∈ blockEntries f0.val) ∨
    ∃ l ∈ ["Languages: English name=French".toList, "Languages: German".toList],
      ∃ key rest, splitN2 ':' l = some (key, rest) ∧
        "Languages".toList = normalize Env.ascii key ∧
        "English".toList = (split ' ' (trimSpace rest)).headD [] ∧
        ∀ s, blockField
            [("Name".toList, BVal.str "French".toList), ("Items".toList, BVal.strSlice []),
             ("Native".toList, BVal.str [])] "Name".toList = some (BVal.str s) →
          (nameSetting Env.ascii (split ' ' (trimSpace rest)).tail = none →
            s = "English".toList) ∧
          (∀ x, nameSetting Env.ascii (split ' ' (trimSpace rest)).tail = some x → s = x) :=
  C17_block_name Env.ascii confFile
    ["Languages: English name=French".toList, "Languages: German".toList]
    { name := "Languages".toList,
      val := Value.blocks language false
        [("English".toList,
          [("Name".toList, BVal.str "French".toList), ("Items".toList, BVal.strSlice []),
           ("Native".toList, BVal.str [])]),
         ("German".toList,
          [("Name".toList, BVal.str "German".toList), ("Items".toList, BVal.strSlice []),
           ("Native".toList, BVal.str [])])] }
    (by decide)
    ("English".toList,
      [("Name".toList, BVal.str "French".toList), ("Items".toList, BVal.strSlice []),
       ("Native".toList, BVal.str [])])
    (by decide)

end Ecf
